import Mathlib

/-!
# Verification of the LaCAM MAPF solver (`src/app.js`)

This file is a shallow embedding, in Lean 4, of the algorithmic core of the
LaCAM multi-agent path-finding solver found in `src/app.js` (classes `Graph`,
`Agent`, `Configuration`, `HighLevelNode`, `LowLevelNode`, `LaCAM`), together
with proofs about it.

Modelling conventions, fixed once here:

* JavaScript `Map`/`Set` collections become association lists / plain lists;
  a `Set`'s iteration order (= insertion order) becomes the list order.
* Mutable object graphs become explicit id-keyed arenas inside a pure state
  record; a method that mutates `this` becomes a function returning the new
  record.
* JS `null`/absent values become `Option`.
* `Configuration` wraps a plain array of vertex ids; its `hash()` is the
  comma-join of the decimal numerals, which is injective on lists of natural
  numbers, so we model the fingerprint by the location list itself.
* Agents: the application (`app.js`, `addAgent`/`removeSelectedAgent`) keeps
  `agents[i].id === i` at all times (new agents get id `agents.length`,
  removal reindexes).  We therefore model the agent array positionally:
  agent `i` is the `i`-th entry of the agent list and carries only its
  `start` and `goal` vertex.
* `description` strings and the per-phase explanation texts are pure
  presentation data, never read by the algorithm; they are omitted.
* Fuelled recursion replaces loops whose termination depends on state
  invariants (BFS, parent walks); the fuel is always chosen large enough,
  and the sufficiency is proved.
-/

namespace LaCAMJS

/-! ## Generic list helpers -/

/-- Number of elements of `l` failing `p` can only shrink when the predicate
becomes harder to fail; it strictly shrinks when a kept element flips. -/
theorem filter_length_lt_of_flip {α : Type} (l : List α) (p q : α → Bool)
    (hmono : ∀ x, q x = true → p x = true)
    (x : α) (hx : x ∈ l) (hpx : p x = true) (hqx : q x = false) :
    (l.filter q).length < (l.filter p).length := by
  induction l with
  | nil => cases hx
  | cons a l ih =>
    rcases List.mem_cons.mp hx with h | h
    · subst h
      simp only [List.filter_cons, hpx, hqx]
      have hle : (l.filter q).length ≤ (l.filter p).length := by
        apply List.Sublist.length_le
        exact (List.monotone_filter_right l (by intro x hx; exact hmono x hx))
      simpa using Nat.lt_succ_of_le hle
    · have hmain := ih h
      by_cases hqa : q a = true
      · have hpa : p a = true := hmono a hqa
        simp only [List.filter_cons, hpa, hqa, if_true]
        simpa using Nat.succ_lt_succ hmain
      · have hqa' : q a = false := by simpa using hqa
        by_cases hpa : p a = true
        · simp only [List.filter_cons, hpa, hqa', if_true]
          simp only [Bool.false_eq_true, if_false, List.length_cons]
          exact Nat.lt_succ_of_lt hmain
        · have hpa' : p a = false := by simpa using hpa
          simp only [List.filter_cons, hpa', hqa', Bool.false_eq_true, if_false]
          exact hmain

/-- Weak version of `filter_length_lt_of_flip`. -/
theorem filter_length_le_of_mono {α : Type} (l : List α) (p q : α → Bool)
    (hmono : ∀ x, q x = true → p x = true) :
    (l.filter q).length ≤ (l.filter p).length :=
  List.Sublist.length_le
    (List.monotone_filter_right l (by intro x hx; exact hmono x hx))

/-- A duplicate-free list included in `m` is no longer than `m`. -/
theorem nodup_length_le {α : Type} [DecidableEq α] {l m : List α}
    (hl : l.Nodup) (hsub : ∀ x ∈ l, x ∈ m) : l.length ≤ m.length := by
  classical
  calc l.length = l.toFinset.card := (List.toFinset_card_of_nodup hl).symm
    _ ≤ m.toFinset.card := Finset.card_le_card (by
        intro x hx
        exact List.mem_toFinset.mpr (hsub x (List.mem_toFinset.mp hx)))
    _ ≤ m.length := m.toFinset_card_le

/-! ## A stable sort, modelling `Array.prototype.sort`

ECMAScript's `Array.prototype.sort` is specified to be stable and, for a
consistent comparator, to produce the list ordered by the comparator.  The
source always uses consistent comparators (`b.dist - a.dist` style, where a
`NaN` difference of two infinities counts as a tie), so any stable sort is an
exact model of its observable result.  We use insertion sort: `lt x y = true`
means the comparator puts `x` strictly before `y`; on a tie the incoming
element is placed after the elements already present, which is stability. -/

def insertStable {α : Type} (lt : α → α → Bool) (x : α) : List α → List α
  | [] => [x]
  | y :: ys => if lt x y then x :: y :: ys else y :: insertStable lt x ys

def sortStable {α : Type} (lt : α → α → Bool) (l : List α) : List α :=
  l.foldl (fun acc x => insertStable lt x acc) []

theorem insertStable_perm {α : Type} (lt : α → α → Bool) (x : α) (l : List α) :
    List.Perm (insertStable lt x l) (x :: l) := by
  induction l with
  | nil => simp [insertStable]
  | cons y ys ih =>
    by_cases h : lt x y = true
    · simp [insertStable, h]
    · simp only [insertStable, h, if_false]
      exact (List.Perm.cons y ih).trans (List.Perm.swap x y ys)

theorem sortStable_perm {α : Type} (lt : α → α → Bool) (l : List α) :
    List.Perm (sortStable lt l) l := by
  suffices h : ∀ acc : List α,
      List.Perm (l.foldl (fun acc x => insertStable lt x acc) acc) (l ++ acc) by
    simpa [sortStable] using h []
  induction l with
  | nil => intro acc; simp
  | cons a l ih =>
    intro acc
    simp only [List.foldl_cons]
    refine (ih (insertStable lt a acc)).trans ?_
    refine (List.Perm.append_left l (insertStable_perm lt a acc)).trans ?_
    exact List.perm_middle

/-- The output order of a stable sort: `a` ends up before `b` iff the
comparator puts it strictly first, or they tie and `a` was before `b` in the
input (input order `S`).  `hTrans` and `hTie` say the comparator is
consistent, which holds for every comparator in the source. -/
theorem sortStable_pairwise {α : Type} (lt : α → α → Bool) (S : α → α → Prop)
    (hTrans : ∀ a b c, lt a b = true → lt b c = true → lt a c = true)
    (hTie : ∀ a b c, lt a b = true → lt b c = false → lt c b = false → lt a c = true)
    (l : List α) (hS : l.Pairwise S) :
    (sortStable lt l).Pairwise
      (fun a b => lt a b = true ∨ (lt a b = false ∧ lt b a = false ∧ S a b)) := by
  set R : α → α → Prop :=
    fun a b => lt a b = true ∨ (lt a b = false ∧ lt b a = false ∧ S a b) with hR
  have hRtot : ∀ x y, S y x → R y x ∨ lt x y = true := by
    intro x y hSyx
    cases hxy : lt x y
    · cases hyx : lt y x
      · exact Or.inl (Or.inr ⟨hyx, hxy, hSyx⟩)
      · exact Or.inl (Or.inl hyx)
    · exact Or.inr rfl
  have hIns : ∀ (x : α) (acc : List α), acc.Pairwise R → (∀ y ∈ acc, S y x) →
      (insertStable lt x acc).Pairwise R := by
    intro x acc
    induction acc with
    | nil => intro _ _; simp [insertStable]
    | cons y ys ih =>
      intro hpw hSacc
      by_cases hxy : lt x y = true
      · simp only [insertStable, hxy, if_true]
        have hyR : ∀ z ∈ ys, R y z := fun z hz => (List.pairwise_cons.mp hpw).1 z hz
        refine List.pairwise_cons.mpr ⟨?_, hpw⟩
        intro z hz
        rcases List.mem_cons.mp hz with rfl | hz
        · exact Or.inl hxy
        · rcases hyR z hz with h | ⟨h1, h2, _⟩
          · exact Or.inl (hTrans x y z hxy h)
          · exact Or.inl (hTie x y z hxy h1 h2)
      · have hxy' : lt x y = false := by simpa using hxy
        simp only [insertStable, hxy', Bool.false_eq_true, if_false]
        have hpw' := List.pairwise_cons.mp hpw
        refine List.pairwise_cons.mpr ⟨?_, ih hpw'.2 (fun z hz => hSacc z (.tail _ hz))⟩
        intro z hz
        have hz' : z ∈ x :: ys :=
          (insertStable_perm lt x ys).mem_iff.mp hz
        rcases List.mem_cons.mp hz' with rfl | hz'
        · rcases hRtot z y (hSacc y (.head _)) with h | h
          · exact h
          · exact absurd h (by simp [hxy'])
        · exact hpw'.1 z hz'
  suffices haux : ∀ (l acc : List α), acc.Pairwise R →
      (∀ y ∈ acc, ∀ x ∈ l, S y x) → l.Pairwise S →
      (l.foldl (fun acc x => insertStable lt x acc) acc).Pairwise R by
    exact haux l [] (by simp) (by simp) hS
  intro l
  induction l with
  | nil => intro acc h _ _; simpa using h
  | cons a l ih =>
    intro acc hacc hcross hSl
    simp only [List.foldl_cons]
    have hSl' := List.pairwise_cons.mp hSl
    refine ih (insertStable lt a acc) (hIns a acc hacc ?_) ?_ hSl'.2
    · intro y hy; exact hcross y hy a (.head _)
    · intro y hy x hx
      have hy' : y ∈ a :: acc := (insertStable_perm lt a acc).mem_iff.mp hy
      rcases List.mem_cons.mp hy' with rfl | hy'
      · exact hSl'.1 x hx
      · exact hcross y hy' x (.tail _ hx)

/-! ## Graph (class `Graph`, app.js lines 9–96)

The solver reads the graph only through `getNeighbors`.  We model the vertex
set as the id list `verts` and the adjacency `Map<vertexId, Set<vertexId>>`
as a function to adjacency lists (`Set` iteration order = list order).
`Graph.WF` records exactly what the builder (`addVertex`/`addEdge`/
`removeVertex`/`removeEdge`) guarantees: no duplicate ids, no self loops,
no duplicate edges, symmetry, and adjacency only between existing
vertices. -/

structure Graph where
  verts : List Nat
  adj : Nat → List Nat

/-- `getNeighbors(vertexId)`: `this.adjacency.get(vertexId) || new Set()`;
for an unknown id the adjacency map has no entry, which `WF.adj_empty`
captures. -/
def Graph.getNeighbors (g : Graph) (v : Nat) : List Nat := g.adj v

structure Graph.WF (g : Graph) : Prop where
  nodup_verts : g.verts.Nodup
  nodup_adj : ∀ v, (g.adj v).Nodup
  no_self : ∀ v, v ∉ g.adj v
  symm : ∀ u v, v ∈ g.adj u → u ∈ g.adj v
  adj_mem : ∀ u v, v ∈ g.adj u → u ∈ g.verts ∧ v ∈ g.verts
  adj_empty : ∀ v, v ∉ g.verts → g.adj v = []

/-! ## Walks (specification side)

`walkB g n u v` decides whether the graph has a walk of length exactly `n`
from `u` to `v`.  The hop distance of `getDistance` is specified against
it. -/

def walkB (g : Graph) : Nat → Nat → Nat → Bool
  | 0, u, v => u == v
  | n + 1, u, v => (g.adj u).any fun w => walkB g n w v

theorem walkB_zero {g : Graph} {u v : Nat} : walkB g 0 u v = true ↔ u = v := by
  simp [walkB]

theorem walkB_succ {g : Graph} {n u v : Nat} :
    walkB g (n + 1) u v = true ↔ ∃ w ∈ g.adj u, walkB g n w v = true := by
  simp [walkB]

/-- A walk extends by one edge at its far end. -/
theorem walkB_snoc {g : Graph} :
    ∀ {n u v w}, walkB g n u v = true → w ∈ g.adj v → walkB g (n + 1) u w = true := by
  intro n
  induction n with
  | zero =>
    intro u v w h hw
    have : u = v := walkB_zero.mp h
    subst this
    exact walkB_succ.mpr ⟨w, hw, walkB_zero.mpr rfl⟩
  | succ n ih =>
    intro u v w h hw
    obtain ⟨x, hx, hxv⟩ := walkB_succ.mp h
    exact walkB_succ.mpr ⟨x, hx, ih hxv hw⟩

/-! ## `getDistance` (app.js lines 276–296)

The source runs a BFS with a `visited` set (marked on enqueue) and a FIFO of
`{vertex, dist}` items.  The loop is modelled with fuel; under `Graph.WF`
the fuel `verts.length + 2` is never exhausted (each iteration pops one item
and every enqueue marks a fresh visited vertex, see `bfsMeasure` below). -/

/-- One dequeue's enqueue phase: walk the neighbor list, pushing each
unvisited neighbor (marking it visited) at distance `d`. -/
def pushNbrs (d : Nat) : List Nat → List Nat × List (Nat × Nat) →
    List Nat × List (Nat × Nat)
  | [], s => s
  | w :: ws, (vis, q) =>
    if w ∈ vis then pushNbrs d ws (vis, q)
    else pushNbrs d ws (w :: vis, q ++ [(w, d)])

def bfsLoop (g : Graph) (t : Nat) : Nat → List Nat → List (Nat × Nat) → Option Nat
  | 0, _, _ => none
  | _ + 1, _, [] => none
  | fuel + 1, vis, (v, d) :: q =>
    if v = t then some d
    else
      let s := pushNbrs (d + 1) (g.getNeighbors v) (vis, q)
      bfsLoop g t fuel s.1 s.2

/-- `getDistance(from, to)`; `⊤ : ℕ∞` is the JS `Infinity` sentinel.  Note
the source tests `from === to` before the null test, so two null arguments
yield `0`. -/
def getDistance (g : Graph) (f t : Option Nat) : ℕ∞ :=
  if f = t then 0
  else
    match f, t with
    | some u, some v =>
      match bfsLoop g v (g.verts.length + 2) [u] [(u, 0)] with
      | some d => (d : ℕ∞)
      | none => ⊤
    | _, _ => ⊤

/-- Distance between two plain (non-null) vertices, as the solver calls it. -/
def getDistanceV (g : Graph) (u v : Nat) : ℕ∞ := getDistance g (some u) (some v)

/-! ### Correctness of the BFS -/

def bfsMeasure (g : Graph) (vis : List Nat) (q : List (Nat × Nat)) : Nat :=
  (g.verts.filter (fun v => decide (v ∉ vis))).length + q.length

/-- The BFS loop invariant: queue entries carry exact shortest distances,
queue distances are nondecreasing with spread at most one, fully processed
vertices have all neighbors visited, and the target is never processed
without returning. -/
structure BfsInv (g : Graph) (u t : Nat) (vis : List Nat)
    (q : List (Nat × Nat)) : Prop where
  entries : ∀ p ∈ q, walkB g p.2 u p.1 = true ∧
    (∀ e < p.2, walkB g e u p.1 = false) ∧ p.1 ∈ vis
  sorted : q.Pairwise fun p r => p.2 ≤ r.2
  spread : ∀ p ∈ q, ∀ r ∈ q, p.2 ≤ r.2 + 1
  closure : ∀ w ∈ vis, (∀ d, (w, d) ∉ q) → ∀ x ∈ g.adj w, x ∈ vis
  src : u ∈ vis
  target : t ∈ vis → ∃ d, (t, d) ∈ q

/-- Any walk out of the visited set crosses its boundary. -/
theorem walk_boundary {g : Graph} {vis : List Nat} :
    ∀ {e u w}, u ∈ vis → w ∉ vis → walkB g e u w = true →
    ∃ a b e₁, a ∈ vis ∧ b ∉ vis ∧ b ∈ g.adj a ∧
      walkB g e₁ u a = true ∧ e₁ + 1 ≤ e := by
  intro e
  induction e with
  | zero =>
    intro u w hu hw h
    exact absurd (walkB_zero.mp h ▸ hu) hw
  | succ e ih =>
    intro u w hu hw h
    obtain ⟨x, hx, hxw⟩ := walkB_succ.mp h
    by_cases hxv : x ∈ vis
    · obtain ⟨a, b, e₁, ha, hb, hab, hwa, hle⟩ := ih hxv hw hxw
      exact ⟨a, b, e₁ + 1, ha, hb, hab,
        walkB_succ.mpr ⟨x, hx, hwa⟩, by omega⟩
    · exact ⟨u, x, 0, hu, hxv, hx, walkB_zero.mpr rfl, by omega⟩

/-- A set closed under adjacency contains everything reachable from it. -/
theorem walk_closed {g : Graph} {vis : List Nat}
    (hcl : ∀ w ∈ vis, ∀ x ∈ g.adj w, x ∈ vis) :
    ∀ {e a w}, a ∈ vis → walkB g e a w = true → w ∈ vis := by
  intro e
  induction e with
  | zero => intro a w ha h; exact walkB_zero.mp h ▸ ha
  | succ e ih =>
    intro a w ha h
    obtain ⟨x, hx, hxw⟩ := walkB_succ.mp h
    exact ih (hcl a ha x hx) hxw

/-- Everything the enqueue phase establishes, in one pass. -/
theorem pushNbrs_spec (d : Nat) :
    ∀ (ws : List Nat) (vis : List Nat) (q : List (Nat × Nat)),
    (∀ x ∈ vis, x ∈ (pushNbrs d ws (vis, q)).1) ∧
    (∀ w ∈ ws, w ∈ (pushNbrs d ws (vis, q)).1) ∧
    (∀ x ∈ (pushNbrs d ws (vis, q)).1, x ∈ vis ∨ x ∈ ws) ∧
    (∃ ex, (pushNbrs d ws (vis, q)).2 = q ++ ex ∧
      ∀ p ∈ ex, p.2 = d ∧ p.1 ∈ ws ∧ p.1 ∉ vis ∧ p.1 ∈ (pushNbrs d ws (vis, q)).1) ∧
    (∀ x ∈ (pushNbrs d ws (vis, q)).1, x ∉ vis → (x, d) ∈ (pushNbrs d ws (vis, q)).2) := by
  intro ws
  induction ws with
  | nil =>
    intro vis q
    refine ⟨fun x hx => hx, by simp, fun x hx => Or.inl hx, ⟨[], by simp [pushNbrs]⟩, ?_⟩
    intro x hx hx'
    exact absurd hx hx'
  | cons w ws ih =>
    intro vis q
    by_cases hw : w ∈ vis
    · have h := ih vis q
      simp only [pushNbrs, if_pos hw]
      refine ⟨h.1, ?_, ?_, ?_, ?_⟩
      · intro w' hw'
        rcases List.mem_cons.mp hw' with rfl | hw'
        · exact h.1 w' hw
        · exact h.2.1 w' hw'
      · intro x hx
        rcases h.2.2.1 x hx with hx | hx
        · exact Or.inl hx
        · exact Or.inr (.tail _ hx)
      · obtain ⟨ex, hex, hexp⟩ := h.2.2.2.1
        exact ⟨ex, hex, fun p hp =>
          ⟨(hexp p hp).1, .tail _ (hexp p hp).2.1, (hexp p hp).2.2.1, (hexp p hp).2.2.2⟩⟩
      · exact h.2.2.2.2
    · have h := ih (w :: vis) (q ++ [(w, d)])
      simp only [pushNbrs, if_neg hw]
      refine ⟨?_, ?_, ?_, ?_, ?_⟩
      · intro x hx; exact h.1 x (.tail _ hx)
      · intro w' hw'
        rcases List.mem_cons.mp hw' with rfl | hw'
        · exact h.1 w' (.head _)
        · exact h.2.1 w' hw'
      · intro x hx
        rcases h.2.2.1 x hx with hx | hx
        · rcases List.mem_cons.mp hx with rfl | hx
          · exact Or.inr (.head _)
          · exact Or.inl hx
        · exact Or.inr (.tail _ hx)
      · obtain ⟨ex, hex, hexp⟩ := h.2.2.2.1
        refine ⟨(w, d) :: ex, by simpa using hex, ?_⟩
        intro p hp
        rcases List.mem_cons.mp hp with rfl | hp
        · exact ⟨rfl, .head _, hw, h.1 w (.head _)⟩
        · refine ⟨(hexp p hp).1, .tail _ (hexp p hp).2.1, ?_, (hexp p hp).2.2.2⟩
          intro hpv
          exact (hexp p hp).2.2.1 (.tail _ hpv)
      · intro x hx hxvis
        by_cases hxw : x = w
        · subst hxw
          have : (x, d) ∈ q ++ [(x, d)] := by simp
          obtain ⟨ex, hex, _⟩ := h.2.2.2.1
          rw [hex]
          exact List.mem_append_left _ this
        · have : x ∉ w :: vis := by
            intro hc
            rcases List.mem_cons.mp hc with rfl | hc
            · exact hxw rfl
            · exact hxvis hc
          exact h.2.2.2.2 x hx this

/-- The enqueue phase can only shrink the measure (under `WF`, every pushed
vertex is a fresh visited member of `verts`). -/
theorem pushNbrs_measure (g : Graph) (d : Nat) :
    ∀ (ws : List Nat) (vis : List Nat) (q : List (Nat × Nat)),
    (∀ w ∈ ws, w ∈ g.verts) →
    bfsMeasure g (pushNbrs d ws (vis, q)).1 (pushNbrs d ws (vis, q)).2 ≤
      bfsMeasure g vis q := by
  intro ws
  induction ws with
  | nil => intro vis q _; simp [pushNbrs]
  | cons w ws ih =>
    intro vis q hsub
    by_cases hw : w ∈ vis
    · simp only [pushNbrs, if_pos hw]
      exact ih vis q (fun x hx => hsub x (.tail _ hx))
    · simp only [pushNbrs, if_neg hw]
      refine le_trans (ih (w :: vis) (q ++ [(w, d)])
        (fun x hx => hsub x (.tail _ hx))) ?_
      unfold bfsMeasure
      have hflip : (g.verts.filter fun v => decide (v ∉ w :: vis)).length <
          (g.verts.filter fun v => decide (v ∉ vis)).length := by
        refine filter_length_lt_of_flip g.verts _ _ ?_ w (hsub w (.head _)) ?_ ?_
        · intro x hx
          simp only [decide_eq_true_eq] at hx ⊢
          intro hc
          exact hx (.tail _ hc)
        · simpa using hw
        · simp
      simp only [List.length_append, List.length_cons, List.length_nil]
      omega

/-- Main BFS lemma: with the invariant and enough fuel, the loop answers the
exact shortest-distance question for `t`. -/
theorem bfsLoop_correct (g : Graph) (hwf : g.WF) (u t : Nat) :
    ∀ fuel vis q, BfsInv g u t vis q → bfsMeasure g vis q < fuel →
    (∃ d, bfsLoop g t fuel vis q = some d ∧ walkB g d u t = true ∧
      ∀ e < d, walkB g e u t = false) ∨
    (bfsLoop g t fuel vis q = none ∧ ∀ e, walkB g e u t = false) := by
  intro fuel
  induction fuel with
  | zero => intro vis q _ h; omega
  | succ fuel ih =>
    intro vis q hinv hm
    cases q with
    | nil =>
      refine Or.inr ⟨rfl, ?_⟩
      intro e
      by_contra hc
      have hc' : walkB g e u t = true := by simpa using hc
      have hclosed : ∀ w ∈ vis, ∀ x ∈ g.adj w, x ∈ vis := by
        intro w hw x hx
        exact hinv.closure w hw (by simp) x hx
      have ht : t ∈ vis := walk_closed hclosed hinv.src hc'
      obtain ⟨d, hd⟩ := hinv.target ht
      simp at hd
    | cons p qr =>
      obtain ⟨v, d⟩ := p
      by_cases hvt : v = t
      · subst hvt
        have he := hinv.entries (v, d) (by simp)
        exact Or.inl ⟨d, by simp [bfsLoop], he.1, he.2.1⟩
      · have hstep : bfsLoop g t (fuel + 1) vis ((v, d) :: qr) =
            bfsLoop g t fuel (pushNbrs (d + 1) (g.getNeighbors v) (vis, qr)).1
              (pushNbrs (d + 1) (g.getNeighbors v) (vis, qr)).2 := by
          simp [bfsLoop, hvt]
        set vis' := (pushNbrs (d + 1) (g.getNeighbors v) (vis, qr)).1 with hvis'
        set q' := (pushNbrs (d + 1) (g.getNeighbors v) (vis, qr)).2 with hq'
        have hv := hinv.entries (v, d) (by simp)
        have hsortedtail : qr.Pairwise fun p r => p.2 ≤ r.2 :=
          (List.pairwise_cons.mp hinv.sorted).2
        have hfront : ∀ p ∈ qr, d ≤ p.2 := by
          intro p hp
          exact (List.pairwise_cons.mp hinv.sorted).1 p hp
        have hspreadfront : ∀ p ∈ qr, p.2 ≤ d + 1 := by
          intro p hp
          exact hinv.spread p (by simp [hp]) (v, d) (by simp)
        -- exact shortest distance of every vertex pushed in this round
        have hmin : ∀ w ∈ g.adj v, w ∉ vis →
            walkB g (d + 1) u w = true ∧ ∀ e < d + 1, walkB g e u w = false := by
          intro w hwadj hwvis
          refine ⟨walkB_snoc hv.1 hwadj, ?_⟩
          intro e he
          by_contra hc
          have hc' : walkB g e u w = true := by simpa using hc
          obtain ⟨a, b, e₁, ha, hb, hab, hwa, hle⟩ :=
            walk_boundary hinv.src hwvis hc'
          by_cases haq : ∃ da, (a, da) ∈ (v, d) :: qr
          · obtain ⟨da, hda⟩ := haq
            have hea := hinv.entries (a, da) hda
            have hdale : da ≤ e₁ := by
              by_contra hcda
              have := hea.2.1 e₁ (by omega)
              rw [this] at hwa
              exact Bool.false_ne_true hwa
            have hdad : d ≤ da := by
              rcases List.mem_cons.mp hda with h | h
              · cases h; omega
              · exact hfront _ h
            omega
          · push_neg at haq
            have : b ∈ vis := hinv.closure a ha (fun dd hdd => haq dd hdd) b hab
            exact hb this
        obtain ⟨hmono, hws, hnew, ⟨ex, hex, hexp⟩, henq⟩ :=
          pushNbrs_spec (d + 1) (g.getNeighbors v) vis qr
        rw [← hq'] at hex
        have hinv' : BfsInv g u t vis' q' := by
          refine ⟨?_, ?_, ?_, ?_, hmono u hinv.src, ?_⟩
          · intro p hp
            rw [hex] at hp
            rcases List.mem_append.mp hp with hp | hp
            · have he := hinv.entries p (by simp [hp])
              exact ⟨he.1, he.2.1, hmono _ he.2.2⟩
            · obtain ⟨hp2, hp1, hpnv, hpv'⟩ := hexp p hp
              have := hmin p.1 hp1 hpnv
              rw [hp2]
              exact ⟨this.1, this.2, hpv'⟩
          · rw [hex]
            refine List.pairwise_append.mpr ⟨hsortedtail, ?_, ?_⟩
            · refine List.pairwise_iff_forall_sublist.mpr ?_
              intro a b hab
              have ha := hexp a (hab.subset (by simp))
              have hb := hexp b (hab.subset (by simp))
              omega
            · intro p hp r hr
              have := hspreadfront p hp
              have := (hexp r hr).1
              omega
          · intro p hp r hr
            rw [hex] at hp hr
            rcases List.mem_append.mp hp with hp | hp <;>
              rcases List.mem_append.mp hr with hr | hr
            · exact hinv.spread p (by simp [hp]) r (by simp [hr])
            · have := hspreadfront p hp
              have := (hexp r hr).1
              omega
            · have := (hexp p hp).1
              have := hfront r hr
              omega
            · have := (hexp p hp).1
              have := (hexp r hr).1
              omega
          · intro w hwv hwq x hx
            by_cases hwold : w ∈ vis
            · by_cases hwv' : w = v
              · subst hwv'
                exact hws x hx
              · have hnoq : ∀ dd, (w, dd) ∉ (v, d) :: qr := by
                  intro dd hdd
                  rcases List.mem_cons.mp hdd with h | h
                  · exact hwv' (congrArg Prod.fst h)
                  · refine hwq dd ?_
                    rw [hex]
                    exact List.mem_append_left _ h
                exact hmono x (hinv.closure w hwold hnoq x hx)
            · exact absurd (henq w hwv hwold) (hwq (d + 1))
          · intro ht
            by_cases htold : t ∈ vis
            · obtain ⟨dt, hdt⟩ := hinv.target htold
              rcases List.mem_cons.mp hdt with h | h
              · exact absurd (congrArg Prod.fst h).symm hvt
              · exact ⟨dt, by rw [hex]; exact List.mem_append_left _ h⟩
            · exact ⟨d + 1, henq t ht htold⟩
        have hm' : bfsMeasure g vis' q' < fuel := by
          have hpm := pushNbrs_measure g (d + 1)
            (g.getNeighbors v) vis qr
            (fun w hw => (hwf.adj_mem v w hw).2)
          have hone : bfsMeasure g vis ((v, d) :: qr) = bfsMeasure g vis qr + 1 := by
            simp only [bfsMeasure, List.length_cons]
            omega
          rw [← hvis', ← hq'] at hpm
          omega
        rw [hstep]
        exact ih vis' q' hinv' hm'

/-- The invariant holds for the initial BFS state. -/
theorem bfsInv_init (g : Graph) (u t : Nat) : BfsInv g u t [u] [(u, 0)] := by
  refine ⟨?_, ?_, ?_, ?_, by simp, ?_⟩
  · intro p hp
    simp only [List.mem_singleton] at hp
    subst hp
    exact ⟨walkB_zero.mpr rfl, by omega, by simp⟩
  · simp
  · intro p hp r hr
    simp only [List.mem_singleton] at hp hr
    subst hp; subst hr; omega
  · intro w hw hq x hx
    simp only [List.mem_singleton] at hw
    subst hw
    exact absurd (by simp : (w, 0) ∈ [(w, 0)]) (hq 0)
  · intro ht
    simp only [List.mem_singleton] at ht
    exact ⟨0, by simp [ht]⟩

/-- `getDistance` on two distinct concrete vertices answers the exact
shortest-distance question. -/
theorem getDistance_cases (g : Graph) (hwf : g.WF) (u v : Nat) (huv : u ≠ v) :
    (∃ d : Nat, getDistanceV g u v = (d : ℕ∞) ∧ walkB g d u v = true ∧
      ∀ e < d, walkB g e u v = false) ∨
    (getDistanceV g u v = ⊤ ∧ ∀ e, walkB g e u v = false) := by
  have hm : bfsMeasure g [u] [(u, 0)] < g.verts.length + 2 := by
    have : (g.verts.filter fun w => decide (w ∉ [u])).length ≤ g.verts.length :=
      List.length_filter_le _ _
    simp only [bfsMeasure, List.length_singleton]
    omega
  have h := bfsLoop_correct g hwf u v (g.verts.length + 2) [u] [(u, 0)]
    (bfsInv_init g u v) hm
  have hne : (some u : Option Nat) ≠ some v := by simpa using huv
  rcases h with ⟨d, hd, hw, hmin⟩ | ⟨hd, hunr⟩
  · exact Or.inl ⟨d, by simp [getDistanceV, getDistance, hne, hd], hw, hmin⟩
  · exact Or.inr ⟨by simp [getDistanceV, getDistance, hne, hd], hunr⟩

theorem getDistance_eq_top_iff (g : Graph) (hwf : g.WF) (u v : Nat) (huv : u ≠ v) :
    getDistanceV g u v = ⊤ ↔ ∀ e, walkB g e u v = false := by
  rcases getDistance_cases g hwf u v huv with ⟨d, hd, hw, _⟩ | ⟨hd, hunr⟩
  · constructor
    · intro htop
      rw [hd] at htop
      exact absurd htop (by simp)
    · intro hall
      rw [hall d] at hw
      exact absurd hw (by simp)
  · exact ⟨fun _ => hunr, fun _ => hd⟩

theorem getDistance_eq_coe_iff (g : Graph) (hwf : g.WF) (u v : Nat) (huv : u ≠ v)
    (d : Nat) :
    getDistanceV g u v = (d : ℕ∞) ↔
      (walkB g d u v = true ∧ ∀ e < d, walkB g e u v = false) := by
  rcases getDistance_cases g hwf u v huv with ⟨d', hd', hw, hmin⟩ | ⟨hd', hunr⟩
  · constructor
    · intro h
      rw [hd'] at h
      have : d' = d := by exact_mod_cast h
      subst this
      exact ⟨hw, hmin⟩
    · rintro ⟨hw2, hmin2⟩
      have hdd : d' = d := by
        rcases Nat.lt_trichotomy d' d with h | h | h
        · rw [hmin2 d' h] at hw
          exact absurd hw (by simp)
        · exact h
        · rw [hmin d h] at hw2
          exact absurd hw2 (by simp)
      rw [hd', hdd]
  · constructor
    · intro h
      rw [hd'] at h
      exact absurd h.symm (by simp)
    · rintro ⟨hw2, _⟩
      rw [hunr d] at hw2
      exact absurd hw2 (by simp)

/-- The source checks `from === to` before the null checks, so equal
arguments (including two nulls) give `0`. -/
theorem getDistance_refl (g : Graph) (f t : Option Nat) (h : f = t) :
    getDistance g f t = 0 := by
  simp [getDistance, h]

/-- A null argument (with the arguments distinct) yields the sentinel. -/
theorem getDistance_null (g : Graph) (f t : Option Nat) (hne : f ≠ t)
    (h : f = none ∨ t = none) : getDistance g f t = ⊤ := by
  rcases h with h | h
  · subst h
    cases t with
    | none => exact absurd rfl hne
    | some v => simp [getDistance, hne]
  · subst h
    cases f with
    | none => exact absurd rfl hne
    | some v => simp [getDistance, hne]

/-! ## Agents and the PIBT successor generator (app.js lines 98–112, 447–538)

Agents are modelled positionally (see the header): agent `i` is
`agents.get i`, its id is `i`.  A configuration is the plain location list
of the `Configuration` class, and the fingerprint `hash()` (comma-join,
injective on lists of naturals) is modelled by the list itself. -/

structure Agent where
  start : Nat
  goal : Nat
deriving DecidableEq, Repr

/-- A constraint collection as produced by `LowLevelNode.getConstraints`:
`(who, where)` pairs, deepest tree node first.  `constraints.get` on the JS
`Map` returns the value of the *last* `set` for the key, i.e. the last
matching pair of the walk list. -/
def hasConstraint (cs : List (Nat × Nat)) (i : Nat) : Bool := cs.any (·.1 == i)

def lookupConstraint (cs : List (Nat × Nat)) (i : Nat) : Option Nat :=
  ((cs.filter (·.1 == i)).getLast?).map (·.2)

/-- The move set `{v} ∪ neighbors(v)` of agent `i` in configuration `cfg`,
in source order (stay first, then adjacency order). -/
def moveSet (g : Graph) (cfg : List Nat) (i : Nat) : List Nat :=
  match cfg[i]? with
  | some v => v :: g.getNeighbors v
  | none => []

/-- `getBestMove(agentId, current, goal, occupied)` (app.js 510–538): commit
to the goal cell if free, otherwise the unoccupied candidate among staying
and the neighbors minimizing BFS distance to the goal, ties to the earlier
candidate; `none` when every candidate is occupied or reachable candidates
tie at distance `Infinity` below an infinite best. -/
def getBestMove (g : Graph) (current goal : Nat) (occ : List Nat) : Option Nat :=
  if current = goal ∧ current ∉ occ then some current
  else
    let init : Option Nat × ℕ∞ :=
      if current ∉ occ then (some current, getDistanceV g current goal) else (none, ⊤)
    ((g.getNeighbors current).foldl
      (fun best nb =>
        if nb ∉ occ then
          let dv := getDistanceV g nb goal
          if dv < best.2 then (some nb, dv) else best
        else best) init).1

/-- The `for (const agent of constrainedAgents)` loop of `generateConfig`:
place each constrained agent at its constrained vertex, failing on a vertex
conflict. -/
def placeConstrained (cs : List (Nat × Nat)) :
    List Nat → List (Option Nat) → List Nat →
    Option (List (Option Nat) × List Nat)
  | [], locs, occ => some (locs, occ)
  | i :: rest, locs, occ =>
    match lookupConstraint cs i with
    | none => none
    | some v =>
      if v ∈ occ then none
      else placeConstrained cs rest (locs.set i (some v)) (v :: occ)

/-- The `for (const agent of unconstrainedAgents)` loop: greedy placement in
the sorted order; the `cfg[i]?`/`agents[i]?` matches cannot fail for
ids below the agent count. -/
def placeUnconstrained (g : Graph) (agents : List Agent) (cfg : List Nat) :
    List Nat → List (Option Nat) → List Nat →
    Option (List (Option Nat) × List Nat)
  | [], locs, occ => some (locs, occ)
  | i :: rest, locs, occ =>
    match cfg[i]?, agents[i]? with
    | some cur, some ag =>
      match getBestMove g cur ag.goal occ with
      | none => none
      | some np =>
        placeUnconstrained g agents cfg rest (locs.set i (some np)) (np :: occ)
    | _, _ => none

/-- The swap-conflict double loop (`i` from `0`, `j` from `i+1`). -/
def hasSwap (cfg q : List Nat) (n : Nat) : Bool :=
  (List.range n).any fun i => (List.range n).any fun j =>
    decide (i < j) && decide (cfg[i]? = q[j]?) && decide (cfg[j]? = q[i]?)

/-- `generateConfig(currentConfig, constraints)` (app.js 447–508).  The
final `q` reads every slot of the placement array; every slot is assigned
because the constrained and unconstrained ids partition `0..n-1` (the
`getD 0` default is proved dead in `generateConfig_spec`). -/
def generateConfig (g : Graph) (agents : List Agent) (cfg : List Nat)
    (cs : List (Nat × Nat)) : Option (List Nat) :=
  let n := agents.length
  let constrainedIds := (List.range n).filter fun i => hasConstraint cs i
  let unconstrainedIds := (List.range n).filter fun i => !hasConstraint cs i
  let distOf : Nat → ℕ∞ := fun i =>
    getDistance g cfg[i]? (agents[i]?.map (·.goal))
  let sortedUnc := sortStable (fun a b => decide (distOf b < distOf a)) unconstrainedIds
  match placeConstrained cs constrainedIds (List.replicate n none) [] with
  | none => none
  | some (locs, occ) =>
    match placeUnconstrained g agents cfg sortedUnc locs occ with
    | none => none
    | some (locs2, _) =>
      let q := locs2.map fun o => o.getD 0
      if hasSwap cfg q n then none else some q

/-! ### Properties of the generator -/

/-- A successful `getBestMove` yields an unoccupied stay-or-step vertex. -/
theorem getBestMove_spec (g : Graph) (current goal : Nat) (occ : List Nat)
    (np : Nat) (h : getBestMove g current goal occ = some np) :
    np ∉ occ ∧ (np = current ∨ np ∈ g.adj current) := by
  unfold getBestMove at h
  by_cases hg : current = goal ∧ current ∉ occ
  · rw [if_pos hg] at h
    cases h
    exact ⟨hg.2, Or.inl rfl⟩
  · rw [if_neg hg] at h
    set P : Option Nat × ℕ∞ → Prop :=
      fun best => ∀ b, best.1 = some b → b ∉ occ ∧ (b = current ∨ b ∈ g.adj current)
      with hP
    have hfold : ∀ (l : List Nat) (init : Option Nat × ℕ∞),
        (∀ x ∈ l, x ∈ g.adj current) → P init →
        P (l.foldl (fun best nb =>
          if nb ∉ occ then
            let dv := getDistanceV g nb goal
            if dv < best.2 then (some nb, dv) else best
          else best) init) := by
      intro l
      induction l with
      | nil => intro init _ hinit; exact hinit
      | cons x l ih =>
        intro init hmem hinit
        simp only [List.foldl_cons]
        refine ih _ (fun y hy => hmem y (.tail _ hy)) ?_
        by_cases hxo : x ∉ occ
        · simp only [if_pos hxo]
          by_cases hlt : getDistanceV g x goal < init.2
          · rw [if_pos hlt]
            intro b hb
            cases hb
            exact ⟨hxo, Or.inr (hmem x (.head _))⟩
          · rw [if_neg hlt]; exact hinit
        · simp only [if_neg hxo]; exact hinit
    have hinit : P (if current ∉ occ then
        (some current, getDistanceV g current goal) else (none, ⊤)) := by
      by_cases hc : current ∉ occ
      · rw [if_pos hc]
        intro b hb
        cases hb
        exact ⟨hc, Or.inl rfl⟩
      · rw [if_neg hc]
        intro b hb
        cases hb
    exact hfold (g.getNeighbors current) _ (fun x hx => hx) hinit np h

/-- Slot invariant carried through both placement loops: every assigned slot
holds an occupied vertex, and distinct slots hold distinct vertices. -/
def SlotInv (locs : List (Option Nat)) (occ : List Nat) : Prop :=
  (∀ (i v : Nat), locs[i]? = some (some v) → v ∈ occ) ∧
  (∀ (i j v : Nat), i ≠ j → locs[i]? = some (some v) → locs[j]? ≠ some (some v))

theorem slotInv_set {locs : List (Option Nat)} {occ : List Nat}
    (h : SlotInv locs occ) {i v : Nat} (hv : v ∉ occ) (hi : i < locs.length) :
    SlotInv (locs.set i (some v)) (v :: occ) := by
  constructor
  · intro j w hj
    by_cases hij : i = j
    · subst hij
      rw [List.getElem?_set_eq_of_lt _ hi] at hj
      injection hj with hj
      injection hj with hj
      subst hj
      exact .head _
    · rw [List.getElem?_set_ne hij] at hj
      exact .tail _ (h.1 j w hj)
  · intro j k w hjk hj hk
    by_cases hij : i = j
    · subst hij
      rw [List.getElem?_set_eq_of_lt _ hi] at hj
      injection hj with hj
      injection hj with hj
      have hw : w = v := hj.symm
      subst hw
      rw [List.getElem?_set_ne hjk] at hk
      exact hv (h.1 k w hk)
    · rw [List.getElem?_set_ne hij] at hj
      by_cases hik : i = k
      · subst hik
        rw [List.getElem?_set_eq_of_lt _ hi] at hk
        injection hk with hk
        injection hk with hk
        have hw : w = v := hk.symm
        subst hw
        exact hv (h.1 j w hj)
      · rw [List.getElem?_set_ne hik] at hk
        exact h.2 j k w hjk hj hk

/-- What a successful constrained-placement pass guarantees. -/
theorem placeConstrained_spec (cs : List (Nat × Nat)) :
    ∀ (ids : List Nat) (locs : List (Option Nat)) (occ : List Nat)
      (locs' : List (Option Nat)) (occ' : List Nat),
    placeConstrained cs ids locs occ = some (locs', occ') →
    (∀ i ∈ ids, i < locs.length) →
    SlotInv locs occ →
    locs'.length = locs.length ∧
    SlotInv locs' occ' ∧
    (∀ j : Nat, j ∉ ids → locs'[j]? = locs[j]?) ∧
    (∀ i ∈ ids, ∃ v, lookupConstraint cs i = some v ∧ locs'[i]? = some (some v)) ∧
    (∀ x ∈ occ, x ∈ occ') := by
  intro ids
  induction ids with
  | nil =>
    intro locs occ locs' occ' h _ hinv
    simp only [placeConstrained] at h
    injection h with h
    injection h with h1 h2
    subst h1; subst h2
    exact ⟨rfl, hinv, fun j _ => rfl, by simp, fun x hx => hx⟩
  | cons i rest ih =>
    intro locs occ locs' occ' h hb hinv
    simp only [placeConstrained] at h
    cases hlk : lookupConstraint cs i with
    | none => rw [hlk] at h; exact absurd h (by simp)
    | some v =>
      simp only [hlk] at h
      by_cases hocc : v ∈ occ
      · rw [if_pos hocc] at h; exact absurd h (by simp)
      · rw [if_neg hocc] at h
        have hilen : i < locs.length := hb i (.head _)
        have hinv' := slotInv_set hinv hocc hilen
        have hb' : ∀ j ∈ rest, j < (locs.set i (some v)).length := by
          intro j hj
          rw [List.length_set]
          exact hb j (.tail _ hj)
        obtain ⟨hlen, hinv2, hframe, hassign, hoccmono⟩ :=
          ih (locs.set i (some v)) (v :: occ) locs' occ' h hb' hinv'
        refine ⟨by rw [hlen, List.length_set], hinv2, ?_, ?_, ?_⟩
        · intro j hj
          have hji : j ≠ i := fun hc => hj (hc ▸ .head _)
          rw [hframe j (fun hc => hj (.tail _ hc)),
            List.getElem?_set_ne (Ne.symm hji)]
        · intro k hk
          rcases List.mem_cons.mp hk with rfl | hk
          · by_cases hkr : k ∈ rest
            · exact hassign k hkr
            · refine ⟨v, hlk, ?_⟩
              rw [hframe k hkr, List.getElem?_set_eq_of_lt _ hilen]
          · exact hassign k hk
        · intro x hx
          exact hoccmono x (.tail _ hx)

/-- What a successful unconstrained-placement pass guarantees. -/
theorem placeUnconstrained_spec (g : Graph) (agents : List Agent)
    (cfg : List Nat) :
    ∀ (ids : List Nat) (locs : List (Option Nat)) (occ : List Nat)
      (locs' : List (Option Nat)) (occ' : List Nat),
    placeUnconstrained g agents cfg ids locs occ = some (locs', occ') →
    (∀ i ∈ ids, i < locs.length) →
    SlotInv locs occ →
    locs'.length = locs.length ∧
    SlotInv locs' occ' ∧
    (∀ j : Nat, j ∉ ids → locs'[j]? = locs[j]?) ∧
    (∀ i ∈ ids, ∃ cur np, cfg[i]? = some cur ∧ (np = cur ∨ np ∈ g.adj cur) ∧
      locs'[i]? = some (some np)) := by
  intro ids
  induction ids with
  | nil =>
    intro locs occ locs' occ' h _ hinv
    simp only [placeUnconstrained] at h
    injection h with h
    injection h with h1 h2
    subst h1; subst h2
    exact ⟨rfl, hinv, fun j _ => rfl, by simp⟩
  | cons i rest ih =>
    intro locs occ locs' occ' h hb hinv
    simp only [placeUnconstrained] at h
    cases hcfg : cfg[i]? with
    | none => rw [hcfg] at h; exact absurd h (by simp)
    | some cur =>
      cases hag : agents[i]? with
      | none =>
        simp only [hcfg, hag] at h
        exact absurd h (by simp)
      | some ag =>
        simp only [hcfg, hag] at h
        cases hbm : getBestMove g cur ag.goal occ with
        | none => rw [hbm] at h; exact absurd h (by simp)
        | some np =>
          simp only [hbm] at h
          obtain ⟨hnpocc, hnpmove⟩ := getBestMove_spec g cur ag.goal occ np hbm
          have hilen : i < locs.length := hb i (.head _)
          have hinv' := slotInv_set hinv hnpocc hilen
          have hb' : ∀ j ∈ rest, j < (locs.set i (some np)).length := by
            intro j hj
            rw [List.length_set]
            exact hb j (.tail _ hj)
          obtain ⟨hlen, hinv2, hframe, hassign⟩ :=
            ih (locs.set i (some np)) (np :: occ) locs' occ' h hb' hinv'
          refine ⟨by rw [hlen, List.length_set], hinv2, ?_, ?_⟩
          · intro j hj
            have hji : j ≠ i := fun hc => hj (hc ▸ .head _)
            rw [hframe j (fun hc => hj (.tail _ hc)),
              List.getElem?_set_ne (Ne.symm hji)]
          · intro k hk
            rcases List.mem_cons.mp hk with rfl | hk
            · by_cases hkr : k ∈ rest
              · exact hassign k hkr
              · refine ⟨cur, np, hcfg, hnpmove, ?_⟩
                rw [hframe k hkr, List.getElem?_set_eq_of_lt _ hilen]
            · exact hassign k hk

/-- The trivial slot invariant of the initial all-unassigned array. -/
theorem slotInv_replicate (n : Nat) : SlotInv (List.replicate n (none : Option Nat)) [] := by
  constructor
  · intro i v hiv
    rw [List.getElem?_replicate] at hiv
    by_cases hi : i < n
    · rw [if_pos hi] at hiv
      injection hiv with hiv
      exact Option.noConfusion hiv
    · rw [if_neg hi] at hiv
      exact Option.noConfusion hiv
  · intro i j v _ hiv
    rw [List.getElem?_replicate] at hiv
    by_cases hi : i < n
    · rw [if_pos hi] at hiv
      injection hiv with hiv
      exact absurd hiv (by simp)
    · rw [if_neg hi] at hiv
      exact Option.noConfusion hiv

/-- Everything a successful `generateConfig` guarantees: length, vertex
exclusivity, constrained agents pinned exactly, unconstrained agents moving
by stay-or-edge, and no swap conflict.  (For a constrained agent the result
is whatever the constraint says, adjacent or not — see the C1
counterexample.) -/
theorem generateConfig_spec (g : Graph) (agents : List Agent) (cfg : List Nat)
    (cs : List (Nat × Nat)) (q : List Nat)
    (h : generateConfig g agents cfg cs = some q) :
    q.length = agents.length ∧
    q.Nodup ∧
    (∀ i : Nat, i < agents.length → hasConstraint cs i = true →
      q[i]? = lookupConstraint cs i) ∧
    (∀ i : Nat, i < agents.length → hasConstraint cs i = false →
      ∃ cur np, cfg[i]? = some cur ∧ (np = cur ∨ np ∈ g.adj cur) ∧ q[i]? = some np) ∧
    (∀ i j : Nat, i < j → j < agents.length →
      ¬(cfg[i]? = q[j]? ∧ cfg[j]? = q[i]?)) := by
  unfold generateConfig at h
  set n := agents.length with hn
  set cids := (List.range n).filter (fun i => hasConstraint cs i) with hcids
  set uids := (List.range n).filter (fun i => !hasConstraint cs i) with huids
  set distOf : Nat → ℕ∞ := fun i =>
    getDistance g cfg[i]? (agents[i]?.map (·.goal)) with hdistOf
  set srt := sortStable (fun a b => decide (distOf b < distOf a)) uids with hsrt
  simp only at h
  cases hpc : placeConstrained cs cids (List.replicate n none) [] with
  | none => rw [hpc] at h; exact absurd h (by simp)
  | some pr =>
    obtain ⟨locs, occ⟩ := pr
    rw [hpc] at h
    simp only at h
    cases hpu : placeUnconstrained g agents cfg srt locs occ with
    | none => rw [hpu] at h; exact absurd h (by simp)
    | some pr2 =>
      obtain ⟨locs2, occ2⟩ := pr2
      rw [hpu] at h
      simp only at h
      by_cases hsw : hasSwap cfg (locs2.map fun o => o.getD 0) n = true
      · rw [if_pos hsw] at h; exact absurd h (by simp)
      · rw [if_neg hsw] at h
        injection h with h
        subst h
        -- specifications of the two passes
        have hmemC : ∀ i : Nat, i ∈ cids ↔ i < n ∧ hasConstraint cs i = true := by
          intro i
          rw [hcids, List.mem_filter, List.mem_range]
        have hmemU : ∀ i : Nat, i ∈ uids ↔ i < n ∧ hasConstraint cs i = false := by
          intro i
          rw [huids, List.mem_filter, List.mem_range]
          simp
        have hperm : List.Perm srt uids := sortStable_perm _ _
        have hmemS : ∀ i : Nat, i ∈ srt ↔ i < n ∧ hasConstraint cs i = false := by
          intro i
          rw [hperm.mem_iff]
          exact hmemU i
        obtain ⟨hlen1, hinv1, hframe1, hassign1, _⟩ :=
          placeConstrained_spec cs cids (List.replicate n none) [] locs occ hpc
            (by
              intro i hi
              rw [List.length_replicate]
              exact ((hmemC i).mp hi).1)
            (slotInv_replicate n)
        rw [List.length_replicate] at hlen1
        obtain ⟨hlen2, hinv2, hframe2, hassign2⟩ :=
          placeUnconstrained_spec g agents cfg srt locs occ locs2 occ2 hpu
            (by
              intro i hi
              rw [hlen1]
              exact ((hmemS i).mp hi).1)
            hinv1
        have hlen2' : locs2.length = n := by rw [hlen2, hlen1]
        -- every slot below n is assigned
        have hall : ∀ i : Nat, i < n → ∃ v : Nat, locs2[i]? = some (some v) := by
          intro i hi
          cases hc : hasConstraint cs i with
          | true =>
            have hiC : i ∈ cids := (hmemC i).mpr ⟨hi, hc⟩
            have hiS : i ∉ srt := fun hmem => by
              have := ((hmemS i).mp hmem).2
              rw [hc] at this
              exact Bool.noConfusion this
            obtain ⟨v, _, hv⟩ := hassign1 i hiC
            exact ⟨v, by rw [hframe2 i hiS, hv]⟩
          | false =>
            have hiS : i ∈ srt := (hmemS i).mpr ⟨hi, hc⟩
            obtain ⟨cur, np, _, _, hv⟩ := hassign2 i hiS
            exact ⟨np, hv⟩
        have hq : ∀ (i v : Nat), locs2[i]? = some (some v) →
            (locs2.map fun o => o.getD 0)[i]? = some v := by
          intro i v hv
          rw [List.getElem?_map, hv]
          rfl
        have hqlen : (locs2.map fun o => o.getD 0).length = n := by
          rw [List.length_map, hlen2']
        refine ⟨hqlen, ?_, ?_, ?_, ?_⟩
        · -- vertex exclusivity
          refine List.nodup_iff_getElem?_ne_getElem?.mpr ?_
          intro i j hij hjlen
          rw [hqlen] at hjlen
          obtain ⟨vi, hvi⟩ := hall i (lt_trans hij hjlen)
          obtain ⟨vj, hvj⟩ := hall j hjlen
          rw [hq i vi hvi, hq j vj hvj]
          intro hc
          injection hc with hc
          subst hc
          exact hinv2.2 i j vi (Nat.ne_of_lt hij) hvi hvj
        · -- constrained agents follow their constraints
          intro i hi hc
          have hiC : i ∈ cids := (hmemC i).mpr ⟨hi, hc⟩
          have hiS : i ∉ srt := fun hmem => by
            have := ((hmemS i).mp hmem).2
            rw [hc] at this
            exact Bool.noConfusion this
          obtain ⟨v, hlk, hv⟩ := hassign1 i hiC
          rw [hq i v (by rw [hframe2 i hiS, hv]), hlk]
        · -- unconstrained agents stay or move along an edge
          intro i hi hc
          have hiS : i ∈ srt := (hmemS i).mpr ⟨hi, hc⟩
          obtain ⟨cur, np, hcur, hmv, hv⟩ := hassign2 i hiS
          exact ⟨cur, np, hcur, hmv, hq i np hv⟩
        · -- no swap conflict
          intro i j hij hjn hcon
          refine hsw ?_
          unfold hasSwap
          rw [List.any_eq_true]
          refine ⟨i, List.mem_range.mpr (lt_trans hij hjn), ?_⟩
          rw [List.any_eq_true]
          refine ⟨j, List.mem_range.mpr hjn, ?_⟩
          simp only [Bool.and_eq_true, decide_eq_true_eq]
          exact ⟨⟨hij, hcon.1⟩, hcon.2⟩

/-! ## Priority orders (app.js 250–274)

Both functions sort the agent records and project the ids; since the
comparators read only per-agent data, this equals sorting the ids directly
with the per-id keys. -/

/-- BFS distance from an agent's start to its goal. -/
def initDist (g : Graph) (agents : List Agent) (i : Nat) : ℕ∞ :=
  getDistance g (agents[i]?.map (·.start)) (agents[i]?.map (·.goal))

/-- `getInitOrder()`: ids sorted by descending start→goal distance,
ties (and the `NaN` of two infinite distances) keeping array order. -/
def getInitOrder (g : Graph) (agents : List Agent) : List Nat :=
  sortStable (fun a b => decide (initDist g agents b < initDist g agents a))
    (List.range agents.length)

/-- Whether agent `i` already sits on its goal in `cfg`
(`config.get(a.id) === a.goal`). -/
def atGoalB (agents : List Agent) (cfg : List Nat) (i : Nat) : Bool :=
  decide (cfg[i]? = agents[i]?.map (·.goal))

/-- BFS distance from an agent's current position to its goal. -/
def curDist (g : Graph) (agents : List Agent) (cfg : List Nat) (i : Nat) : ℕ∞ :=
  getDistance g cfg[i]? (agents[i]?.map (·.goal))

/-- The `getOrder(config)` comparator, `true` iff the JS comparator returns a
negative number (`a` strictly before `b`). -/
def orderLt (g : Graph) (agents : List Agent) (cfg : List Nat) (a b : Nat) : Bool :=
  (!(atGoalB agents cfg a) && atGoalB agents cfg b) ||
    ((atGoalB agents cfg a == atGoalB agents cfg b) &&
      decide (curDist g agents cfg b < curDist g agents cfg a))

/-- `getOrder(config)`: agents not at their goal first, then by descending
distance-to-goal, stable. -/
def getOrder (g : Graph) (agents : List Agent) (cfg : List Nat) : List Nat :=
  sortStable (orderLt g agents cfg) (List.range agents.length)

theorem getInitOrder_perm (g : Graph) (agents : List Agent) :
    List.Perm (getInitOrder g agents) (List.range agents.length) :=
  sortStable_perm _ _

theorem getOrder_perm (g : Graph) (agents : List Agent) (cfg : List Nat) :
    List.Perm (getOrder g agents cfg) (List.range agents.length) :=
  sortStable_perm _ _

theorem getInitOrder_sorted (g : Graph) (agents : List Agent) :
    (getInitOrder g agents).Pairwise fun a b =>
      initDist g agents b < initDist g agents a ∨
      (initDist g agents a = initDist g agents b ∧ a < b) := by
  have h := sortStable_pairwise
    (fun a b => decide (initDist g agents b < initDist g agents a)) (· < ·)
    (by
      intro a b c h1 h2
      simp only [decide_eq_true_eq] at *
      exact lt_trans h2 h1)
    (by
      intro a b c h1 h2 h3
      simp only [decide_eq_true_eq, decide_eq_false_iff_not] at *
      have : initDist g agents b = initDist g agents c :=
        le_antisymm (not_lt.mp h2) (not_lt.mp h3)
      rw [← this]
      exact h1)
    (List.range agents.length) (List.pairwise_lt_range _)
  refine h.imp ?_
  intro a b hab
  rcases hab with hab | ⟨h1, h2, h3⟩
  · simp only [decide_eq_true_eq] at hab
    exact Or.inl hab
  · simp only [decide_eq_false_iff_not] at h1 h2
    exact Or.inr ⟨le_antisymm (not_lt.mp h1) (not_lt.mp h2), h3⟩

theorem orderLt_iff (g : Graph) (agents : List Agent) (cfg : List Nat) (a b : Nat) :
    orderLt g agents cfg a b = true ↔
      (atGoalB agents cfg a = false ∧ atGoalB agents cfg b = true) ∨
      (atGoalB agents cfg a = atGoalB agents cfg b ∧
        curDist g agents cfg b < curDist g agents cfg a) := by
  unfold orderLt
  simp only [Bool.or_eq_true, Bool.and_eq_true, Bool.not_eq_true', beq_iff_eq,
    decide_eq_true_eq]

theorem getOrder_sorted (g : Graph) (agents : List Agent) (cfg : List Nat) :
    (getOrder g agents cfg).Pairwise fun a b =>
      (atGoalB agents cfg a = false ∧ atGoalB agents cfg b = true) ∨
      (atGoalB agents cfg a = atGoalB agents cfg b ∧
        (curDist g agents cfg b < curDist g agents cfg a ∨
          (curDist g agents cfg a = curDist g agents cfg b ∧ a < b))) := by
  set gA := atGoalB agents cfg with hgA
  set dA := curDist g agents cfg with hdA
  have h := sortStable_pairwise (orderLt g agents cfg) (· < ·)
    (by
      intro a b c h1 h2
      rw [orderLt_iff] at h1 h2 ⊢
      rcases h1 with ⟨ha, hb⟩ | ⟨hab, hd⟩ <;> rcases h2 with ⟨hb', hc⟩ | ⟨hbc, hd'⟩
      · rw [hb] at hb'
        exact Bool.noConfusion hb'
      · exact Or.inl ⟨ha, hbc ▸ hb⟩
      · exact Or.inl ⟨hab ▸ hb', hc⟩
      · exact Or.inr ⟨hab.trans hbc, lt_trans hd' hd⟩)
    (by
      intro a b c h1 h2 h3
      rw [orderLt_iff] at h1 ⊢
      have h2' := (not_congr (orderLt_iff g agents cfg b c)).mp (by simp [h2])
      have h3' := (not_congr (orderLt_iff g agents cfg c b)).mp (by simp [h3])
      push_neg at h2' h3'
      have hbc : atGoalB agents cfg b = atGoalB agents cfg c := by
        cases hgb : atGoalB agents cfg b <;> cases hgc : atGoalB agents cfg c
        · rfl
        · exact absurd hgc (h2'.1 hgb)
        · exact absurd hgb (h3'.1 hgc)
        · rfl
      have hdbc : curDist g agents cfg b = curDist g agents cfg c := by
        have hn1 := h2'.2 hbc
        have hn2 := h3'.2 hbc.symm
        exact le_antisymm hn1 hn2
      rcases h1 with ⟨ha, hb⟩ | ⟨hab, hd⟩
      · exact Or.inl ⟨ha, hbc ▸ hb⟩
      · exact Or.inr ⟨hab.trans hbc, hdbc ▸ hd⟩)
    (List.range agents.length) (List.pairwise_lt_range _)
  refine h.imp ?_
  intro a b hab
  rcases hab with hab | ⟨h1, h2, h3⟩
  · rcases (orderLt_iff g agents cfg a b).mp hab with ⟨ha, hb⟩ | ⟨hab', hd⟩
    · exact Or.inl ⟨ha, hb⟩
    · exact Or.inr ⟨hab', Or.inl hd⟩
  · have h1' := (not_congr (orderLt_iff g agents cfg a b)).mp (by simp [h1])
    have h2' := (not_congr (orderLt_iff g agents cfg b a)).mp (by simp [h2])
    push_neg at h1' h2'
    have hab : atGoalB agents cfg a = atGoalB agents cfg b := by
      cases hga : atGoalB agents cfg a <;> cases hgb : atGoalB agents cfg b
      · rfl
      · exact absurd hgb (h1'.1 hga)
      · exact absurd hga (h2'.1 hgb)
      · rfl
    have hd : curDist g agents cfg a = curDist g agents cfg b :=
      le_antisymm (h1'.2 hab) (h2'.2 hab.symm)
    exact Or.inr ⟨hab, Or.inr ⟨hd, h3⟩⟩

/-! ## The solver state (classes `HighLevelNode`, `LowLevelNode`, `LaCAM`)

Object references become ids into per-class arenas held by the solver
record; the process-wide constructor counters `hlNodeIdCounter` and
`llNodeIdCounter` are the fields `hlCtr`/`llCtr` (one solver instance).
`this.state` is flattened into the record; `state.open` is `openS` (a Lean
keyword forbids the source name), a stack whose top is the list's last
element, exactly as a JS array used with `push`/`pop`. -/

/-- `LowLevelNode` (app.js 168–178); `where` is a Lean keyword, hence
`whereV`. -/
structure LLNode where
  id : Nat
  parent : Option Nat
  who : Option Nat
  whereV : Option Nat
  children : List Nat
  depth : Nat
  isSearched : Bool
  isSelected : Bool
deriving DecidableEq, Repr

/-- `HighLevelNode` (app.js 147–164): `config` is the location list of its
`Configuration`. -/
structure HLNode where
  id : Nat
  config : List Nat
  treeRoot : Option Nat
  tree : List Nat
  order : List Nat
  parent : Option Nat
deriving DecidableEq, Repr

inductive Phase
  | init | select | pop_constraint | expand_tree | generate | check
deriving DecidableEq, Repr

inductive Status
  | running | solved | no_solution
deriving DecidableEq, Repr

/-- One high-level node's entry in a snapshot (`cloneAllNodes`, app.js
589–637): the deep-cloned constraint tree is the value list `llNodes`, and
`tree` is the queue as rebuilt there — the BFS traversal of the tree
filtered to the ids present in the live queue. -/
structure SnapNode where
  id : Nat
  config : List Nat
  llNodes : List LLNode
  treeRoot : Option Nat
  tree : List Nat
  order : List Nat
  parentId : Option Nat
deriving DecidableEq, Repr

/-- A `saveHistory` snapshot (app.js 560–587). -/
structure Snapshot where
  nodes : List SnapNode
  openIds : List Nat
  exploredMap : List (List Nat × Nat)
  currentHLId : Option Nat
  currentLLId : Option Nat
  stepNumber : Nat
  phase : Phase
  status : Status
  nodesGenerated : Nat
  configurationsExplored : Nat
  generatedConfig : Option (List Nat)
  solution : Option (List (List Nat))
deriving DecidableEq, Repr

structure LaCAM where
  graph : Graph
  agents : List Agent
  hlArena : List HLNode
  llArena : List LLNode
  hlCtr : Nat
  llCtr : Nat
  openS : List Nat
  explored : List (List Nat × Nat)
  currentHL : Option Nat
  currentLL : Option Nat
  generatedConfig : Option (List Nat)
  stepNumber : Nat
  phase : Phase
  status : Status
  solution : Option (List (List Nat))
  nodesGenerated : Nat
  configurationsExplored : Nat
  history : List Snapshot

def lookupHL (l : LaCAM) (i : Nat) : Option HLNode :=
  l.hlArena.find? fun n => n.id == i

def lookupLL (arena : List LLNode) (i : Nat) : Option LLNode :=
  arena.find? fun n => n.id == i

/-- Mutation of the object with id `i` (all its aliases at once). -/
def updateHL (arena : List HLNode) (i : Nat) (f : HLNode → HLNode) : List HLNode :=
  arena.map fun n => if n.id = i then f n else n

def updateLL (arena : List LLNode) (i : Nat) (f : LLNode → LLNode) : List LLNode :=
  arena.map fun n => if n.id = i then f n else n

def startConfig (agents : List Agent) : List Nat := agents.map (·.start)

def goalConfig (agents : List Agent) : List Nat := agents.map (·.goal)

/-- `LowLevelNode.getConstraints()` (app.js 180–188): walk the parent chain
collecting `(who, where)` pairs, deepest node first, stopping at the root
(`who === null`).  A non-root node always has a non-null `where` (see
`stepExpandTree`), covering the `getD 0`.  Fuel `id + 1` suffices because a
child's id always exceeds its parent's (children are created later). -/
def getConstraintsAux (arena : List LLNode) : Nat → Option Nat → List (Nat × Nat)
  | 0, _ => []
  | _, none => []
  | fuel + 1, some i =>
    match lookupLL arena i with
    | none => []
    | some n =>
      match n.who with
      | none => []
      | some w => (w, n.whereV.getD 0) :: getConstraintsAux arena fuel n.parent

def getConstraints (arena : List LLNode) (i : Nat) : List (Nat × Nat) :=
  getConstraintsAux arena (i + 1) (some i)

/-- `backtrack(node)` (app.js 540–548): the configurations along the
high-level parent chain, root first.  Fuel as in `getConstraints`: parents
have strictly smaller ids. -/
def backtrackAux (l : LaCAM) : Nat → Option Nat → List (List Nat)
  | 0, _ => []
  | _, none => []
  | fuel + 1, some i =>
    match lookupHL l i with
    | none => []
    | some n => backtrackAux l fuel n.parent ++ [n.config]

def backtrack (l : LaCAM) (i : Nat) : List (List Nat) :=
  backtrackAux l (i + 1) (some i)

/-! ### Snapshots (`saveHistory` / `cloneAllNodes` / `restoreFromSnapshot`) -/

/-- `cloneLowLevelTree` (app.js 593–601): in the pure model a deep clone of
the subtree rooted at `i` is its value list (preorder).  Fuel
`arena.length + 1` dominates the height: ids strictly increase downwards and
all lie in the arena. -/
def collectTree (arena : List LLNode) : Nat → Nat → List LLNode
  | 0, _ => []
  | fuel + 1, i =>
    match lookupLL arena i with
    | none => []
    | some n => n :: n.children.flatMap (collectTree arena fuel)

/-- The BFS traversal order of the tree below the queued ids (the queue
rebuild of app.js 612–624 walks the cloned tree breadth-first). -/
def bfsTreeIds (arena : List LLNode) : Nat → List Nat → List Nat
  | 0, _ => []
  | _ + 1, [] => []
  | fuel + 1, i :: rest =>
    match lookupLL arena i with
    | none => i :: bfsTreeIds arena fuel rest
    | some n => i :: bfsTreeIds arena fuel (rest ++ n.children)

def mkSnapNode (l : LaCAM) (n : HLNode) : SnapNode :=
  let llNodes := match n.treeRoot with
    | none => []
    | some r => collectTree l.llArena (l.llArena.length + 1) r
  let bfsIds := match n.treeRoot with
    | none => []
    | some r => bfsTreeIds l.llArena (l.llArena.length + 1) [r]
  { id := n.id, config := n.config, llNodes := llNodes,
    treeRoot := n.treeRoot,
    tree := bfsIds.filter (fun i => n.tree.contains i),
    order := n.order, parentId := n.parent }

/-- First-occurrence deduplication, as a JS `Map` keyed by id collects the
nodes of `open` then of `explored`. -/
def dedupFirst (l : List Nat) : List Nat :=
  l.foldl (fun acc i => if i ∈ acc then acc else acc ++ [i]) []

def cloneAllNodes (l : LaCAM) : List SnapNode :=
  (dedupFirst (l.openS ++ l.explored.map (·.2))).filterMap
    fun i => (lookupHL l i).map (mkSnapNode l)

def mkSnapshot (l : LaCAM) : Snapshot :=
  { nodes := cloneAllNodes l
    openIds := l.openS
    exploredMap := l.explored
    currentHLId := l.currentHL
    currentLLId := l.currentLL
    stepNumber := l.stepNumber
    phase := l.phase
    status := l.status
    nodesGenerated := l.nodesGenerated
    configurationsExplored := l.configurationsExplored
    generatedConfig := l.generatedConfig
    solution := l.solution }

/-- `saveHistory()` (app.js 560–587): push a snapshot, evicting the oldest
entry beyond 200.  Cloning the trees runs the `LowLevelNode` constructor
once per cloned node, which advances the global `llNodeIdCounter`. -/
def saveHistory (l : LaCAM) : LaCAM :=
  let snap := mkSnapshot l
  let cloned := snap.nodes.foldl (fun acc n => acc + n.llNodes.length) 0
  let h := l.history ++ [snap]
  { l with
      history := if h.length > 200 then h.tail else h,
      llCtr := l.llCtr + cloned }

/-- `findLLNode` inside `restoreFromSnapshot` (app.js 682–690): search the
subtree of `i` for the id `tgt`. -/
def findInTree (arena : List LLNode) : Nat → Nat → Nat → Bool
  | 0, _, _ => false
  | fuel + 1, i, tgt =>
    i == tgt ||
      match lookupLL arena i with
      | none => false
      | some n => n.children.any fun c => findInTree arena fuel c tgt

/-- `restoreFromSnapshot(snapshot)` (app.js 639–702).  Rebuilding each
`HighLevelNode` runs its constructor, advancing the global
`hlNodeIdCounter`; unresolvable references are dropped (`|| null`,
`.filter(n => n)`). -/
def restoreFromSnapshot (l : LaCAM) (snap : Snapshot) : LaCAM :=
  let hlArena' : List HLNode := snap.nodes.map fun d =>
    { id := d.id, config := d.config, treeRoot := d.treeRoot,
      tree := d.tree,
      order := d.order,
      parent := d.parentId.bind fun p =>
        if snap.nodes.any (fun m => m.id == p) then some p else none }
  let llArena' : List LLNode := snap.nodes.flatMap (·.llNodes)
  let currentHL' := snap.currentHLId.bind fun i =>
    if hlArena'.any (fun m => m.id == i) then some i else none
  let currentLL' : Option Nat :=
    match snap.currentLLId with
    | none => none
    | some tgt =>
      match currentHL'.bind (fun i => hlArena'.find? fun m => m.id == i) with
      | none => none
      | some hn =>
        match hn.treeRoot with
        | none => none
        | some r =>
          if findInTree llArena' (llArena'.length + 1) r tgt then some tgt else none
  { l with
      hlArena := hlArena',
      llArena := llArena',
      hlCtr := l.hlCtr + snap.nodes.length,
      openS := snap.openIds.filter fun i => hlArena'.any fun m => m.id == i,
      explored := snap.exploredMap.filter fun pr =>
        hlArena'.any fun m => m.id == pr.2,
      currentHL := currentHL',
      currentLL := currentLL',
      stepNumber := snap.stepNumber,
      phase := snap.phase,
      status := snap.status,
      nodesGenerated := snap.nodesGenerated,
      configurationsExplored := snap.configurationsExplored,
      generatedConfig := snap.generatedConfig,
      solution := snap.solution }

/-- `stepBack()` (app.js 550–558). -/
def stepBack (l : LaCAM) : LaCAM × Bool :=
  if l.history.length > 1 then
    let h' := l.history.dropLast
    match h'.getLast? with
    | some prev => (restoreFromSnapshot { l with history := h' } prev, true)
    | none => ({ l with history := h' }, true)
  else (l, false)

/-! ### The phase machine (app.js 208–248, 298–445) -/

/-- `initialize()` (app.js 208–248), renamed for Lean: reset the id
counters, build the start configuration, the root constraint node and the
initial high-level node, seed OPEN and EXPLORED, enter `select`, clear the
history and save the first snapshot. -/
def initSolver (l : LaCAM) : LaCAM :=
  let startCfg := startConfig l.agents
  let cinit : LLNode :=
    { id := 0, parent := none, who := none, whereV := none,
      children := [], depth := 0, isSearched := false, isSelected := false }
  let ninit : HLNode :=
    { id := 0, config := startCfg, treeRoot := some 0,
      tree := [0], order := getInitOrder l.graph l.agents, parent := none }
  saveHistory
    { l with
      hlArena := [ninit], llArena := [cinit], hlCtr := 1, llCtr := 1,
      openS := [0], explored := [(startCfg, 0)],
      currentHL := some 0, currentLL := none,
      generatedConfig := none, stepNumber := 0, phase := Phase.select,
      status := Status.running, solution := none,
      nodesGenerated := 1, configurationsExplored := 1, history := [] }

/-- `stepSelect()` (app.js 320–350).  The `none` lookup branch is
unreachable: OPEN holds references to live nodes. -/
def stepSelect (l : LaCAM) : LaCAM × Bool :=
  match l.openS.getLast? with
  | none => ({ l with status := Status.no_solution }, false)
  | some nid =>
    let l1 := { l with currentHL := some nid }
    match lookupHL l nid with
    | none => (l1, false)
    | some n =>
      if n.config = goalConfig l.agents then
        ({ l1 with
            solution := some (backtrack l1 nid),
            status := Status.solved }, false)
      else if n.tree = [] then
        ({ l1 with openS := l1.openS.dropLast }, true)
      else
        ({ l1 with phase := Phase.pop_constraint }, true)

/-- `stepPopConstraint()` (app.js 352–363).  The `none`/`[]` branches are
unreachable: `select` just checked a nonempty queue of the current node. -/
def stepPopConstraint (l : LaCAM) : LaCAM × Bool :=
  match l.currentHL with
  | none => (l, false)
  | some nid =>
    match lookupHL l nid with
    | none => (l, false)
    | some n =>
      match n.tree with
      | [] => (l, false)
      | c :: rest =>
        ({ l with
          hlArena := updateHL l.hlArena nid fun m => { m with tree := rest },
          llArena := updateLL l.llArena c fun m =>
            { m with isSelected := true, isSearched := true },
          currentLL := some c,
          phase := Phase.expand_tree }, true)

/-- `stepExpandTree()` (app.js 365–392): below depth N, allocate one child
per move of agent `order[depth]` (the `LowLevelNode` constructor assigns
consecutive ids and `parent.depth + 1`), appending each to the parent's
child list and to the node's queue; at depth N, do nothing.  The `none`
branches are unreachable under the solver invariants. -/
def stepExpandTree (l : LaCAM) : LaCAM × Bool :=
  match l.currentHL, l.currentLL with
  | some nid, some cid =>
    match lookupHL l nid, lookupLL l.llArena cid with
    | some n, some c =>
      if c.depth < l.agents.length then
        match n.order[c.depth]? with
        | none => (l, false)
        | some agentId =>
          match n.config[agentId]? with
          | none => (l, false)
          | some currentVertex =>
            let moves := currentVertex :: l.graph.getNeighbors currentVertex
            let newIds := (List.range moves.length).map fun k => l.llCtr + k
            let newNodes := (List.zip newIds moves).map fun pr =>
              ({ id := pr.1, parent := some cid, who := some agentId,
                 whereV := some pr.2, children := [], depth := c.depth + 1,
                 isSearched := false, isSelected := false } : LLNode)
            ({ l with
              llArena := (updateLL l.llArena cid fun m =>
                { m with children := m.children ++ newIds }) ++ newNodes,
              llCtr := l.llCtr + moves.length,
              hlArena := updateHL l.hlArena nid fun m =>
                { m with tree := m.tree ++ newIds },
              phase := Phase.generate }, true)
      else ({ l with phase := Phase.generate }, true)
    | _, _ => (l, false)
  | _, _ => (l, false)

/-- `stepGenerate()` (app.js 394–415). -/
def stepGenerate (l : LaCAM) : LaCAM × Bool :=
  match l.currentHL, l.currentLL with
  | some nid, some cid =>
    match lookupHL l nid with
    | some n =>
      match generateConfig l.graph l.agents n.config (getConstraints l.llArena cid) with
      | none => ({ l with generatedConfig := none, phase := Phase.select }, true)
      | some q => ({ l with generatedConfig := some q, phase := Phase.check }, true)
    | none => (l, false)
  | _, _ => (l, false)

/-- `stepCheck()` (app.js 417–445). -/
def stepCheck (l : LaCAM) : LaCAM × Bool :=
  match l.generatedConfig, l.currentHL with
  | some q, some nid =>
    if l.explored.any (fun pr => pr.1 == q) then
      ({ l with phase := Phase.select }, true)
    else
      let cinit : LLNode :=
        { id := l.llCtr, parent := none, who := none,
          whereV := none, children := [], depth := 0,
          isSearched := false, isSelected := false }
      let nnew : HLNode :=
        { id := l.hlCtr, config := q,
          treeRoot := some l.llCtr, tree := [l.llCtr],
          order := getOrder l.graph l.agents q, parent := some nid }
      ({ l with
          llArena := l.llArena ++ [cinit],
          llCtr := l.llCtr + 1,
          hlArena := l.hlArena ++ [nnew],
          hlCtr := l.hlCtr + 1,
          openS := l.openS ++ [nnew.id],
          explored := l.explored ++ [(q, nnew.id)],
          nodesGenerated := l.nodesGenerated + 1,
          configurationsExplored := l.configurationsExplored + 1,
          phase := Phase.select }, true)
  | _, _ => (l, false)

/-- `step()` (app.js 298–318): nothing once terminated; otherwise save a
snapshot, advance the step counter and run one phase. -/
def step (l : LaCAM) : LaCAM × Bool :=
  if l.status ≠ Status.running then (l, false)
  else
    let l2 := { saveHistory l with stepNumber := l.stepNumber + 1 }
    match l2.phase with
    | Phase.select => stepSelect l2
    | Phase.pop_constraint => stepPopConstraint l2
    | Phase.expand_tree => stepExpandTree l2
    | Phase.generate => stepGenerate l2
    | Phase.check => stepCheck l2
    | Phase.init => (l2, false)

/-- `reset()` (app.js 704–706). -/
def reset (l : LaCAM) : LaCAM := initSolver l

/-! ### Arena lookup and update lemmas -/

theorem lookupLL_mem {arena : List LLNode} {i : Nat} {n : LLNode}
    (h : lookupLL arena i = some n) : n ∈ arena ∧ n.id = i := by
  unfold lookupLL at h
  exact ⟨List.mem_of_find?_eq_some h, by simpa using List.find?_some h⟩

theorem lookupHL_mem {l : LaCAM} {i : Nat} {n : HLNode}
    (h : lookupHL l i = some n) : n ∈ l.hlArena ∧ n.id = i := by
  unfold lookupHL at h
  exact ⟨List.mem_of_find?_eq_some h, by simpa using List.find?_some h⟩

/-- With duplicate-free keys, `find?` by key retrieves any member. -/
theorem find?_key_of_mem {α : Type} (key : α → Nat) {l : List α}
    (hnd : (l.map key).Nodup) {n : α} (hn : n ∈ l) :
    l.find? (fun m => key m == key n) = some n := by
  induction l with
  | nil => cases hn
  | cons a rest ih =>
    rcases List.mem_cons.mp hn with rfl | hn
    · exact List.find?_cons_of_pos _ (by simp)
    · have hne : key a ≠ key n := by
        intro hc
        apply (List.nodup_cons.mp hnd).1
        rw [hc]
        exact List.mem_map_of_mem key hn
      rw [List.find?_cons_of_neg _ (by simpa using hne)]
      exact ih (List.nodup_cons.mp hnd).2 hn

theorem lookupLL_of_mem {arena : List LLNode}
    (hnd : (arena.map (·.id)).Nodup) {n : LLNode} (hn : n ∈ arena) :
    lookupLL arena n.id = some n := by
  unfold lookupLL
  exact find?_key_of_mem (fun x => x.id) hnd hn

theorem lookupHL_of_mem {l : LaCAM}
    (hnd : (l.hlArena.map (·.id)).Nodup) {n : HLNode} (hn : n ∈ l.hlArena) :
    lookupHL l n.id = some n := by
  unfold lookupHL
  exact find?_key_of_mem (fun x => x.id) hnd hn

/-- Lookup in an updated arena: the update function is applied to the found
node when the looked-up node matches the update target (the update functions
in this development preserve `id`). -/
theorem lookupLL_update (arena : List LLNode) (j : Nat) (f : LLNode → LLNode)
    (hf : ∀ n, (f n).id = n.id) (i : Nat) :
    lookupLL (updateLL arena j f) i =
      (lookupLL arena i).map fun n => if n.id = j then f n else n := by
  induction arena with
  | nil => rfl
  | cons a rest ih =>
    simp only [updateLL, List.map_cons, lookupLL]
    by_cases ha : a.id = j
    · rw [if_pos ha]
      by_cases hai : a.id = i
      · rw [List.find?_cons_of_pos _ (by simp [hf, hai]),
          List.find?_cons_of_pos _ (by simp [hai])]
        simp only [Option.map]
        rw [if_pos ha]
      · rw [List.find?_cons_of_neg _ (by simp [hf, hai]),
          List.find?_cons_of_neg _ (by simp [hai])]
        exact ih
    · rw [if_neg ha]
      by_cases hai : a.id = i
      · rw [List.find?_cons_of_pos _ (by simp [hai]),
          List.find?_cons_of_pos _ (by simp [hai])]
        simp only [Option.map]
        rw [if_neg ha]
      · rw [List.find?_cons_of_neg _ (by simp [hai]),
          List.find?_cons_of_neg _ (by simp [hai])]
        exact ih

/-- Lookup in an extended arena is unchanged for resolvable ids. -/
theorem lookupLL_append_of_some {arena : List LLNode} {i : Nat} {n : LLNode}
    (h : lookupLL arena i = some n) (new : List LLNode) :
    lookupLL (arena ++ new) i = some n := by
  unfold lookupLL at h ⊢
  rw [List.find?_append, h]
  rfl

theorem lookupHL_append_of_some {l : LaCAM} {i : Nat} {n : HLNode}
    (h : lookupHL l i = some n) (new : List HLNode) (l' : LaCAM)
    (harena : l'.hlArena = l.hlArena ++ new) :
    lookupHL l' i = some n := by
  unfold lookupHL at h ⊢
  rw [harena, List.find?_append, h]
  rfl

/-! ### Constraint chains

`ChainOKId g arena nAg cfg i` says the parent walk from low-level node `i`
is well formed relative to the owning high-level node's configuration
`cfg`: every collected `(who, where)` pair pins an agent below `nAg` to a
vertex of its move set in `cfg`, parents have strictly smaller ids, and the
walk ends at a root. -/
inductive ChainOKId (g : Graph) (arena : List LLNode) (nAg : Nat)
    (cfg : List Nat) : Nat → Prop
  | root (i : Nat) (n : LLNode) (hlk : lookupLL arena i = some n)
      (hwho : n.who = none) : ChainOKId g arena nAg cfg i
  | cons (i : Nat) (n : LLNode) (w v p : Nat)
      (hlk : lookupLL arena i = some n)
      (hwho : n.who = some w) (hwhere : n.whereV = some v)
      (hwN : w < nAg)
      (hmv : ∃ qv, cfg[w]? = some qv ∧ (v = qv ∨ v ∈ g.adj qv))
      (hp : n.parent = some p) (hplt : p < i)
      (hrec : ChainOKId g arena nAg cfg p) : ChainOKId g arena nAg cfg i

/-- Constraint-relevant fields, preserved by the solver's arena updates. -/
def SameChainFields (n m : LLNode) : Prop :=
  n.who = m.who ∧ n.whereV = m.whereV ∧ n.parent = m.parent

/-- Chain validity only reads `who`/`whereV`/`parent`, so it survives any
arena change preserving those fields of resolvable nodes. -/
theorem chainOKId_stable {g : Graph} {arena arena' : List LLNode} {nAg : Nat}
    {cfg : List Nat}
    (hstab : ∀ (i : Nat) (n : LLNode), lookupLL arena i = some n →
      ∃ m, lookupLL arena' i = some m ∧ SameChainFields n m) :
    ∀ {i : Nat}, ChainOKId g arena nAg cfg i → ChainOKId g arena' nAg cfg i := by
  intro i h
  induction h with
  | root i n hlk hwho =>
    obtain ⟨m, hm, hs⟩ := hstab i n hlk
    exact ChainOKId.root i m hm (hs.1 ▸ hwho)
  | cons i n w v p hlk hwho hwhere hwN hmv hp hplt hrec ih =>
    obtain ⟨m, hm, hs⟩ := hstab i n hlk
    exact ChainOKId.cons i m w v p hm (hs.1 ▸ hwho) (hs.2.1 ▸ hwhere) hwN hmv
      (hs.2.2 ▸ hp) hplt ih

/-- Constraint sets whose every entry pins an agent below `nAg` inside its
move set of `cfg`. -/
def CsOK (g : Graph) (cfg : List Nat) (nAg : Nat) (cs : List (Nat × Nat)) : Prop :=
  ∀ pr ∈ cs, pr.1 < nAg ∧ ∃ qv, cfg[pr.1]? = some qv ∧ (pr.2 = qv ∨ pr.2 ∈ g.adj qv)

/-- The constraints collected from a valid chain are `CsOK`. -/
theorem getConstraints_csOK {g : Graph} {arena : List LLNode} {nAg : Nat}
    {cfg : List Nat} {i : Nat} (h : ChainOKId g arena nAg cfg i) :
    ∀ fuel, i < fuel → CsOK g cfg nAg (getConstraintsAux arena fuel (some i)) := by
  induction h with
  | root i n hlk hwho =>
    intro fuel hfuel
    match fuel, hfuel with
    | f + 1, _ =>
      simp only [getConstraintsAux, hlk, hwho]
      intro pr hpr
      cases hpr
  | cons i n w v p hlk hwho hwhere hwN hmv hp hplt hrec ih =>
    intro fuel hfuel
    match fuel, hfuel with
    | f + 1, _ =>
      simp only [getConstraintsAux, hlk, hwho, hp]
      intro pr hpr
      rcases List.mem_cons.mp hpr with rfl | hpr
      · rw [hwhere]
        exact ⟨hwN, hmv⟩
      · exact ih f (by omega) pr hpr

theorem getConstraints_csOK' {g : Graph} {arena : List LLNode} {nAg : Nat}
    {cfg : List Nat} {i : Nat} (h : ChainOKId g arena nAg cfg i) :
    CsOK g cfg nAg (getConstraints arena i) :=
  getConstraints_csOK h (i + 1) (Nat.lt_succ_self i)

/-! ### The constraint forest

Coherence of the low-level arena as a forest: children carry strictly larger
ids (they are created later), the two link directions agree, and a child
sits one level below its parent. -/

structure LLCoh (arena : List LLNode) : Prop where
  nodup : (arena.map (·.id)).Nodup
  childOK : ∀ n ∈ arena, n.children.Nodup ∧ ∀ c ∈ n.children, n.id < c ∧
    ∃ cn, lookupLL arena c = some cn ∧ cn.parent = some n.id ∧
      cn.depth = n.depth + 1
  parentOK : ∀ n ∈ arena, ∀ p, n.parent = some p → p < n.id ∧
    ∃ pn, lookupLL arena p = some pn ∧ n.id ∈ pn.children

/-- Descendant relation along child links. -/
inductive Desc (arena : List LLNode) : Nat → Nat → Prop
  | refl (i : Nat) : Desc arena i i
  | step (i c j : Nat) (n : LLNode) (hlk : lookupLL arena i = some n)
      (hc : c ∈ n.children) (hrec : Desc arena c j) : Desc arena i j

theorem desc_le {arena : List LLNode} (hcoh : LLCoh arena) :
    ∀ {i j : Nat}, Desc arena i j → i ≤ j := by
  intro i j h
  induction h with
  | refl => exact le_refl _
  | step i c j n hlk hc _ ih =>
    obtain ⟨hmem, hid⟩ := lookupLL_mem hlk
    have := ((hcoh.childOK n hmem).2 c hc).1
    omega

theorem desc_trans {arena : List LLNode} :
    ∀ {i j k : Nat}, Desc arena i j → Desc arena j k → Desc arena i k := by
  intro i j k h1
  induction h1 with
  | refl => exact fun h => h
  | step i c j n hlk hc _ ih =>
    intro h2
    exact Desc.step i c k n hlk hc (ih h2)

theorem desc_snoc {arena : List LLNode} {i y c : Nat} {ny : LLNode}
    (h : Desc arena i y) (hlk : lookupLL arena y = some ny)
    (hc : c ∈ ny.children) : Desc arena i c :=
  desc_trans h (Desc.step y c c ny hlk hc (Desc.refl c))

/-- A proper descendant is a child of some intermediate descendant. -/
theorem desc_last {arena : List LLNode} :
    ∀ {i j : Nat}, Desc arena i j → i = j ∨
      ∃ y ny, Desc arena i y ∧ lookupLL arena y = some ny ∧ j ∈ ny.children := by
  intro i j h
  induction h with
  | refl => exact Or.inl rfl
  | step i c j n hlk hc hrec ih =>
    rcases ih with rfl | ⟨y, ny, hd, hylk, hyc⟩
    · exact Or.inr ⟨i, n, Desc.refl i, hlk, hc⟩
    · exact Or.inr ⟨y, ny, Desc.step i c y n hlk hc hd, hylk, hyc⟩

/-- Parent walk of a proper descendant stays below the ancestor. -/
theorem desc_parent {arena : List LLNode} (hcoh : LLCoh arena) {i j : Nat}
    (h : Desc arena i j) (hne : i ≠ j) {nj : LLNode}
    (hj : lookupLL arena j = some nj) :
    ∃ p, nj.parent = some p ∧ Desc arena i p := by
  rcases desc_last h with rfl | ⟨y, ny, hd, hylk, hyc⟩
  · exact absurd rfl hne
  · obtain ⟨hymem, hyid⟩ := lookupLL_mem hylk
    obtain ⟨cn, hcn, hcnp, _⟩ := ((hcoh.childOK ny hymem).2 j hyc).2
    rw [hj] at hcn
    injection hcn with hcn
    subst hcn
    exact ⟨ny.id, by rw [hcnp, hyid], hyid ▸ hd⟩

/-! ### `rootOf`: the root above a node -/

/-- The root reached by the parent walk from `i`; fuel `i + 1` suffices when
parents have smaller ids. -/
def rootOfAux (arena : List LLNode) : Nat → Nat → Option Nat
  | 0, _ => none
  | fuel + 1, i =>
    match lookupLL arena i with
    | none => none
    | some n =>
      match n.parent with
      | none => some i
      | some p => rootOfAux arena fuel p

def rootOf (arena : List LLNode) (i : Nat) : Option Nat :=
  rootOfAux arena (i + 1) i

theorem rootOfAux_fuel {arena : List LLNode} (hcoh : LLCoh arena) :
    ∀ (i fuel fuel' : Nat), i < fuel → i < fuel' →
    rootOfAux arena fuel i = rootOfAux arena fuel' i := by
  intro i
  induction i using Nat.strong_induction_on with
  | _ i ih =>
    intro fuel fuel' hf hf'
    match fuel, fuel', hf, hf' with
    | f + 1, f' + 1, _, _ =>
      simp only [rootOfAux]
      cases hlk : lookupLL arena i with
      | none => rfl
      | some n =>
        dsimp only
        cases hp : n.parent with
        | none => rfl
        | some p =>
          dsimp only
          obtain ⟨hmem, hid⟩ := lookupLL_mem hlk
          have hplt : p < n.id := (hcoh.parentOK n hmem p hp).1
          rw [hid] at hplt
          exact ih p hplt f f' (by omega) (by omega)

theorem rootOf_parent {arena : List LLNode} (hcoh : LLCoh arena) {j p : Nat}
    {n : LLNode} (hlk : lookupLL arena j = some n) (hp : n.parent = some p) :
    rootOf arena j = rootOf arena p := by
  obtain ⟨hmem, hid⟩ := lookupLL_mem hlk
  have hplt : p < j := by
    have := (hcoh.parentOK n hmem p hp).1
    omega
  have h1 : rootOf arena j = rootOfAux arena j p := by
    unfold rootOf
    simp only [rootOfAux, hlk]
    rw [hp]
  rw [h1]
  exact rootOfAux_fuel hcoh p j (p + 1) hplt (Nat.lt_succ_self p)

theorem rootOf_root {arena : List LLNode} {j : Nat} {n : LLNode}
    (hlk : lookupLL arena j = some n) (hp : n.parent = none) :
    rootOf arena j = some j := by
  unfold rootOf
  simp [rootOfAux, hlk, hp]

/-- Walking down a child link preserves the root. -/
theorem rootOf_desc {arena : List LLNode} (hcoh : LLCoh arena) :
    ∀ {i j : Nat}, Desc arena i j → rootOf arena j = rootOf arena i := by
  intro i j h
  induction h with
  | refl => rfl
  | step i c j n hlk hc _ ih =>
    obtain ⟨hmem, hid⟩ := lookupLL_mem hlk
    obtain ⟨cn, hcn, hcnp, _⟩ := ((hcoh.childOK n hmem).2 c hc).2
    rw [ih, rootOf_parent hcoh hcn hcnp, hid]

/-- Conversely, every node descends from its root. -/
theorem desc_of_rootOf {arena : List LLNode} (hcoh : LLCoh arena) :
    ∀ (j r : Nat), rootOf arena j = some r → Desc arena r j := by
  intro j
  induction j using Nat.strong_induction_on with
  | _ j ih =>
    intro r hr
    unfold rootOf at hr
    simp only [rootOfAux] at hr
    cases hlk : lookupLL arena j with
    | none => rw [hlk] at hr; exact absurd hr (by simp)
    | some n =>
      rw [hlk] at hr
      dsimp only at hr
      cases hp : n.parent with
      | none =>
        rw [hp] at hr
        injection hr with hr
        subst hr
        exact Desc.refl j
      | some p =>
        rw [hp] at hr
        obtain ⟨hmem, hid⟩ := lookupLL_mem hlk
        obtain ⟨hplt, pn, hpn, hpc⟩ := hcoh.parentOK n hmem p hp
        rw [hid] at hplt
        have hr' : rootOf arena p = some r := by
          unfold rootOf
          rw [← hr]
          exact (rootOfAux_fuel hcoh p (p + 1) j (by omega) (by omega))
        have hjc : j ∈ pn.children := by
          rw [← hid]
          exact hpc
        exact desc_snoc (ih p hplt r hr') hpn hjc

/-- Two distinct roots have disjoint descendant sets. -/
theorem desc_disjoint {arena : List LLNode} (hcoh : LLCoh arena)
    {r1 r2 x : Nat} {n1 n2 : LLNode}
    (h1 : lookupLL arena r1 = some n1) (hp1 : n1.parent = none)
    (h2 : lookupLL arena r2 = some n2) (hp2 : n2.parent = none)
    (hd1 : Desc arena r1 x) (hd2 : Desc arena r2 x) : r1 = r2 := by
  have e1 : rootOf arena x = some r1 := by
    rw [rootOf_desc hcoh hd1]
    exact rootOf_root h1 hp1
  have e2 : rootOf arena x = some r2 := by
    rw [rootOf_desc hcoh hd2]
    exact rootOf_root h2 hp2
  rw [e1] at e2
  injection e2

/-- Descendant sets of distinct siblings are disjoint. -/
theorem desc_sibling_disjoint {arena : List LLNode} (hcoh : LLCoh arena)
    {y : Nat} {ny : LLNode} (hy : lookupLL arena y = some ny) :
    ∀ (x c1 c2 : Nat), c1 ∈ ny.children → c2 ∈ ny.children → c1 ≠ c2 →
    Desc arena c1 x → Desc arena c2 x → False := by
  intro x
  induction x using Nat.strong_induction_on with
  | _ x ih =>
    intro c1 c2 hc1 hc2 hne hd1 hd2
    obtain ⟨hymem, hyid⟩ := lookupLL_mem hy
    obtain ⟨hlt1, cn1, hcn1, hcp1, _⟩ := (hcoh.childOK ny hymem).2 c1 hc1
    obtain ⟨hlt2, cn2, hcn2, hcp2, _⟩ := (hcoh.childOK ny hymem).2 c2 hc2
    by_cases hx1 : c1 = x
    · subst hx1
      -- Desc c2 c1 with c2 ≠ c1: walk into c1 comes through its parent y
      obtain ⟨p, hp, hdp⟩ := desc_parent hcoh hd2 (Ne.symm hne) hcn1
      rw [hcp1] at hp
      injection hp with hp
      subst hp
      have := desc_le hcoh hdp
      omega
    · by_cases hx2 : c2 = x
      · subst hx2
        obtain ⟨p, hp, hdp⟩ := desc_parent hcoh hd1 hne hcn2
        rw [hcp2] at hp
        injection hp with hp
        subst hp
        have := desc_le hcoh hdp
        omega
      · obtain ⟨nx, hnx⟩ : ∃ nx, lookupLL arena x = some nx := by
          rcases desc_last hd1 with rfl | ⟨z, nz, _, hzlk, hzc⟩
          · exact absurd rfl hx1
          · obtain ⟨hzmem, _⟩ := lookupLL_mem hzlk
            obtain ⟨_, cn, hcn, _, _⟩ := (hcoh.childOK nz hzmem).2 x hzc
            exact ⟨cn, hcn⟩
        obtain ⟨p1, hpx1, hdp1⟩ := desc_parent hcoh hd1 hx1 hnx
        obtain ⟨p2, hpx2, hdp2⟩ := desc_parent hcoh hd2 hx2 hnx
        rw [hpx1] at hpx2
        injection hpx2 with hpx2
        subst hpx2
        obtain ⟨hxmem, hxid⟩ := lookupLL_mem hnx
        have hplt : p1 < x := hxid ▸ (hcoh.parentOK nx hxmem p1 hpx1).1
        exact ih p1 hplt c1 c2 hc1 hc2 hne hdp1 hdp2

/-! ### Collecting subtrees: fuel sufficiency and membership -/

/-- Number of arena entries with id at least `i`: the recursion measure of
every child walk (children have strictly larger ids). -/
def idBound (arena : List LLNode) (i : Nat) : Nat :=
  (arena.filter fun m => decide (i ≤ m.id)).length

theorem idBound_le (arena : List LLNode) (i : Nat) :
    idBound arena i ≤ arena.length :=
  List.length_filter_le _ _

theorem idBound_lt_of_child {arena : List LLNode} (hcoh : LLCoh arena)
    {i c : Nat} {n : LLNode} (hlk : lookupLL arena i = some n)
    (hc : c ∈ n.children) : idBound arena c < idBound arena i := by
  obtain ⟨hmem, hid⟩ := lookupLL_mem hlk
  have hic : i < c := by
    have := ((hcoh.childOK n hmem).2 c hc).1
    omega
  refine filter_length_lt_of_flip arena _ _ ?_ n hmem ?_ ?_
  · intro m hm
    simp only [decide_eq_true_eq] at hm ⊢
    omega
  · simp only [decide_eq_true_eq]
    omega
  · simp only [decide_eq_false_iff_not, not_le]
    omega

theorem collect_fuel_irrel {arena : List LLNode} (hcoh : LLCoh arena) :
    ∀ (b i fuel fuel' : Nat), idBound arena i = b → b < fuel → b < fuel' →
    collectTree arena fuel i = collectTree arena fuel' i := by
  intro b
  induction b using Nat.strong_induction_on with
  | _ b ih =>
    intro i fuel fuel' hb hf hf'
    match fuel, fuel', hf, hf' with
    | f + 1, f' + 1, _, _ =>
      simp only [collectTree]
      cases hlk : lookupLL arena i with
      | none => rfl
      | some n =>
        dsimp only
        congr 1
        have hmap : n.children.map (collectTree arena f) =
            n.children.map (collectTree arena f') := by
          apply List.map_congr_left
          intro c hc
          have hcb := idBound_lt_of_child hcoh hlk hc
          rw [hb] at hcb
          exact ih (idBound arena c) hcb c f f' rfl (by omega) (by omega)
        calc n.children.flatMap (collectTree arena f)
            = (n.children.map (collectTree arena f)).flatten := by
              rw [List.flatMap_def]
          _ = (n.children.map (collectTree arena f')).flatten := by rw [hmap]
          _ = n.children.flatMap (collectTree arena f') := by
              rw [List.flatMap_def]

theorem collect_mem {arena : List LLNode} :
    ∀ (fuel i : Nat) (m : LLNode), m ∈ collectTree arena fuel i →
    lookupLL arena m.id = some m ∧ Desc arena i m.id := by
  intro fuel
  induction fuel with
  | zero => intro i m h; cases h
  | succ f ih =>
    intro i m h
    simp only [collectTree] at h
    cases hlk : lookupLL arena i with
    | none => rw [hlk] at h; cases h
    | some n =>
      rw [hlk] at h
      dsimp only at h
      rcases List.mem_cons.mp h with rfl | h
      · have hid : m.id = i := (lookupLL_mem hlk).2
        rw [hid]
        exact ⟨hlk, Desc.refl i⟩
      · obtain ⟨c, hcmem, hcm⟩ := List.mem_flatMap.mp h
        obtain ⟨hmlk, hd⟩ := ih c m hcm
        exact ⟨hmlk, Desc.step i c m.id n hlk hcmem hd⟩

theorem collect_complete {arena : List LLNode} (hcoh : LLCoh arena) :
    ∀ (b i fuel : Nat), idBound arena i = b → b < fuel →
    ∀ (j : Nat) (nj : LLNode), Desc arena i j → lookupLL arena j = some nj →
    nj ∈ collectTree arena fuel i := by
  intro b
  induction b using Nat.strong_induction_on with
  | _ b ih =>
    intro i fuel hb hf j nj hd hj
    match fuel, hf with
    | f + 1, _ =>
      cases hd with
      | refl =>
        simp only [collectTree, hj]
        exact List.mem_cons_self _ _
      | step _ c _ n hlk hc hrec =>
        simp only [collectTree, hlk]
        refine List.mem_cons_of_mem _ (List.mem_flatMap.mpr ⟨c, hc, ?_⟩)
        have hcb := idBound_lt_of_child hcoh hlk hc
        rw [hb] at hcb
        exact ih (idBound arena c) hcb c f rfl (by omega) j nj hrec hj

/-- Concatenating per-child collections keeps ids duplicate-free. -/
theorem flatMap_nodup_ids {α : Type} {l : List α} {f : α → List LLNode}
    (hk : ∀ c ∈ l, ((f c).map (·.id)).Nodup)
    (hdisj : l.Pairwise fun c1 c2 => ∀ x ∈ f c1, ∀ y ∈ f c2, x.id ≠ y.id) :
    ((l.flatMap f).map (·.id)).Nodup := by
  induction l with
  | nil => simp
  | cons c rest ih =>
    simp only [List.flatMap_cons, List.map_append]
    refine List.Nodup.append (hk c (.head _))
      (ih (fun d hd => hk d (.tail _ hd)) (List.pairwise_cons.mp hdisj).2) ?_
    intro a ha hb
    obtain ⟨x, hx, hxa⟩ := List.mem_map.mp ha
    obtain ⟨y, hy, hya⟩ := List.mem_map.mp hb
    obtain ⟨d, hdmem, hyd⟩ := List.mem_flatMap.mp hy
    have hcd := (List.pairwise_cons.mp hdisj).1 d hdmem
    exact hcd x hx y hyd (by rw [hxa, hya])

/-- A collected subtree lists each id once. -/
theorem collect_nodup {arena : List LLNode} (hcoh : LLCoh arena) :
    ∀ (b i fuel : Nat), idBound arena i = b → b < fuel →
    ((collectTree arena fuel i).map (·.id)).Nodup := by
  intro b
  induction b using Nat.strong_induction_on with
  | _ b ih =>
    intro i fuel hb hf
    match fuel, hf with
    | f + 1, _ =>
      simp only [collectTree]
      cases hlk : lookupLL arena i with
      | none => simp
      | some n =>
        dsimp only
        simp only [List.map_cons]
        refine List.nodup_cons.mpr ⟨?_, ?_⟩
        · intro hmem
          obtain ⟨m, hm, hmid⟩ := List.mem_map.mp hmem
          obtain ⟨c, hc, hmc⟩ := List.mem_flatMap.mp hm
          obtain ⟨_, hd⟩ := collect_mem f c m hmc
          have h1 : c ≤ m.id := desc_le hcoh hd
          have h2 : n.id < c :=
            (((hcoh.childOK n (lookupLL_mem hlk).1).2 c hc)).1
          have h3 : n.id = i := (lookupLL_mem hlk).2
          omega
        · refine flatMap_nodup_ids ?_ ?_
          · intro c hc
            have hcb := idBound_lt_of_child hcoh hlk hc
            rw [hb] at hcb
            exact ih (idBound arena c) hcb c f rfl (by omega)
          · have hnd : n.children.Nodup :=
              (hcoh.childOK n (lookupLL_mem hlk).1).1
            refine List.Pairwise.imp_of_mem ?_ hnd
            intro c1 c2 hc1 hc2 hne x hx y hy hxy
            obtain ⟨_, hdx⟩ := collect_mem f c1 x hx
            obtain ⟨_, hdy⟩ := collect_mem f c2 y hy
            exact desc_sibling_disjoint hcoh hlk x.id c1 c2 hc1 hc2 hne hdx
              (hxy ▸ hdy)

theorem findInTree_sound {arena : List LLNode} :
    ∀ (fuel i tgt : Nat), findInTree arena fuel i tgt = true →
    Desc arena i tgt := by
  intro fuel
  induction fuel with
  | zero => intro i tgt h; exact absurd h (by simp [findInTree])
  | succ f ih =>
    intro i tgt h
    simp only [findInTree, Bool.or_eq_true, beq_iff_eq] at h
    rcases h with rfl | h
    · exact Desc.refl i
    · cases hlk : lookupLL arena i with
      | none => rw [hlk] at h; exact absurd h (by simp)
      | some n =>
        rw [hlk] at h
        dsimp only at h
        obtain ⟨c, hc, hfc⟩ := List.any_eq_true.mp h
        exact Desc.step i c tgt n hlk hc (ih c tgt hfc)

theorem findInTree_complete {arena : List LLNode} (hcoh : LLCoh arena) :
    ∀ (b i fuel : Nat), idBound arena i = b → b < fuel →
    ∀ tgt, Desc arena i tgt → findInTree arena fuel i tgt = true := by
  intro b
  induction b using Nat.strong_induction_on with
  | _ b ih =>
    intro i fuel hb hf tgt hd
    match fuel, hf with
    | f + 1, _ =>
      cases hd with
      | refl => simp [findInTree]
      | step _ c _ n hlk hc hrec =>
        simp only [findInTree, Bool.or_eq_true, beq_iff_eq]
        refine Or.inr ?_
        rw [hlk]
        dsimp only
        refine List.any_eq_true.mpr ⟨c, hc, ?_⟩
        have hcb := idBound_lt_of_child hcoh hlk hc
        rw [hb] at hcb
        exact ih (idBound arena c) hcb c f rfl (by omega) tgt hrec

/-! ### The BFS queue rebuild -/

/-- Size of the subtree below `i` (the canonical fuel is always enough). -/
def subSize (arena : List LLNode) (i : Nat) : Nat :=
  (collectTree arena (arena.length + 1) i).length

theorem subSize_pos {arena : List LLNode} {i : Nat} {n : LLNode}
    (hlk : lookupLL arena i = some n) : 1 ≤ subSize arena i := by
  unfold subSize
  simp [collectTree, hlk]

theorem subSize_unfold {arena : List LLNode} (hcoh : LLCoh arena) {i : Nat}
    {n : LLNode} (hlk : lookupLL arena i = some n) :
    subSize arena i = 1 + (n.children.map (subSize arena)).sum := by
  have hirr : ∀ c ∈ n.children,
      collectTree arena arena.length c = collectTree arena (arena.length + 1) c := by
    intro c hc
    have hcb := idBound_lt_of_child hcoh hlk hc
    have hib : idBound arena i ≤ arena.length := idBound_le arena i
    exact collect_fuel_irrel hcoh (idBound arena c) c arena.length
      (arena.length + 1) rfl (by omega) (by omega)
  unfold subSize
  conv_lhs => simp only [collectTree, hlk]
  simp only [List.length_cons, List.length_flatMap]
  have hmap : n.children.map (List.length ∘ collectTree arena arena.length) =
      n.children.map (fun c => (collectTree arena (arena.length + 1) c).length) := by
    apply List.map_congr_left
    intro c hc
    simp only [Function.comp_apply, hirr c hc]
  rw [hmap]
  omega

theorem bfs_sound {arena : List LLNode} :
    ∀ (fuel : Nat) (Q : List Nat) (x : Nat), x ∈ bfsTreeIds arena fuel Q →
    ∃ q ∈ Q, Desc arena q x := by
  intro fuel
  induction fuel with
  | zero => intro Q x h; cases h
  | succ f ih =>
    intro Q x h
    cases Q with
    | nil => cases h
    | cons i rest =>
      simp only [bfsTreeIds] at h
      cases hlk : lookupLL arena i with
      | none =>
        rw [hlk] at h
        rcases List.mem_cons.mp h with rfl | h
        · exact ⟨x, .head _, Desc.refl x⟩
        · obtain ⟨q, hq, hd⟩ := ih rest x h
          exact ⟨q, .tail _ hq, hd⟩
      | some n =>
        rw [hlk] at h
        rcases List.mem_cons.mp h with rfl | h
        · exact ⟨x, .head _, Desc.refl x⟩
        · obtain ⟨q, hq, hd⟩ := ih (rest ++ n.children) x h
          rcases List.mem_append.mp hq with hq | hq
          · exact ⟨q, .tail _ hq, hd⟩
          · exact ⟨i, .head _, Desc.step i q x n hlk hq hd⟩

theorem bfs_complete {arena : List LLNode} (hcoh : LLCoh arena) :
    ∀ (fuel : Nat) (Q : List Nat),
    (∀ q ∈ Q, (lookupLL arena q).isSome) →
    (Q.map (subSize arena)).sum ≤ fuel →
    ∀ q ∈ Q, ∀ x, Desc arena q x → x ∈ bfsTreeIds arena fuel Q := by
  intro fuel
  induction fuel with
  | zero =>
    intro Q hres hsum q hq x hd
    cases Q with
    | nil => cases hq
    | cons i rest =>
      obtain ⟨n, hn⟩ := Option.isSome_iff_exists.mp (hres i (.head _))
      have := subSize_pos hn
      simp only [List.map_cons, List.sum_cons] at hsum
      omega
  | succ f ih =>
    intro Q hres hsum q hq x hd
    cases Q with
    | nil => cases hq
    | cons i rest =>
      obtain ⟨n, hn⟩ := Option.isSome_iff_exists.mp (hres i (.head _))
      simp only [bfsTreeIds, hn]
      have hsum' : ((rest ++ n.children).map (subSize arena)).sum ≤ f := by
        have hu := subSize_unfold hcoh hn
        simp only [List.map_cons, List.sum_cons] at hsum
        simp only [List.map_append, List.sum_append]
        omega
      have hres' : ∀ p ∈ rest ++ n.children, (lookupLL arena p).isSome := by
        intro p hp
        rcases List.mem_append.mp hp with hp | hp
        · exact hres p (.tail _ hp)
        · obtain ⟨_, cn, hcn, _, _⟩ :=
            (hcoh.childOK n (lookupLL_mem hn).1).2 p hp
          rw [hcn]
          rfl
      rcases List.mem_cons.mp hq with rfl | hq
      · cases hd with
        | refl => exact .head _
        | step _ c _ n' hlk' hc hrec =>
          rw [hn] at hlk'
          injection hlk' with hlk'
          subst hlk'
          refine .tail _ (ih (rest ++ n.children) hres' hsum' c
            (List.mem_append_right _ hc) x hrec)
      · refine .tail _ (ih (rest ++ n.children) hres' hsum' q
          (List.mem_append_left _ hq) x hd)

/-- The `LaCAM` constructor (app.js 200–206); `this.state` is null until
`initialize`, modelled by inert defaults. -/
def mkLaCAM (g : Graph) (agents : List Agent) : LaCAM :=
  { graph := g, agents := agents, hlArena := [], llArena := [],
    hlCtr := 0, llCtr := 0, openS := [], explored := [],
    currentHL := none,
    currentLL := none, generatedConfig := none, stepNumber := 0,
    phase := Phase.init, status := Status.running, solution := none,
    nodesGenerated := 0, configurationsExplored := 0, history := [] }


/-! ## Helper lemmas towards the solver invariant -/

theorem dedupFirst_aux (l acc : List Nat) (hacc : acc.Nodup) :
    (l.foldl (fun a i => if i ∈ a then a else a ++ [i]) acc).Nodup ∧
    ∀ x, x ∈ l.foldl (fun a i => if i ∈ a then a else a ++ [i]) acc ↔
      x ∈ acc ∨ x ∈ l := by
  induction l generalizing acc with
  | nil => simp [hacc]
  | cons i rest ih =>
    simp only [List.foldl_cons]
    by_cases hi : i ∈ acc
    · rw [if_pos hi]
      obtain ⟨h1, h2⟩ := ih acc hacc
      refine ⟨h1, fun x => ?_⟩
      rw [h2 x]
      constructor
      · rintro (hx | hx)
        · exact Or.inl hx
        · exact Or.inr (List.mem_cons_of_mem _ hx)
      · rintro (hx | hx)
        · exact Or.inl hx
        · rcases List.mem_cons.mp hx with rfl | hx
          · exact Or.inl hi
          · exact Or.inr hx
    · rw [if_neg hi]
      obtain ⟨h1, h2⟩ := ih (acc ++ [i])
        (by simp [List.nodup_append, hacc, hi])
      refine ⟨h1, fun x => ?_⟩
      rw [h2 x]
      constructor
      · rintro (hx | hx)
        · rcases List.mem_append.mp hx with hx | hx
          · exact Or.inl hx
          · simp only [List.mem_singleton] at hx
            exact Or.inr (hx ▸ List.mem_cons_self _ _)
        · exact Or.inr (List.mem_cons_of_mem _ hx)
      · rintro (hx | hx)
        · exact Or.inl (List.mem_append_left _ hx)
        · rcases List.mem_cons.mp hx with rfl | hx
          · exact Or.inl (List.mem_append_right _ (by simp))
          · exact Or.inr hx

theorem dedupFirst_nodup (l : List Nat) : (dedupFirst l).Nodup :=
  (dedupFirst_aux l [] List.nodup_nil).1

theorem dedupFirst_mem (l : List Nat) (x : Nat) : x ∈ dedupFirst l ↔ x ∈ l := by
  have := (dedupFirst_aux l [] List.nodup_nil).2 x
  simpa [dedupFirst] using this

/-- `filterMap` whose hits carry their key: the key list is a sublist of the
input. -/
theorem filterMap_key_sublist {α : Type} (key : α → Nat) (f : Nat → Option α)
    (hf : ∀ i x, f i = some x → key x = i) :
    ∀ l : List Nat, ((l.filterMap f).map key).Sublist l := by
  intro l
  induction l with
  | nil => simp
  | cons i rest ih =>
    cases hfi : f i with
    | none => simp only [List.filterMap_cons, hfi]; exact ih.cons _
    | some x =>
      simp only [List.filterMap_cons, hfi, List.map_cons, hf i x hfi]
      exact ih.cons₂ _

theorem lookupLL_append_right {arena1 : List LLNode} {i : Nat}
    (h : ∀ m ∈ arena1, m.id ≠ i) (arena2 : List LLNode) :
    lookupLL (arena1 ++ arena2) i = lookupLL arena2 i := by
  unfold lookupLL
  rw [List.find?_append, List.find?_eq_none.mpr (fun m hm => by
    simpa using h m hm)]
  rfl

/-- `lookupHL` read off the arena alone. -/
def lookupHLA (arena : List HLNode) (i : Nat) : Option HLNode :=
  arena.find? fun n => n.id == i

theorem lookupHLA_eq (l : LaCAM) (i : Nat) : lookupHLA l.hlArena i = lookupHL l i :=
  rfl

theorem lookupHLA_mem {arena : List HLNode} {i : Nat} {n : HLNode}
    (h : lookupHLA arena i = some n) : n ∈ arena ∧ n.id = i := by
  unfold lookupHLA at h
  exact ⟨List.mem_of_find?_eq_some h, by simpa using List.find?_some h⟩

theorem lookupHLA_of_mem {arena : List HLNode}
    (hnd : (arena.map (·.id)).Nodup) {n : HLNode} (hn : n ∈ arena) :
    lookupHLA arena n.id = some n := by
  unfold lookupHLA
  exact find?_key_of_mem (fun x => x.id) hnd hn

theorem lookupHLA_update (arena : List HLNode) (j : Nat) (f : HLNode → HLNode)
    (hf : ∀ n, (f n).id = n.id) (i : Nat) :
    lookupHLA (updateHL arena j f) i =
      (lookupHLA arena i).map fun n => if n.id = j then f n else n := by
  induction arena with
  | nil => rfl
  | cons a rest ih =>
    simp only [updateHL, List.map_cons, lookupHLA]
    by_cases ha : a.id = j
    · rw [if_pos ha]
      by_cases hai : a.id = i
      · rw [List.find?_cons_of_pos _ (by simp [hf, hai]),
          List.find?_cons_of_pos _ (by simp [hai])]
        simp only [Option.map]
        rw [if_pos ha]
      · rw [List.find?_cons_of_neg _ (by simp [hf, hai]),
          List.find?_cons_of_neg _ (by simp [hai])]
        exact ih
    · rw [if_neg ha]
      by_cases hai : a.id = i
      · rw [List.find?_cons_of_pos _ (by simp [hai]),
          List.find?_cons_of_pos _ (by simp [hai])]
        simp only [Option.map]
        rw [if_neg ha]
      · rw [List.find?_cons_of_neg _ (by simp [hai]),
          List.find?_cons_of_neg _ (by simp [hai])]
        exact ih

theorem lookupHLA_append_of_some {arena : List HLNode} {i : Nat} {n : HLNode}
    (h : lookupHLA arena i = some n) (new : List HLNode) :
    lookupHLA (arena ++ new) i = some n := by
  unfold lookupHLA at h ⊢
  rw [List.find?_append, h]
  rfl

theorem lookupHLA_append_right {arena1 : List HLNode} {i : Nat}
    (h : ∀ m ∈ arena1, m.id ≠ i) (arena2 : List HLNode) :
    lookupHLA (arena1 ++ arena2) i = lookupHLA arena2 i := by
  unfold lookupHLA
  rw [List.find?_append, List.find?_eq_none.mpr (fun m hm => by
    simpa using h m hm)]
  rfl

theorem updateHL_ids (arena : List HLNode) (j : Nat) (f : HLNode → HLNode)
    (hf : ∀ n, (f n).id = n.id) :
    (updateHL arena j f).map (·.id) = arena.map (·.id) := by
  unfold updateHL
  rw [List.map_map]
  apply List.map_congr_left
  intro n _
  by_cases h : n.id = j <;> simp [h, hf]

theorem updateLL_ids (arena : List LLNode) (j : Nat) (f : LLNode → LLNode)
    (hf : ∀ n, (f n).id = n.id) :
    (updateLL arena j f).map (·.id) = arena.map (·.id) := by
  unfold updateLL
  rw [List.map_map]
  apply List.map_congr_left
  intro n _
  by_cases h : n.id = j <;> simp [h, hf]

/-- A hit of the JS constraint `Map` is an entry of the constraint list. -/
theorem lookupConstraint_mem {cs : List (Nat × Nat)} {i v : Nat}
    (h : lookupConstraint cs i = some v) : (i, v) ∈ cs := by
  unfold lookupConstraint at h
  cases hl : (cs.filter (·.1 == i)).getLast? with
  | none => rw [hl] at h; cases h
  | some pr =>
    rw [hl] at h
    injection h with h
    simp only at h
    have hmem : pr ∈ cs.filter (·.1 == i) :=
      List.mem_of_mem_getLast? hl
    have h2 := List.mem_filter.mp hmem
    have hfst : pr.1 = i := by simpa using h2.2
    have h3 : (pr.1, pr.2) ∈ cs := by simpa using h2.1
    rw [hfst, h] at h3
    exact h3

/-! ### Stability of roots and chains under arena evolution -/

/-- The parent walk is unchanged by any arena evolution that preserves the
`parent` field of every resolvable node (new nodes may appear). -/
theorem rootOf_stable {arena arena' : List LLNode}
    (hcoh : LLCoh arena) (hcoh' : LLCoh arena')
    (hext : ∀ j n, lookupLL arena j = some n →
      ∃ m, lookupLL arena' j = some m ∧ m.parent = n.parent) :
    ∀ i n, lookupLL arena i = some n → rootOf arena' i = rootOf arena i := by
  intro i
  induction i using Nat.strong_induction_on with
  | _ i ih =>
    intro n hlk
    obtain ⟨m, hlk', hpm⟩ := hext i n hlk
    cases hp : n.parent with
    | none =>
      rw [rootOf_root hlk hp, rootOf_root hlk' (hpm.trans hp)]
    | some p =>
      obtain ⟨hmem, hid⟩ := lookupLL_mem hlk
      obtain ⟨hplt, pn, hpn, _⟩ := hcoh.parentOK n hmem p hp
      rw [rootOf_parent hcoh hlk hp, rootOf_parent hcoh' hlk' (hpm.trans hp)]
      exact ih p (by omega) pn hpn

/-! ### Restriction to a fully included subtree (snapshot restore) -/

/-- Every member of `arena'` is an original node sitting in a subtree of
`arena` that `arena'` includes in full. -/
def SubtreeFamily (arena arena' : List LLNode) : Prop :=
  ∀ m ∈ arena', ∃ r nr, lookupLL arena r = some nr ∧ nr.parent = none ∧
    nr ∈ arena' ∧ Desc arena r m.id ∧
    ∀ j nj, Desc arena r j → lookupLL arena j = some nj → nj ∈ arena'

theorem llCoh_restrict {arena arena' : List LLNode} (hcoh : LLCoh arena)
    (hnd' : (arena'.map (·.id)).Nodup)
    (hsub : ∀ m ∈ arena', lookupLL arena m.id = some m)
    (hfam : SubtreeFamily arena arena') : LLCoh arena' := by
  refine ⟨hnd', ?_, ?_⟩
  · intro n hn
    have hlkO := hsub n hn
    have hmemO := (lookupLL_mem hlkO).1
    obtain ⟨hcnd, hch⟩ := hcoh.childOK n hmemO
    refine ⟨hcnd, fun c hc => ?_⟩
    obtain ⟨hlt, cn, hcn, hcp, hcd⟩ := hch c hc
    obtain ⟨r, nr, hrlk, hrp, hrmem, hdesc, hclosed⟩ := hfam n hn
    have hdc : Desc arena r c := desc_snoc hdesc hlkO hc
    have hcn' : cn ∈ arena' := hclosed c cn hdc hcn
    have hlknew : lookupLL arena' c = some cn := by
      have hid := (lookupLL_mem hcn).2
      rw [← hid]
      exact lookupLL_of_mem hnd' hcn'
    exact ⟨hlt, cn, hlknew, hcp, hcd⟩
  · intro n hn p hp
    have hlkO := hsub n hn
    have hmemO := (lookupLL_mem hlkO).1
    obtain ⟨hplt, pn, hpn, hpc⟩ := hcoh.parentOK n hmemO p hp
    obtain ⟨r, nr, hrlk, hrp, hrmem, hdesc, hclosed⟩ := hfam n hn
    have hner : r ≠ n.id := by
      intro hc
      rw [hc] at hrlk
      rw [hlkO] at hrlk
      injection hrlk with hrlk
      rw [← hrlk] at hrp
      rw [hrp] at hp
      cases hp
    obtain ⟨p', hp', hdp⟩ := desc_parent hcoh hdesc hner hlkO
    rw [hp] at hp'
    injection hp' with hp'
    subst hp'
    have hpn' : pn ∈ arena' := hclosed p pn hdp hpn
    have hlknew : lookupLL arena' p = some pn := by
      have hid := (lookupLL_mem hpn).2
      rw [← hid]
      exact lookupLL_of_mem hnd' hpn'
    exact ⟨hplt, pn, hlknew, hpc⟩

theorem desc_restrict {arena arena' : List LLNode}
    (hnd' : (arena'.map (·.id)).Nodup)
    {r : Nat}
    (hclosed : ∀ j nj, Desc arena r j → lookupLL arena j = some nj →
      nj ∈ arena') :
    ∀ i j, Desc arena r i → Desc arena i j → Desc arena' i j := by
  intro i j hri hij
  induction hij with
  | refl => exact Desc.refl _
  | step i c j n hlk hc hrec ih =>
    have hn' : n ∈ arena' := hclosed i n hri hlk
    have hlknew : lookupLL arena' i = some n := by
      have hid := (lookupLL_mem hlk).2
      rw [← hid]
      exact lookupLL_of_mem hnd' hn'
    exact Desc.step i c j n hlknew hc (ih (desc_snoc hri hlk hc))

/-- A constraint chain survives the restriction to a fully included
subtree. -/
theorem chainOK_restrict {g : Graph} {nAg : Nat} {cfg : List Nat}
    {arena arena' : List LLNode} (hcoh : LLCoh arena)
    (hnd' : (arena'.map (·.id)).Nodup)
    {r : Nat} {nr : LLNode} (hrlk : lookupLL arena r = some nr)
    (hrp : nr.parent = none)
    (hclosed : ∀ j nj, Desc arena r j → lookupLL arena j = some nj →
      nj ∈ arena') :
    ∀ i, Desc arena r i → ChainOKId g arena nAg cfg i →
      ChainOKId g arena' nAg cfg i := by
  intro i hri hchain
  induction hchain with
  | root i n hlk hwho =>
    have hn' : n ∈ arena' := hclosed i n hri hlk
    have hlknew : lookupLL arena' i = some n := by
      have hid := (lookupLL_mem hlk).2
      rw [← hid]
      exact lookupLL_of_mem hnd' hn'
    exact ChainOKId.root i n hlknew hwho
  | cons i n w v p hlk hwho hwhere hwN hmv hp hplt hrec ih =>
    have hn' : n ∈ arena' := hclosed i n hri hlk
    have hlknew : lookupLL arena' i = some n := by
      have hid := (lookupLL_mem hlk).2
      rw [← hid]
      exact lookupLL_of_mem hnd' hn'
    have hner : r ≠ i := by
      intro hc
      subst hc
      rw [hlk] at hrlk
      injection hrlk with hrlk
      rw [← hrlk] at hrp
      rw [hrp] at hp
      cases hp
    obtain ⟨p', hp', hdp⟩ := desc_parent hcoh hri hner hlk
    rw [hp] at hp'
    injection hp' with hp'
    subst hp'
    exact ChainOKId.cons i n w v p hlknew hwho hwhere hwN hmv hp hplt (ih hdp)

theorem rootOf_restrict {arena arena' : List LLNode}
    (hcoh' : LLCoh arena')
    (hnd' : (arena'.map (·.id)).Nodup)
    {r : Nat} {nr : LLNode} (hrlk : lookupLL arena r = some nr)
    (hrp : nr.parent = none) (hrmem : nr ∈ arena')
    (hclosed : ∀ j nj, Desc arena r j → lookupLL arena j = some nj →
      nj ∈ arena') :
    ∀ j, Desc arena r j → rootOf arena' j = some r := by
  intro j hd
  have hd' : Desc arena' r j := desc_restrict hnd' hclosed r j (Desc.refl r) hd
  have hrlk' : lookupLL arena' r = some nr := by
    have hid := (lookupLL_mem hrlk).2
    rw [← hid]
    exact lookupLL_of_mem hnd' hrmem
  rw [rootOf_desc hcoh' hd', rootOf_root hrlk' hrp]

/-- The subtree below a live node has at most the arena's size. -/
theorem subSize_le {arena : List LLNode} (hcoh : LLCoh arena) (r : Nat) :
    subSize arena r ≤ arena.length := by
  unfold subSize
  have hnd := collect_nodup hcoh (idBound arena r) r (arena.length + 1) rfl
    (lt_of_le_of_lt (idBound_le _ _) (Nat.lt_succ_self _))
  have hsub : ∀ x ∈ (collectTree arena (arena.length + 1) r).map (·.id),
      x ∈ arena.map (·.id) := by
    intro x hx
    obtain ⟨m, hm, hmx⟩ := List.mem_map.mp hx
    obtain ⟨hmlk, _⟩ := collect_mem _ _ m hm
    exact hmx ▸ List.mem_map_of_mem _ (lookupLL_mem hmlk).1
  calc (collectTree arena (arena.length + 1) r).length
      = ((collectTree arena (arena.length + 1) r).map (·.id)).length := by
        rw [List.length_map]
    _ ≤ (arena.map (·.id)).length := nodup_length_le hnd hsub
    _ = arena.length := List.length_map _ _

/-! ## The solver invariant -/

/-- Well-placed agents: every start and goal is a vertex of the graph (the
UI only creates agents on board cells). -/
def AgentsWF (g : Graph) (agents : List Agent) : Prop :=
  ∀ a ∈ agents, a.start ∈ g.verts ∧ a.goal ∈ g.verts

/-- Soundness of a stored solution path: it runs from the start
configuration to the goal configuration and every hop is a generator output
under a constraint set drawn from the predecessor's move sets. -/
def SolOK (g : Graph) (agents : List Agent) (sol : List (List Nat)) : Prop :=
  sol.head? = some (startConfig agents) ∧
  sol.getLast? = some (goalConfig agents) ∧
  sol.Chain' fun a b => ∃ cs, CsOK g a agents.length cs ∧
    generateConfig g agents a cs = some b

/-- The solver's core invariant, phrased over the state components that a
snapshot captures (so that it transfers verbatim across save/restore). -/
structure CoreInvP (g : Graph) (agents : List Agent) (hlA : List HLNode)
    (llA : List LLNode) (openIds : List Nat)
    (explored : List (List Nat × Nat)) (curHL curLL : Option Nat)
    (genCfg : Option (List Nat)) (phase : Phase) (status : Status)
    (solution : Option (List (List Nat))) : Prop where
  hlNodup : (hlA.map (·.id)).Nodup
  llCoh : LLCoh llA
  llDepth : ∀ m ∈ llA, m.depth ≤ agents.length
  llWhere : ∀ m ∈ llA, ∀ w, m.who = some w →
    ∃ v, m.whereV = some v ∧ v ∈ g.verts
  hlCfgLen : ∀ n ∈ hlA, n.config.length = agents.length
  hlCfgMem : ∀ n ∈ hlA, ∀ v ∈ n.config, v ∈ g.verts
  hlOrder : ∀ n ∈ hlA, n.order.Perm (List.range agents.length)
  hlRoot : ∀ n ∈ hlA, ∃ r nr, n.treeRoot = some r ∧
    lookupLL llA r = some nr ∧ nr.parent = none
  hlRootUniq : ∀ n ∈ hlA, ∀ m ∈ hlA, n.id ≠ m.id → n.treeRoot ≠ m.treeRoot
  hlTree : ∀ n ∈ hlA, ∀ i ∈ n.tree,
    ChainOKId g llA agents.length n.config i ∧ rootOf llA i = n.treeRoot
  hlParent : ∀ n ∈ hlA,
    (n.parent = none → n.config = startConfig agents) ∧
    ∀ p, n.parent = some p → p < n.id ∧ ∃ pn, lookupHLA hlA p = some pn ∧
      ∃ cs, CsOK g pn.config agents.length cs ∧
        generateConfig g agents pn.config cs = some n.config
  hlInExplored : ∀ n ∈ hlA, n.id ∈ explored.map (·.2)
  openOK : ∀ i ∈ openIds, ∃ n, lookupHLA hlA i = some n
  phaseNotInit : phase ≠ Phase.init
  phasePop : phase = Phase.pop_constraint → ∃ nid n, curHL = some nid ∧
    lookupHLA hlA nid = some n ∧ n.tree ≠ []
  phaseExpGen : phase = Phase.expand_tree ∨ phase = Phase.generate →
    ∃ nid n cid c, curHL = some nid ∧ lookupHLA hlA nid = some n ∧
      curLL = some cid ∧ lookupLL llA cid = some c ∧
      ChainOKId g llA agents.length n.config cid ∧
      rootOf llA cid = n.treeRoot
  phaseCheck : phase = Phase.check → ∃ nid pn q, curHL = some nid ∧
    lookupHLA hlA nid = some pn ∧ genCfg = some q ∧
      ∃ cs, CsOK g pn.config agents.length cs ∧
        generateConfig g agents pn.config cs = some q
  solvedOK : status = Status.solved → ∃ sol, solution = some sol ∧
    SolOK g agents sol

/-- `CoreInvP` read off a solver state. -/
abbrev CoreInv (g : Graph) (agents : List Agent) (l : LaCAM) : Prop :=
  CoreInvP g agents l.hlArena l.llArena l.openS l.explored l.currentHL
    l.currentLL l.generatedConfig l.phase l.status l.solution

def CtrOK (l : LaCAM) : Prop :=
  (∀ n ∈ l.hlArena, n.id < l.hlCtr) ∧ ∀ m ∈ l.llArena, m.id < l.llCtr

def SnapIdsOK (l : LaCAM) : Prop :=
  ∀ snap ∈ l.history, ∀ d ∈ snap.nodes,
    d.id < l.hlCtr ∧ ∀ m ∈ d.llNodes, m.id < l.llCtr

def HistOK (g : Graph) (agents : List Agent) (l : LaCAM) : Prop :=
  ∀ snap ∈ l.history, CoreInv g agents (restoreFromSnapshot l snap)

/-- The full reachability invariant. -/
def Inv (g : Graph) (agents : List Agent) (l : LaCAM) : Prop :=
  l.graph = g ∧ l.agents = agents ∧ CoreInv g agents l ∧ CtrOK l ∧
  SnapIdsOK l ∧ HistOK g agents l ∧
  1 ≤ l.history.length ∧ l.history.length ≤ 200

/-- The restored core depends on the snapshot alone, not on the state it is
installed into. -/
theorem coreInv_restore_congr (g : Graph) (agents : List Agent)
    (l l' : LaCAM) (snap : Snapshot)
    (h : CoreInv g agents (restoreFromSnapshot l snap)) :
    CoreInv g agents (restoreFromSnapshot l' snap) := h

/-! ### Backtracking a sound parent chain -/

theorem backtrackAux_none (l : LaCAM) : ∀ fuel, backtrackAux l fuel none = [] := by
  intro fuel
  cases fuel <;> rfl

theorem backtrackAux_fuel {l : LaCAM}
    (hplt : ∀ n ∈ l.hlArena, ∀ p, n.parent = some p → p < n.id) :
    ∀ (i fuel fuel' : Nat), i < fuel → i < fuel' →
    backtrackAux l fuel (some i) = backtrackAux l fuel' (some i) := by
  intro i
  induction i using Nat.strong_induction_on with
  | _ i ih =>
    intro fuel fuel' hf hf'
    match fuel, fuel', hf, hf' with
    | f + 1, f' + 1, _, _ =>
      simp only [backtrackAux]
      cases hlk : lookupHL l i with
      | none => rfl
      | some n =>
        dsimp only
        congr 1
        cases hp : n.parent with
        | none => rw [backtrackAux_none, backtrackAux_none]
        | some p =>
          obtain ⟨hmem, hid⟩ := lookupHL_mem hlk
          have := hplt n hmem p hp
          rw [hid] at this
          exact ih p this f f' (by omega) (by omega)

theorem backtrack_parent {l : LaCAM}
    (hplt : ∀ n ∈ l.hlArena, ∀ p, n.parent = some p → p < n.id)
    {i p : Nat} {n : HLNode} (hlk : lookupHL l i = some n)
    (hp : n.parent = some p) :
    backtrack l i = backtrack l p ++ [n.config] := by
  obtain ⟨hmem, hid⟩ := lookupHL_mem hlk
  have hpi : p < i := by
    have := hplt n hmem p hp
    omega
  unfold backtrack
  conv_lhs => simp only [backtrackAux, hlk]
  rw [hp]
  congr 1
  exact backtrackAux_fuel hplt p i (p + 1) hpi (Nat.lt_succ_self p)

theorem backtrack_root {l : LaCAM} {i : Nat} {n : HLNode}
    (hlk : lookupHL l i = some n) (hp : n.parent = none) :
    backtrack l i = [n.config] := by
  unfold backtrack
  simp only [backtrackAux, hlk]
  rw [hp, backtrackAux_none]
  rfl

/-- Backtracking from any live node under the parent invariant yields a path
from the start configuration to that node's configuration whose hops are
generator outputs. -/
theorem backtrack_sound (g : Graph) (agents : List Agent) {l : LaCAM}
    (hpar : ∀ n ∈ l.hlArena,
      (n.parent = none → n.config = startConfig agents) ∧
      ∀ p, n.parent = some p → p < n.id ∧
        ∃ pn, lookupHLA l.hlArena p = some pn ∧
          ∃ cs, CsOK g pn.config agents.length cs ∧
            generateConfig g agents pn.config cs = some n.config) :
    ∀ i n, lookupHL l i = some n →
      (backtrack l i).head? = some (startConfig agents) ∧
      (backtrack l i).getLast? = some n.config ∧
      (backtrack l i).Chain' (fun a b =>
        ∃ cs, CsOK g a agents.length cs ∧
          generateConfig g agents a cs = some b) := by
  have hplt : ∀ n ∈ l.hlArena, ∀ p, n.parent = some p → p < n.id :=
    fun n hn p hp => ((hpar n hn).2 p hp).1
  intro i
  induction i using Nat.strong_induction_on with
  | _ i ih =>
    intro n hlk
    have hmem := (lookupHL_mem hlk).1
    cases hp : n.parent with
    | none =>
      rw [backtrack_root hlk hp]
      refine ⟨?_, rfl, List.chain'_singleton _⟩
      rw [(hpar n hmem).1 hp]
      rfl
    | some p =>
      obtain ⟨hpi, pn, hpn, cs, hcs, hgen⟩ := (hpar n hmem).2 p hp
      have hpi' : p < i := by
        have hid := (lookupHL_mem hlk).2
        omega
      obtain ⟨ihh, ihl, ihc⟩ := ih p hpi' pn hpn
      rw [backtrack_parent hplt hlk hp]
      refine ⟨?_, List.getLast?_concat _, ?_⟩
      · rw [List.head?_append, ihh]
        rfl
      · rw [List.chain'_append]
        refine ⟨ihc, List.chain'_singleton _, ?_⟩
        intro x hx y hy
        rw [ihl] at hx
        injection hx with hx
        simp only [List.head?_cons, Option.mem_def, Option.some.injEq] at hy
        subst hx
        subst hy
        exact ⟨cs, hcs, hgen⟩

/-! ### Well-formedness of generated configurations -/

theorem generateConfig_wf {g : Graph} {agents : List Agent} {cfg : List Nat}
    {cs : List (Nat × Nat)} {q : List Nat} (hwf : g.WF)
    (hlen : cfg.length = agents.length) (hmem : ∀ v ∈ cfg, v ∈ g.verts)
    (hcs : CsOK g cfg agents.length cs)
    (h : generateConfig g agents cfg cs = some q) :
    q.length = agents.length ∧ ∀ v ∈ q, v ∈ g.verts := by
  obtain ⟨hql, hnd, hcon, hunc, _⟩ := generateConfig_spec g agents cfg cs q h
  refine ⟨hql, ?_⟩
  intro v hv
  obtain ⟨i, hqi⟩ := List.mem_iff_getElem?.mp hv
  have hilt : i < agents.length := by
    rw [← hql]
    exact List.getElem?_eq_some.mp hqi |>.1
  cases hc : hasConstraint cs i with
  | false =>
    obtain ⟨cur, np, hcur, hmv, hq⟩ := hunc i hilt hc
    rw [hqi] at hq
    injection hq with hq
    subst hq
    have hcurm : cur ∈ cfg := List.getElem?_mem hcur
    rcases hmv with rfl | hadj
    · exact hmem _ hcurm
    · exact (hwf.adj_mem cur _ hadj).2
  | true =>
    have hq := hcon i hilt hc
    rw [hqi] at hq
    have hlc : lookupConstraint cs i = some v := hq.symm
    have hpair := lookupConstraint_mem hlc
    obtain ⟨_, qv, hqv, hor⟩ := hcs (i, v) hpair
    have hqvm : qv ∈ cfg := List.getElem?_mem hqv
    rcases hor with rfl | hadj
    · exact hmem _ hqvm
    · exact (hwf.adj_mem qv v hadj).2

/-! ### The restored state, snapshot-side -/

/-- The high-level node rebuilt from a snapshot entry (first and second pass
of `restoreFromSnapshot`). -/
def restoredNode (snap : Snapshot) (d : SnapNode) : HLNode :=
  { id := d.id, config := d.config, treeRoot := d.treeRoot,
    tree := d.tree,
    order := d.order,
    parent := d.parentId.bind fun p =>
      if snap.nodes.any (fun m => m.id == p) then some p else none }

def restoredHL (snap : Snapshot) : List HLNode :=
  snap.nodes.map (restoredNode snap)

def restoredLL (snap : Snapshot) : List LLNode :=
  snap.nodes.flatMap (·.llNodes)

theorem restore_hlArena (l : LaCAM) (snap : Snapshot) :
    (restoreFromSnapshot l snap).hlArena = restoredHL snap := rfl

theorem restore_llArena (l : LaCAM) (snap : Snapshot) :
    (restoreFromSnapshot l snap).llArena = restoredLL snap := rfl

theorem mkSnapNode_id (l : LaCAM) (n : HLNode) : (mkSnapNode l n).id = n.id := rfl

theorem mkSnapNode_llNodes {l : LaCAM} {n : HLNode} {r : Nat}
    (hr : n.treeRoot = some r) :
    (mkSnapNode l n).llNodes =
      collectTree l.llArena (l.llArena.length + 1) r := by
  unfold mkSnapNode
  rw [hr]

theorem mkSnapNode_tree {l : LaCAM} {n : HLNode} {r : Nat}
    (hr : n.treeRoot = some r) :
    (mkSnapNode l n).tree =
      (bfsTreeIds l.llArena (l.llArena.length + 1) [r]).filter
        (fun i => n.tree.contains i) := by
  unfold mkSnapNode
  rw [hr]

/-- Structure of the cloned node list: duplicate-free ids, every entry the
clone of a live node, and (under the explored-coverage invariant) a clone
for every live node. -/
theorem snapNodes_spec (l : LaCAM) (hnd : (l.hlArena.map (·.id)).Nodup)
    (hex : ∀ n ∈ l.hlArena, n.id ∈ l.explored.map (·.2)) :
    ((mkSnapshot l).nodes.map (·.id)).Nodup ∧
    (∀ d ∈ (mkSnapshot l).nodes,
      ∃ n ∈ l.hlArena, n.id = d.id ∧ d = mkSnapNode l n) ∧
    (∀ n ∈ l.hlArena, mkSnapNode l n ∈ (mkSnapshot l).nodes) := by
  have hkey : ∀ (i : Nat) (x : SnapNode),
      ((lookupHL l i).map (mkSnapNode l)) = some x → x.id = i := by
    intro i x hx
    cases hlk : lookupHL l i with
    | none => rw [hlk] at hx; cases hx
    | some n =>
      rw [hlk] at hx
      injection hx with hx
      rw [← hx, mkSnapNode_id]
      exact (lookupHL_mem hlk).2
  refine ⟨?_, ?_, ?_⟩
  · have hsubl := filterMap_key_sublist SnapNode.id
      (fun i => (lookupHL l i).map (mkSnapNode l)) hkey
      (dedupFirst (l.openS ++ l.explored.map (·.2)))
    exact (hsubl.nodup (dedupFirst_nodup _))
  · intro d hd
    obtain ⟨i, hi, hfi⟩ := List.mem_filterMap.mp hd
    cases hlk : lookupHL l i with
    | none => rw [hlk] at hfi; cases hfi
    | some n =>
      rw [hlk] at hfi
      injection hfi with hfi
      refine ⟨n, (lookupHL_mem hlk).1, ?_, hfi.symm⟩
      rw [← hfi, mkSnapNode_id]
  · intro n hn
    refine List.mem_filterMap.mpr ⟨n.id, ?_, ?_⟩
    · rw [dedupFirst_mem]
      exact List.mem_append_right _ (hex n hn)
    · rw [lookupHL_of_mem hnd hn]
      rfl

def restoredCurHL (snap : Snapshot) : Option Nat :=
  snap.currentHLId.bind fun i =>
    if (restoredHL snap).any (fun m => m.id == i) then some i else none

def restoredCurLL (snap : Snapshot) : Option Nat :=
  match snap.currentLLId with
  | none => none
  | some tgt =>
    match (restoredCurHL snap).bind
        (fun i => (restoredHL snap).find? fun m => m.id == i) with
    | none => none
    | some hn =>
      match hn.treeRoot with
      | none => none
      | some r =>
        if findInTree (restoredLL snap) ((restoredLL snap).length + 1) r tgt
        then some tgt else none

def restoredOpen (snap : Snapshot) : List Nat :=
  snap.openIds.filter fun i => (restoredHL snap).any fun m => m.id == i

def restoredExplored (snap : Snapshot) : List (List Nat × Nat) :=
  snap.exploredMap.filter fun pr => (restoredHL snap).any fun m => m.id == pr.2

theorem restore_fields (l : LaCAM) (snap : Snapshot) :
    (restoreFromSnapshot l snap).openS = restoredOpen snap ∧
    (restoreFromSnapshot l snap).explored = restoredExplored snap ∧
    (restoreFromSnapshot l snap).currentHL = restoredCurHL snap ∧
    (restoreFromSnapshot l snap).currentLL = restoredCurLL snap ∧
    (restoreFromSnapshot l snap).generatedConfig = snap.generatedConfig ∧
    (restoreFromSnapshot l snap).phase = snap.phase ∧
    (restoreFromSnapshot l snap).status = snap.status ∧
    (restoreFromSnapshot l snap).solution = snap.solution :=
  ⟨rfl, rfl, rfl, rfl, rfl, rfl, rfl, rfl⟩

/-- The heart of snapshot fidelity in the value model: a snapshot of a state
satisfying the core invariant restores to a state satisfying it again. -/
theorem restored_coreInv (g : Graph) (agents : List Agent) {l : LaCAM}
    (hc : CoreInv g agents l) :
    CoreInvP g agents (restoredHL (mkSnapshot l)) (restoredLL (mkSnapshot l))
      (restoredOpen (mkSnapshot l)) (restoredExplored (mkSnapshot l))
      (restoredCurHL (mkSnapshot l)) (restoredCurLL (mkSnapshot l))
      l.generatedConfig l.phase l.status l.solution := by
  obtain ⟨hnd, hcoh, hdep, hwre, hclen, hcmem, hord, hroot, hruniq, htree,
    hpar, hexp, hopen, hpni, hpp, hpeg, hpc, hsol⟩ := hc
  obtain ⟨hsnd, hsof, hsin⟩ := snapNodes_spec l hnd hexp
  have hhids : (restoredHL (mkSnapshot l)).map (·.id) =
      (mkSnapshot l).nodes.map (·.id) := by
    unfold restoredHL
    rw [List.map_map]
    rfl
  have hhnd : ((restoredHL (mkSnapshot l)).map (·.id)).Nodup := by
    rw [hhids]
    exact hsnd
  have hres : ∀ n ∈ l.hlArena,
      lookupHLA (restoredHL (mkSnapshot l)) n.id =
        some (restoredNode (mkSnapshot l) (mkSnapNode l n)) := by
    intro n hn
    have hmem : restoredNode (mkSnapshot l) (mkSnapNode l n) ∈
        restoredHL (mkSnapshot l) := List.mem_map_of_mem _ (hsin n hn)
    exact lookupHLA_of_mem hhnd hmem
  have hof : ∀ n' ∈ restoredHL (mkSnapshot l), ∃ n ∈ l.hlArena,
      n' = restoredNode (mkSnapshot l) (mkSnapNode l n) := by
    intro n' hn'
    obtain ⟨d, hd, hdn⟩ := List.mem_map.mp hn'
    obtain ⟨n, hn, hnid, hdn'⟩ := hsof d hd
    exact ⟨n, hn, by rw [← hdn, hdn']⟩
  have hanyR : ∀ (p : Nat) (pn : HLNode), lookupHLA l.hlArena p = some pn →
      (restoredHL (mkSnapshot l)).any (fun m => m.id == p) = true := by
    intro p pn hpn
    refine List.any_eq_true.mpr
      ⟨restoredNode (mkSnapshot l) (mkSnapNode l pn),
       List.mem_map_of_mem _ (hsin pn (lookupHLA_mem hpn).1), ?_⟩
    have hid : (restoredNode (mkSnapshot l) (mkSnapNode l pn)).id = pn.id := rfl
    rw [hid, (lookupHLA_mem hpn).2]
    exact beq_self_eq_true p
  have hanyS : ∀ (p : Nat) (pn : HLNode), lookupHLA l.hlArena p = some pn →
      (mkSnapshot l).nodes.any (fun m => m.id == p) = true := by
    intro p pn hpn
    refine List.any_eq_true.mpr ⟨mkSnapNode l pn, hsin pn (lookupHLA_mem hpn).1, ?_⟩
    rw [mkSnapNode_id, (lookupHLA_mem hpn).2]
    exact beq_self_eq_true p
  have hllmem : ∀ m ∈ restoredLL (mkSnapshot l), ∃ n ∈ l.hlArena, ∃ r nr,
      n.treeRoot = some r ∧ lookupLL l.llArena r = some nr ∧
      nr.parent = none ∧ lookupLL l.llArena m.id = some m ∧
      Desc l.llArena r m.id := by
    intro m hm
    obtain ⟨d, hd, hmd⟩ := List.mem_flatMap.mp hm
    obtain ⟨n, hn, hnid, hdn⟩ := hsof d hd
    obtain ⟨r, nr, hr, hrlk, hrp⟩ := hroot n hn
    rw [hdn, mkSnapNode_llNodes hr] at hmd
    obtain ⟨hmlk, hmd2⟩ := collect_mem _ _ m hmd
    exact ⟨n, hn, r, nr, hr, hrlk, hrp, hmlk, hmd2⟩
  have hclosed : ∀ n ∈ l.hlArena, ∀ r, n.treeRoot = some r →
      ∀ j nj, Desc l.llArena r j → lookupLL l.llArena j = some nj →
        nj ∈ restoredLL (mkSnapshot l) := by
    intro n hn r hr j nj hd hj
    refine List.mem_flatMap.mpr ⟨mkSnapNode l n, hsin n hn, ?_⟩
    rw [mkSnapNode_llNodes hr]
    exact collect_complete hcoh (idBound l.llArena r) r _ rfl
      (lt_of_le_of_lt (idBound_le _ _) (Nat.lt_succ_self _)) j nj hd hj
  have hlnd : ((restoredLL (mkSnapshot l)).map (·.id)).Nodup := by
    unfold restoredLL
    refine flatMap_nodup_ids ?_ ?_
    · intro d hd
      obtain ⟨n, hn, hnid, hdn⟩ := hsof d hd
      obtain ⟨r, nr, hr, hrlk, hrp⟩ := hroot n hn
      rw [hdn, mkSnapNode_llNodes hr]
      exact collect_nodup hcoh (idBound l.llArena r) r _ rfl
        (lt_of_le_of_lt (idBound_le _ _) (Nat.lt_succ_self _))
    · have hpw : (mkSnapshot l).nodes.Pairwise (fun d1 d2 => d1.id ≠ d2.id) :=
        List.pairwise_map.mp hsnd
      refine hpw.imp_of_mem ?_
      intro d1 d2 hd1 hd2 hne x hx y hy hxy
      obtain ⟨n1, hn1, hnid1, hdn1⟩ := hsof d1 hd1
      obtain ⟨n2, hn2, hnid2, hdn2⟩ := hsof d2 hd2
      obtain ⟨r1, nr1, hr1, hrlk1, hrp1⟩ := hroot n1 hn1
      obtain ⟨r2, nr2, hr2, hrlk2, hrp2⟩ := hroot n2 hn2
      rw [hdn1, mkSnapNode_llNodes hr1] at hx
      rw [hdn2, mkSnapNode_llNodes hr2] at hy
      obtain ⟨_, hdx⟩ := collect_mem _ _ x hx
      obtain ⟨_, hdy⟩ := collect_mem _ _ y hy
      have hne' : n1.id ≠ n2.id := by
        rw [hnid1, hnid2]
        exact hne
      have hrne : n1.treeRoot ≠ n2.treeRoot := hruniq n1 hn1 n2 hn2 hne'
      have : r1 = r2 := desc_disjoint hcoh hrlk1 hrp1 hrlk2 hrp2 hdx (hxy ▸ hdy)
      apply hrne
      rw [hr1, hr2, this]
  have hsubO : ∀ m ∈ restoredLL (mkSnapshot l),
      lookupLL l.llArena m.id = some m := by
    intro m hm
    obtain ⟨_, _, _, _, _, _, _, hmlk, _⟩ := hllmem m hm
    exact hmlk
  have hfam : SubtreeFamily l.llArena (restoredLL (mkSnapshot l)) := by
    intro m hm
    obtain ⟨n, hn, r, nr, hr, hrlk, hrp, hmlk, hmd⟩ := hllmem m hm
    exact ⟨r, nr, hrlk, hrp,
      hclosed n hn r hr r nr (Desc.refl r) hrlk, hmd,
      fun j nj hd hj => hclosed n hn r hr j nj hd hj⟩
  have hcoh' := llCoh_restrict hcoh hlnd hsubO hfam
  have hllres : ∀ (j : Nat) (nj : LLNode), nj ∈ restoredLL (mkSnapshot l) →
      nj.id = j → lookupLL (restoredLL (mkSnapshot l)) j = some nj := by
    intro j nj h hid
    rw [← hid]
    exact lookupLL_of_mem hlnd h
  refine ⟨hhnd, hcoh', ?_, ?_, ?_, ?_, ?_, ?_, ?_, ?_, ?_, ?_, ?_, ?_, ?_,
    ?_, ?_, ?_⟩
  · -- llDepth
    intro m hm
    exact hdep m (lookupLL_mem (hsubO m hm)).1
  · -- llWhere
    intro m hm
    exact hwre m (lookupLL_mem (hsubO m hm)).1
  · -- hlCfgLen
    intro n' hn'
    obtain ⟨n, hn, rfl⟩ := hof n' hn'
    exact hclen n hn
  · -- hlCfgMem
    intro n' hn'
    obtain ⟨n, hn, rfl⟩ := hof n' hn'
    exact hcmem n hn
  · -- hlOrder
    intro n' hn'
    obtain ⟨n, hn, rfl⟩ := hof n' hn'
    exact hord n hn
  · -- hlRoot
    intro n' hn'
    obtain ⟨n, hn, rfl⟩ := hof n' hn'
    obtain ⟨r, nr, hr, hrlk, hrp⟩ := hroot n hn
    refine ⟨r, nr, hr, ?_, hrp⟩
    exact hllres r nr (hclosed n hn r hr r nr (Desc.refl r) hrlk)
      (lookupLL_mem hrlk).2
  · -- hlRootUniq
    intro n1' hn1' n2' hn2' hne
    obtain ⟨n1, hn1, rfl⟩ := hof n1' hn1'
    obtain ⟨n2, hn2, rfl⟩ := hof n2' hn2'
    exact hruniq n1 hn1 n2 hn2 hne
  · -- hlTree
    intro n' hn' i hi
    obtain ⟨n, hn, rfl⟩ := hof n' hn'
    obtain ⟨r, nr, hr, hrlk, hrp⟩ := hroot n hn
    have hi' : i ∈ (mkSnapNode l n).tree := hi
    rw [mkSnapNode_tree hr] at hi'
    have hmemt : i ∈ n.tree := by
      have := (List.mem_filter.mp hi').2
      simpa using this
    obtain ⟨hchain, hrooti⟩ := htree n hn i hmemt
    have hdesc : Desc l.llArena r i := by
      apply desc_of_rootOf hcoh
      rw [hrooti, hr]
    refine ⟨chainOK_restrict hcoh hlnd hrlk hrp
      (hclosed n hn r hr) i hdesc hchain, ?_⟩
    have : rootOf (restoredLL (mkSnapshot l)) i = some r :=
      rootOf_restrict hcoh' hlnd hrlk hrp
        (hclosed n hn r hr r nr (Desc.refl r) hrlk)
        (hclosed n hn r hr) i hdesc
    rw [this]
    exact hr.symm
  · -- hlParent
    intro n' hn'
    obtain ⟨n, hn, rfl⟩ := hof n' hn'
    have hfpar : (restoredNode (mkSnapshot l) (mkSnapNode l n)).parent =
        n.parent.bind (fun p =>
          if (mkSnapshot l).nodes.any (fun m => m.id == p) then some p
          else none) := rfl
    constructor
    · intro hnone
      cases hp : n.parent with
      | none => exact (hpar n hn).1 hp
      | some p =>
        obtain ⟨_, pn, hpn, _⟩ := (hpar n hn).2 p hp
        have heq : (restoredNode (mkSnapshot l) (mkSnapNode l n)).parent =
            some p := by
          rw [hfpar, hp, Option.some_bind, if_pos (hanyS p pn hpn)]
        rw [heq] at hnone
        cases hnone
    · intro p' hp'
      cases hp : n.parent with
      | none =>
        rw [hfpar, hp] at hp'
        cases hp'
      | some p =>
        obtain ⟨hplt, pn, hpn, cs, hcs, hgen⟩ := (hpar n hn).2 p hp
        have heq : (restoredNode (mkSnapshot l) (mkSnapNode l n)).parent =
            some p := by
          rw [hfpar, hp, Option.some_bind, if_pos (hanyS p pn hpn)]
        rw [heq] at hp'
        injection hp' with hp'
        subst hp'
        refine ⟨hplt, restoredNode (mkSnapshot l) (mkSnapNode l pn), ?_,
          cs, hcs, hgen⟩
        have := hres pn (lookupHLA_mem hpn).1
        rw [(lookupHLA_mem hpn).2] at this
        exact this
  · -- hlInExplored
    intro n' hn'
    obtain ⟨n, hn, rfl⟩ := hof n' hn'
    obtain ⟨pr, hprm, hpr2⟩ := List.mem_map.mp (hexp n hn)
    refine List.mem_map.mpr ⟨pr, ?_, hpr2⟩
    refine List.mem_filter.mpr ⟨hprm, ?_⟩
    rw [hpr2]
    exact hanyR n.id n (lookupHLA_of_mem hnd hn)
  · -- openOK
    intro i hi
    have hany := (List.mem_filter.mp hi).2
    obtain ⟨m', hm', hmi⟩ := List.any_eq_true.mp hany
    refine ⟨m', ?_⟩
    have : m'.id = i := by simpa using hmi
    rw [← this]
    exact lookupHLA_of_mem hhnd hm'
  · -- phaseNotInit
    exact hpni
  · -- phasePop
    intro hph
    obtain ⟨nid, n, hcur, hlk, htne⟩ := hpp hph
    have hn := (lookupHLA_mem hlk).1
    have hnid := (lookupHLA_mem hlk).2
    obtain ⟨r, nr, hr, hrlk, hrp⟩ := hroot n hn
    refine ⟨nid, restoredNode (mkSnapshot l) (mkSnapNode l n), ?_, ?_, ?_⟩
    · unfold restoredCurHL
      have h1 : (mkSnapshot l).currentHLId = l.currentHL := rfl
      rw [h1, hcur, Option.some_bind, if_pos (hanyR nid n hlk)]
    · have := hres n hn
      rw [hnid] at this
      exact this
    · obtain ⟨x, hx⟩ := List.exists_mem_of_ne_nil _ htne
      obtain ⟨hchain, hrootx⟩ := htree n hn x hx
      have hdesc : Desc l.llArena r x := by
        apply desc_of_rootOf hcoh
        rw [hrootx, hr]
      have hbfs : x ∈ bfsTreeIds l.llArena (l.llArena.length + 1) [r] := by
        refine bfs_complete hcoh _ [r] ?_ ?_ r (List.mem_singleton_self r) x hdesc
        · intro q hq
          rw [List.mem_singleton.mp hq, hrlk]
          rfl
        · have := subSize_le hcoh r
          simp only [List.map_cons, List.map_nil, List.sum_cons, List.sum_nil]
          omega
      have hxmem : x ∈ (restoredNode (mkSnapshot l) (mkSnapNode l n)).tree := by
        show x ∈ (mkSnapNode l n).tree
        rw [mkSnapNode_tree hr]
        refine List.mem_filter.mpr ⟨hbfs, ?_⟩
        simpa using hx
      exact List.ne_nil_of_mem hxmem
  · -- phaseExpGen
    intro hph
    obtain ⟨nid, n, cid, c, hcur, hlk, hcurL, hclk, hchain, hrootc⟩ := hpeg hph
    have hn := (lookupHLA_mem hlk).1
    have hnid := (lookupHLA_mem hlk).2
    obtain ⟨r, nr, hr, hrlk, hrp⟩ := hroot n hn
    have hdesc : Desc l.llArena r cid := by
      apply desc_of_rootOf hcoh
      rw [hrootc, hr]
    have hcurHL' : restoredCurHL (mkSnapshot l) = some nid := by
      unfold restoredCurHL
      have h1 : (mkSnapshot l).currentHLId = l.currentHL := rfl
      rw [h1, hcur, Option.some_bind, if_pos (hanyR nid n hlk)]
    have hlk' : lookupHLA (restoredHL (mkSnapshot l)) nid =
        some (restoredNode (mkSnapshot l) (mkSnapNode l n)) := by
      have := hres n hn
      rw [hnid] at this
      exact this
    have hcmem' : c ∈ restoredLL (mkSnapshot l) :=
      hclosed n hn r hr cid c hdesc hclk
    have hclk' : lookupLL (restoredLL (mkSnapshot l)) cid = some c :=
      hllres cid c hcmem' (lookupLL_mem hclk).2
    have hdesc' : Desc (restoredLL (mkSnapshot l)) r cid :=
      desc_restrict hlnd (hclosed n hn r hr) r cid (Desc.refl r) hdesc
    have hfind : findInTree (restoredLL (mkSnapshot l))
        ((restoredLL (mkSnapshot l)).length + 1) r cid = true :=
      findInTree_complete hcoh' (idBound _ r) r _ rfl
        (lt_of_le_of_lt (idBound_le _ _) (Nat.lt_succ_self _)) cid hdesc'
    have hcurLL' : restoredCurLL (mkSnapshot l) = some cid := by
      unfold restoredCurLL
      have h1 : (mkSnapshot l).currentLLId = l.currentLL := rfl
      rw [h1, hcurL]
      dsimp only
      rw [hcurHL', Option.some_bind]
      have h2 : (restoredHL (mkSnapshot l)).find?
          (fun m => m.id == nid) = some (restoredNode (mkSnapshot l)
            (mkSnapNode l n)) := hlk'
      rw [h2]
      dsimp only
      have h3 : (restoredNode (mkSnapshot l) (mkSnapNode l n)).treeRoot =
          n.treeRoot := rfl
      rw [h3, hr]
      dsimp only
      rw [hfind]
      rfl
    refine ⟨nid, restoredNode (mkSnapshot l) (mkSnapNode l n), cid, c,
      hcurHL', hlk', hcurLL', hclk', ?_, ?_⟩
    · exact chainOK_restrict hcoh hlnd hrlk hrp (hclosed n hn r hr) cid
        hdesc hchain
    · have : rootOf (restoredLL (mkSnapshot l)) cid = some r :=
        rootOf_restrict hcoh' hlnd hrlk hrp
          (hclosed n hn r hr r nr (Desc.refl r) hrlk)
          (hclosed n hn r hr) cid hdesc
      rw [this]
      exact hr.symm
  · -- phaseCheck
    intro hph
    obtain ⟨nid, pn, q, hcur, hlk, hgc, hgen⟩ := hpc hph
    have hn := (lookupHLA_mem hlk).1
    have hnid := (lookupHLA_mem hlk).2
    refine ⟨nid, restoredNode (mkSnapshot l) (mkSnapNode l pn), q, ?_, ?_,
      hgc, hgen⟩
    · unfold restoredCurHL
      have h1 : (mkSnapshot l).currentHLId = l.currentHL := rfl
      rw [h1, hcur, Option.some_bind, if_pos (hanyR nid pn hlk)]
    · have := hres pn hn
      rw [hnid] at this
      exact this
  · -- solvedOK
    exact hsol

/-- A snapshot of a core-invariant state restores, into any state, to a
core-invariant state. -/
theorem coreInv_restore_of (g : Graph) (agents : List Agent) {l : LaCAM}
    (hc : CoreInv g agents l) (l' : LaCAM) :
    CoreInv g agents (restoreFromSnapshot l' (mkSnapshot l)) :=
  restored_coreInv g agents hc

/-! ### Preservation of the invariant -/

theorem inv_saveHistory (g : Graph) (agents : List Agent) {l : LaCAM}
    (h : Inv g agents l) : Inv g agents (saveHistory l) := by
  obtain ⟨hg, ha, hc, hctr, hsids, hhist, hlen1, hlen200⟩ := h
  have hsub : ∀ snap ∈ (saveHistory l).history,
      snap ∈ l.history ++ [mkSnapshot l] := by
    intro snap hsnap
    have : (saveHistory l).history =
        if (l.history ++ [mkSnapshot l]).length > 200
        then (l.history ++ [mkSnapshot l]).tail
        else l.history ++ [mkSnapshot l] := rfl
    rw [this] at hsnap
    split at hsnap
    · exact List.mem_of_mem_tail hsnap
    · exact hsnap
  obtain ⟨hsnd, hsof, hsin⟩ := snapNodes_spec l hc.hlNodup hc.hlInExplored
  refine ⟨hg, ha, hc, ⟨hctr.1, ?_⟩, ?_, ?_, ?_, ?_⟩
  · intro m hm
    have h1 : (saveHistory l).llCtr = l.llCtr +
        ((mkSnapshot l).nodes.foldl (fun acc n => acc + n.llNodes.length) 0) := rfl
    have := hctr.2 m hm
    omega
  · intro snap hsnap d hd
    have h1 : (saveHistory l).llCtr = l.llCtr +
        ((mkSnapshot l).nodes.foldl (fun acc n => acc + n.llNodes.length) 0) := rfl
    rcases List.mem_append.mp (hsub snap hsnap) with hold | hnew
    · obtain ⟨hid, hll⟩ := hsids snap hold d hd
      refine ⟨hid, fun m hm => ?_⟩
      have := hll m hm
      omega
    · rw [List.mem_singleton.mp hnew] at hd
      obtain ⟨n, hn, hnid, hdn⟩ := hsof d hd
      refine ⟨?_, ?_⟩
      · rw [← hnid]
        exact hctr.1 n hn
      · intro m hm
        obtain ⟨r, nr, hr, _, _⟩ := hc.hlRoot n hn
        rw [hdn, mkSnapNode_llNodes hr] at hm
        obtain ⟨hmlk, _⟩ := collect_mem _ _ m hm
        have := hctr.2 m (lookupLL_mem hmlk).1
        omega
  · intro snap hsnap
    rcases List.mem_append.mp (hsub snap hsnap) with hold | hnew
    · exact coreInv_restore_congr g agents l _ snap (hhist snap hold)
    · rw [List.mem_singleton.mp hnew]
      exact coreInv_restore_of g agents hc _
  · have h1 : (saveHistory l).history =
        if (l.history ++ [mkSnapshot l]).length > 200
        then (l.history ++ [mkSnapshot l]).tail
        else l.history ++ [mkSnapshot l] := rfl
    rw [h1]
    split <;> simp_all <;> omega
  · have h1 : (saveHistory l).history =
        if (l.history ++ [mkSnapshot l]).length > 200
        then (l.history ++ [mkSnapshot l]).tail
        else l.history ++ [mkSnapshot l] := rfl
    rw [h1]
    split <;> simp_all <;> omega

/-- The root constraint node and initial high-level node of `initialize()`. -/
def initLL : LLNode :=
  { id := 0, parent := none, who := none, whereV := none,
    children := [], depth := 0, isSearched := false, isSelected := false }

def initHL (g : Graph) (agents : List Agent) : HLNode :=
  { id := 0, config := startConfig agents, treeRoot := some 0,
    tree := [0], order := getInitOrder g agents, parent := none }

/-- The state `initialize()` builds before its closing `saveHistory()`. -/
def initState (l0 : LaCAM) : LaCAM :=
  { l0 with
      hlArena := [initHL l0.graph l0.agents], llArena := [initLL],
      hlCtr := 1, llCtr := 1,
      openS := [0], explored := [(startConfig l0.agents, 0)],
      currentHL := some 0, currentLL := none,
      generatedConfig := none, stepNumber := 0, phase := Phase.select,
      status := Status.running, solution := none,
      nodesGenerated := 1, configurationsExplored := 1, history := [] }

theorem initSolver_eq (l0 : LaCAM) : initSolver l0 = saveHistory (initState l0) := rfl

theorem inv_initSolver (g : Graph) (agents : List Agent) (hwf : g.WF)
    (hag : AgentsWF g agents) {l0 : LaCAM} (hg : l0.graph = g)
    (ha : l0.agents = agents) : Inv g agents (initSolver l0) := by
  subst hg
  subst ha
  have hlkc : lookupLL [initLL] 0 = some initLL := rfl
  have hcb : CoreInvP l0.graph l0.agents [initHL l0.graph l0.agents] [initLL]
      [0] [(startConfig l0.agents, 0)] (some 0) none none Phase.select
      Status.running none := by
    refine ⟨?_, ⟨?_, ?_, ?_⟩, ?_, ?_, ?_, ?_, ?_, ?_, ?_, ?_, ?_, ?_, ?_,
      ?_, ?_, ?_, ?_, ?_⟩
    · simp
    · simp
    · intro n hn
      rw [List.mem_singleton.mp hn]
      exact ⟨List.nodup_nil, fun c hc => absurd hc (List.not_mem_nil c)⟩
    · intro n hn p hp
      rw [List.mem_singleton.mp hn] at hp
      cases hp
    · intro m hm
      rw [List.mem_singleton.mp hm]
      exact Nat.zero_le _
    · intro m hm w hw
      rw [List.mem_singleton.mp hm] at hw
      cases hw
    · intro n hn
      rw [List.mem_singleton.mp hn]
      exact List.length_map _ _
    · intro n hn v hv
      rw [List.mem_singleton.mp hn] at hv
      obtain ⟨a, hamem, hav⟩ := List.mem_map.mp hv
      exact hav ▸ (hag a hamem).1
    · intro n hn
      rw [List.mem_singleton.mp hn]
      exact getInitOrder_perm _ _
    · intro n hn
      rw [List.mem_singleton.mp hn]
      exact ⟨0, initLL, rfl, hlkc, rfl⟩
    · intro n hn m hm hne
      rw [List.mem_singleton.mp hn, List.mem_singleton.mp hm] at hne
      exact absurd rfl hne
    · intro n hn i hi
      rw [List.mem_singleton.mp hn] at hi ⊢
      rw [List.mem_singleton.mp hi]
      exact ⟨ChainOKId.root 0 initLL hlkc rfl, by rw [rootOf_root hlkc rfl]; rfl⟩
    · intro n hn
      rw [List.mem_singleton.mp hn]
      exact ⟨fun _ => rfl, fun p hp => by cases hp⟩
    · intro n hn
      rw [List.mem_singleton.mp hn]
      simp [initHL]
    · intro i hi
      rw [List.mem_singleton.mp hi]
      exact ⟨initHL l0.graph l0.agents, rfl⟩
    · simp
    · intro hph
      cases hph
    · intro hph
      rcases hph with hph | hph <;> cases hph
    · intro hph
      cases hph
    · intro hst
      cases hst
  have hcbs : CoreInv l0.graph l0.agents (initState l0) := hcb
  refine ⟨rfl, rfl, hcb, ⟨?_, ?_⟩, ?_, ?_, ?_, ?_⟩
  · intro n hn
    have hn' : n ∈ [initHL l0.graph l0.agents] := hn
    rw [List.mem_singleton.mp hn']
    exact Nat.zero_lt_one
  · intro m hm
    have hm' : m ∈ [initLL] := hm
    rw [List.mem_singleton.mp hm']
    show (0 : Nat) < 1 + _
    omega
  · intro snap hsnap d hd
    have hmem : snap ∈ ([] : List Snapshot) ++ [mkSnapshot (initState l0)] :=
      hsnap
    rw [List.nil_append, List.mem_singleton] at hmem
    rw [hmem] at hd
    obtain ⟨hsnd, hsof, hsin⟩ := snapNodes_spec (initState l0) hcbs.hlNodup
      hcbs.hlInExplored
    obtain ⟨n, hn, hnid, hdn⟩ := hsof d hd
    refine ⟨?_, ?_⟩
    · rw [← hnid]
      have hn' : n ∈ [initHL l0.graph l0.agents] := hn
      rw [List.mem_singleton.mp hn']
      exact Nat.zero_lt_one
    · intro m hm
      obtain ⟨r, nr, hr, _, _⟩ := hcbs.hlRoot n hn
      rw [hdn, mkSnapNode_llNodes hr] at hm
      obtain ⟨hmlk, _⟩ := collect_mem _ _ m hm
      have hmm := (lookupLL_mem hmlk).1
      have hmm' : m ∈ [initLL] := hmm
      rw [List.mem_singleton.mp hmm']
      show (0 : Nat) < 1 + _
      omega
  · intro snap hsnap
    have hmem : snap ∈ ([] : List Snapshot) ++ [mkSnapshot (initState l0)] :=
      hsnap
    rw [List.nil_append, List.mem_singleton] at hmem
    rw [hmem]
    exact coreInv_restore_of l0.graph l0.agents hcbs _
  · show 1 ≤ (if (([] : List Snapshot) ++ [mkSnapshot (initState l0)]).length > 200
      then (([] : List Snapshot) ++ [mkSnapshot (initState l0)]).tail
      else ([] : List Snapshot) ++ [mkSnapshot (initState l0)]).length
    simp
  · show (if (([] : List Snapshot) ++ [mkSnapshot (initState l0)]).length > 200
      then (([] : List Snapshot) ++ [mkSnapshot (initState l0)]).tail
      else ([] : List Snapshot) ++ [mkSnapshot (initState l0)]).length ≤ 200
    simp

theorem backtrackAux_congr {l l' : LaCAM} (hE : l'.hlArena = l.hlArena) :
    ∀ (fuel : Nat) (o : Option Nat),
      backtrackAux l' fuel o = backtrackAux l fuel o := by
  intro fuel
  induction fuel with
  | zero =>
    intro o
    cases o <;> rfl
  | succ f ih =>
    intro o
    cases o with
    | none => rfl
    | some i =>
      simp only [backtrackAux]
      have hlk : lookupHL l' i = lookupHL l i := by
        unfold lookupHL
        rw [hE]
      rw [hlk]
      cases lookupHL l i with
      | none => rfl
      | some n =>
        dsimp only
        rw [ih]

theorem backtrack_congr {l l' : LaCAM} (hE : l'.hlArena = l.hlArena)
    (i : Nat) : backtrack l' i = backtrack l i :=
  backtrackAux_congr hE _ _

/-- Rebuild the core invariant after a step that leaves both arenas and the
explored map untouched. -/
theorem coreInvP_reconfig {g : Graph} {agents : List Agent}
    {hlA : List HLNode} {llA : List LLNode} {op : List Nat}
    {ex : List (List Nat × Nat)} {cHL cLL : Option Nat}
    {gen : Option (List Nat)} {ph : Phase} {st : Status}
    {sol : Option (List (List Nat))}
    (hc : CoreInvP g agents hlA llA op ex cHL cLL gen ph st sol)
    (op' : List Nat) (cHL' cLL' : Option Nat) (gen' : Option (List Nat))
    (ph' : Phase) (st' : Status) (sol' : Option (List (List Nat)))
    (hop : ∀ i ∈ op', i ∈ op)
    (hni : ph' ≠ Phase.init)
    (hpop : ph' = Phase.pop_constraint → ∃ nid n, cHL' = some nid ∧
      lookupHLA hlA nid = some n ∧ n.tree ≠ [])
    (hpeg : ph' = Phase.expand_tree ∨ ph' = Phase.generate →
      ∃ nid n cid c, cHL' = some nid ∧ lookupHLA hlA nid = some n ∧
        cLL' = some cid ∧ lookupLL llA cid = some c ∧
        ChainOKId g llA agents.length n.config cid ∧
        rootOf llA cid = n.treeRoot)
    (hpc : ph' = Phase.check → ∃ nid pn q, cHL' = some nid ∧
      lookupHLA hlA nid = some pn ∧ gen' = some q ∧
        ∃ cs, CsOK g pn.config agents.length cs ∧
          generateConfig g agents pn.config cs = some q)
    (hsol : st' = Status.solved → ∃ s, sol' = some s ∧ SolOK g agents s) :
    CoreInvP g agents hlA llA op' ex cHL' cLL' gen' ph' st' sol' :=
  ⟨hc.hlNodup, hc.llCoh, hc.llDepth, hc.llWhere, hc.hlCfgLen, hc.hlCfgMem,
   hc.hlOrder, hc.hlRoot, hc.hlRootUniq, hc.hlTree, hc.hlParent,
   hc.hlInExplored, fun i hi => hc.openOK i (hop i hi), hni, hpop, hpeg,
   hpc, hsol⟩

/-- Assemble the full invariant from a new core invariant, the old state's
bookkeeping and monotone counters, when the history is untouched. -/
theorem inv_rest_mono (g : Graph) (agents : List Agent) {l l' : LaCAM}
    (h : Inv g agents l) (hcore : CoreInv g agents l')
    (hgr : l'.graph = l.graph) (hag : l'.agents = l.agents)
    (hH : l'.history = l.history)
    (hhc : l.hlCtr ≤ l'.hlCtr) (hlc : l.llCtr ≤ l'.llCtr)
    (hctr' : CtrOK l') : Inv g agents l' := by
  obtain ⟨hg, ha, _, hctr, hsids, hhist, h1, h2⟩ := h
  refine ⟨hgr.trans hg, hag.trans ha, hcore, hctr', ?_, ?_, ?_, ?_⟩
  · intro snap hs d hd
    rw [hH] at hs
    obtain ⟨hid, hll⟩ := hsids snap hs d hd
    exact ⟨lt_of_lt_of_le hid hhc, fun m hm => lt_of_lt_of_le (hll m hm) hlc⟩
  · intro snap hs
    rw [hH] at hs
    exact coreInv_restore_congr g agents l l' snap (hhist snap hs)
  · rw [hH]
    exact h1
  · rw [hH]
    exact h2

theorem inv_stepSelect (g : Graph) (agents : List Agent) {l : LaCAM}
    (h : Inv g agents l) (hph : l.phase = Phase.select) :
    Inv g agents (stepSelect l).1 := by
  have hfull := h
  obtain ⟨hg, ha, hc, hctr, hsids, hhist, hlen1, hlen200⟩ := h
  subst hg
  subst ha
  unfold stepSelect
  cases ho : l.openS.getLast? with
  | none =>
    dsimp only
    refine inv_rest_mono _ _ hfull ?_ rfl rfl rfl le_rfl le_rfl hctr
    refine coreInvP_reconfig hc _ _ _ _ _ _ _ (fun i hi => hi)
      hc.phaseNotInit hc.phasePop hc.phaseExpGen hc.phaseCheck ?_
    intro hs
    cases hs
  | some nid =>
    dsimp only
    have hnidm : nid ∈ l.openS := List.mem_of_mem_getLast? ho
    obtain ⟨n, hn⟩ := hc.openOK nid hnidm
    have hn' : lookupHL l nid = some n := hn
    rw [hn']
    dsimp only
    by_cases hgoal : n.config = goalConfig l.agents
    · rw [if_pos hgoal]
      refine inv_rest_mono _ _ hfull ?_ rfl rfl rfl le_rfl le_rfl hctr
      refine coreInvP_reconfig hc _ _ _ _ _ _ _ (fun i hi => hi)
        hc.phaseNotInit ?_ ?_ ?_ ?_
      · intro hq
        rw [hph] at hq
        cases hq
      · intro hq
        rw [hph] at hq
        rcases hq with hq | hq <;> cases hq
      · intro hq
        rw [hph] at hq
        cases hq
      · intro _
        obtain ⟨hhead, hlast, hchain⟩ :=
          backtrack_sound l.graph l.agents hc.hlParent nid n hn'
        refine ⟨backtrack { l with currentHL := some nid } nid, rfl, ?_⟩
        have hbt : backtrack { l with currentHL := some nid } nid =
            backtrack l nid :=
          backtrack_congr
            (show ({ l with currentHL := some nid } : LaCAM).hlArena =
              l.hlArena from rfl) nid
        rw [hbt]
        refine ⟨hhead, ?_, hchain⟩
        rw [hlast, hgoal]
    · rw [if_neg hgoal]
      by_cases htr : n.tree = []
      · rw [if_pos htr]
        refine inv_rest_mono _ _ hfull ?_ rfl rfl rfl le_rfl le_rfl hctr
        refine coreInvP_reconfig hc _ _ _ _ _ _ _
          (fun i hi => (List.dropLast_sublist _).subset hi)
          hc.phaseNotInit ?_ ?_ ?_ hc.solvedOK
        · intro hq
          rw [hph] at hq
          cases hq
        · intro hq
          rw [hph] at hq
          rcases hq with hq | hq <;> cases hq
        · intro hq
          rw [hph] at hq
          cases hq
      · rw [if_neg htr]
        refine inv_rest_mono _ _ hfull ?_ rfl rfl rfl le_rfl le_rfl hctr
        refine coreInvP_reconfig hc _ _ _ _ _ _ _ (fun i hi => hi)
          (by intro hq; cases hq) ?_ ?_ ?_ hc.solvedOK
        · intro _
          exact ⟨nid, n, rfl, hn, htr⟩
        · intro hq
          rcases hq with hq | hq <;> cases hq
        · intro hq
          cases hq

theorem inv_stepGenerate (g : Graph) (agents : List Agent) {l : LaCAM}
    (h : Inv g agents l) (hph : l.phase = Phase.generate) :
    Inv g agents (stepGenerate l).1 := by
  have hfull := h
  obtain ⟨hg, ha, hc, hctr, hsids, hhist, hlen1, hlen200⟩ := h
  subst hg
  subst ha
  obtain ⟨nid, n, cid, c, hcur, hlk, hcurL, hclk, hchain, hrootc⟩ :=
    hc.phaseExpGen (Or.inr hph)
  unfold stepGenerate
  rw [hcur, hcurL]
  dsimp only
  have hlk' : lookupHL l nid = some n := hlk
  rw [hlk']
  dsimp only
  cases hgen : generateConfig l.graph l.agents n.config
      (getConstraints l.llArena cid) with
  | none =>
    dsimp only
    refine inv_rest_mono _ _ hfull ?_ rfl rfl rfl le_rfl le_rfl hctr
    refine coreInvP_reconfig hc _ _ _ _ _ _ _ (fun i hi => hi)
      (by intro hq; cases hq) ?_ ?_ ?_ hc.solvedOK
    · intro hq
      cases hq
    · intro hq
      rcases hq with hq | hq <;> cases hq
    · intro hq
      cases hq
  | some q =>
    dsimp only
    refine inv_rest_mono _ _ hfull ?_ rfl rfl rfl le_rfl le_rfl hctr
    refine coreInvP_reconfig hc _ _ _ _ _ _ _ (fun i hi => hi)
      (by intro hq; cases hq) ?_ ?_ ?_ hc.solvedOK
    · intro hq
      cases hq
    · intro hq
      rcases hq with hq | hq <;> cases hq
    · intro _
      exact ⟨nid, n, q, rfl, hlk, rfl, getConstraints l.llArena cid,
        getConstraints_csOK' hchain, hgen⟩

theorem updateLL_mem_form {arena : List LLNode} {j : Nat} {f : LLNode → LLNode}
    {m : LLNode} (hm : m ∈ updateLL arena j f) :
    ∃ m0 ∈ arena, m = if m0.id = j then f m0 else m0 := by
  obtain ⟨m0, hm0, hmf⟩ := List.mem_map.mp hm
  exact ⟨m0, hm0, hmf.symm⟩

theorem updateHL_mem_form {arena : List HLNode} {j : Nat} {f : HLNode → HLNode}
    {m : HLNode} (hm : m ∈ updateHL arena j f) :
    ∃ m0 ∈ arena, m = if m0.id = j then f m0 else m0 := by
  obtain ⟨m0, hm0, hmf⟩ := List.mem_map.mp hm
  exact ⟨m0, hm0, hmf.symm⟩

theorem chainOK_lookup {g : Graph} {arena : List LLNode} {nAg : Nat}
    {cfg : List Nat} {i : Nat} (h : ChainOKId g arena nAg cfg i) :
    ∃ n, lookupLL arena i = some n := by
  cases h with
  | root i n hlk _ => exact ⟨n, hlk⟩
  | cons i n w v p hlk _ _ _ _ _ _ _ => exact ⟨n, hlk⟩

/-- Tree coherence survives a per-node update that keeps the structural
fields. -/
theorem llCoh_update {arena : List LLNode} (hcoh : LLCoh arena) (j : Nat)
    (f : LLNode → LLNode) (hid : ∀ n, (f n).id = n.id)
    (hch : ∀ n, (f n).children = n.children)
    (hpar : ∀ n, (f n).parent = n.parent)
    (hdep : ∀ n, (f n).depth = n.depth) : LLCoh (updateLL arena j f) := by
  have hgid : ∀ n : LLNode, (if n.id = j then f n else n).id = n.id := by
    intro n
    split <;> simp [hid]
  have hgch : ∀ n : LLNode, (if n.id = j then f n else n).children =
      n.children := by
    intro n
    split <;> simp [hch]
  have hgpar : ∀ n : LLNode, (if n.id = j then f n else n).parent =
      n.parent := by
    intro n
    split <;> simp [hpar]
  have hgdep : ∀ n : LLNode, (if n.id = j then f n else n).depth = n.depth := by
    intro n
    split <;> simp [hdep]
  have hlkU := lookupLL_update arena j f hid
  refine ⟨?_, ?_, ?_⟩
  · rw [updateLL_ids arena j f hid]
    exact hcoh.nodup
  · intro m hm
    obtain ⟨m0, hm0, hmf⟩ := updateLL_mem_form hm
    obtain ⟨hcnd, hcall⟩ := hcoh.childOK m0 hm0
    rw [hmf, hgch]
    refine ⟨hcnd, fun c hcmem => ?_⟩
    obtain ⟨hlt, cn, hcn, hcnp, hcnd2⟩ := hcall c hcmem
    refine ⟨by rw [hgid]; exact hlt, _, by rw [hlkU c, hcn]; rfl, ?_, ?_⟩
    · rw [hgpar, hcnp, hgid]
    · rw [hgdep, hcnd2, hgdep]
  · intro m hm p hp
    obtain ⟨m0, hm0, hmf⟩ := updateLL_mem_form hm
    rw [hmf, hgpar] at hp
    obtain ⟨hlt, pn, hpn, hpc⟩ := hcoh.parentOK m0 hm0 p hp
    refine ⟨by rw [hmf, hgid]; exact hlt, _, by rw [hlkU p, hpn]; rfl, ?_⟩
    rw [hgch, hmf, hgid]
    exact hpc

theorem inv_stepPopConstraint (g : Graph) (agents : List Agent) {l : LaCAM}
    (h : Inv g agents l) (hph : l.phase = Phase.pop_constraint) :
    Inv g agents (stepPopConstraint l).1 := by
  have hfull := h
  obtain ⟨hg, ha, hc, hctr, hsids, hhist, hlen1, hlen200⟩ := h
  subst hg
  subst ha
  obtain ⟨nid, n, hcur, hlk, htne⟩ := hc.phasePop hph
  have hnmem := (lookupHLA_mem hlk).1
  have hnid := (lookupHLA_mem hlk).2
  unfold stepPopConstraint
  rw [hcur]
  dsimp only
  have hlk' : lookupHL l nid = some n := hlk
  rw [hlk']
  dsimp only
  obtain ⟨c0, rest, hct⟩ := List.exists_cons_of_ne_nil htne
  rw [hct]
  dsimp only
  have hfS : ∀ m : LLNode,
      (({ m with isSelected := true, isSearched := true } : LLNode)).id =
        m.id := fun m => rfl
  have hfT : ∀ m : HLNode, (({ m with tree := rest } : HLNode)).id = m.id :=
    fun m => rfl
  have hlkU := lookupLL_update l.llArena c0
    (fun m => { m with isSelected := true, isSearched := true }) hfS
  have hlkH := lookupHLA_update l.hlArena nid
    (fun m => { m with tree := rest }) hfT
  have hstab : ∀ (i : Nat) (m : LLNode), lookupLL l.llArena i = some m →
      ∃ m', lookupLL (updateLL l.llArena c0
        (fun m => { m with isSelected := true, isSearched := true })) i =
        some m' ∧ SameChainFields m m' := by
    intro i m hm
    refine ⟨_, by rw [hlkU i, hm]; rfl, ?_⟩
    dsimp only
    split <;> exact ⟨rfl, rfl, rfl⟩
  have hcoh' := llCoh_update hc.llCoh c0
    (fun m => { m with isSelected := true, isSearched := true })
    hfS (fun m => rfl) (fun m => rfl) (fun m => rfl)
  have hchainstab : ∀ (cfg : List Nat) (i : Nat),
      ChainOKId l.graph l.llArena l.agents.length cfg i →
      ChainOKId l.graph (updateLL l.llArena c0
        (fun m => { m with isSelected := true, isSearched := true }))
        l.agents.length cfg i :=
    fun cfg i hx => chainOKId_stable hstab hx
  have hrootstab : ∀ (i : Nat) (m : LLNode), lookupLL l.llArena i = some m →
      rootOf (updateLL l.llArena c0
        (fun m => { m with isSelected := true, isSearched := true })) i =
      rootOf l.llArena i :=
    rootOf_stable hc.llCoh hcoh'
      (fun j m hm => (hstab j m hm).imp fun m' hx => ⟨hx.1, hx.2.2.2.symm⟩)
  refine inv_rest_mono _ _ hfull ?_ rfl rfl rfl le_rfl le_rfl ?_
  · show CoreInvP l.graph l.agents
      (updateHL l.hlArena nid fun m => { m with tree := rest })
      (updateLL l.llArena c0
        fun m => { m with isSelected := true, isSearched := true })
      l.openS l.explored (some nid) (some c0) l.generatedConfig
      Phase.expand_tree l.status l.solution
    refine ⟨?_, hcoh', ?_, ?_, ?_, ?_, ?_, ?_, ?_, ?_, ?_, ?_, ?_, ?_, ?_,
      ?_, ?_, ?_⟩
    · rw [updateHL_ids l.hlArena nid _ hfT]
      exact hc.hlNodup
    · intro m hm
      obtain ⟨m0, hm0, hmf⟩ := updateLL_mem_form hm
      have hd : m.depth = m0.depth := by
        rw [hmf]
        split <;> rfl
      rw [hd]
      exact hc.llDepth m0 hm0
    · intro m hm w hw
      obtain ⟨m0, hm0, hmf⟩ := updateLL_mem_form hm
      have hwho : m.who = m0.who := by
        rw [hmf]
        split <;> rfl
      have hwv : m.whereV = m0.whereV := by
        rw [hmf]
        split <;> rfl
      rw [hwho] at hw
      obtain ⟨v, hv, hvm⟩ := hc.llWhere m0 hm0 w hw
      exact ⟨v, by rw [hwv]; exact hv, hvm⟩
    · intro m hm
      obtain ⟨m0, hm0, hmf⟩ := updateHL_mem_form hm
      have hcfg : m.config = m0.config := by
        rw [hmf]
        split <;> rfl
      rw [hcfg]
      exact hc.hlCfgLen m0 hm0
    · intro m hm
      obtain ⟨m0, hm0, hmf⟩ := updateHL_mem_form hm
      have hcfg : m.config = m0.config := by
        rw [hmf]
        split <;> rfl
      rw [hcfg]
      exact hc.hlCfgMem m0 hm0
    · intro m hm
      obtain ⟨m0, hm0, hmf⟩ := updateHL_mem_form hm
      have hordq : m.order = m0.order := by
        rw [hmf]
        split <;> rfl
      rw [hordq]
      exact hc.hlOrder m0 hm0
    · intro m hm
      obtain ⟨m0, hm0, hmf⟩ := updateHL_mem_form hm
      have htr : m.treeRoot = m0.treeRoot := by
        rw [hmf]
        split <;> rfl
      obtain ⟨r, nr, hr, hrlk, hrp⟩ := hc.hlRoot m0 hm0
      refine ⟨r, if nr.id = c0
          then { nr with isSelected := true, isSearched := true } else nr,
        by rw [htr]; exact hr, by rw [hlkU r, hrlk]; rfl, ?_⟩
      split <;> exact hrp
    · intro m hm m2 hm2 hne
      obtain ⟨m0, hm0, hmf⟩ := updateHL_mem_form hm
      obtain ⟨m20, hm20, hmf2⟩ := updateHL_mem_form hm2
      have hid : m.id = m0.id := by
        rw [hmf]
        split <;> rfl
      have hid2 : m2.id = m20.id := by
        rw [hmf2]
        split <;> rfl
      have htr : m.treeRoot = m0.treeRoot := by
        rw [hmf]
        split <;> rfl
      have htr2 : m2.treeRoot = m20.treeRoot := by
        rw [hmf2]
        split <;> rfl
      rw [hid, hid2] at hne
      rw [htr, htr2]
      exact hc.hlRootUniq m0 hm0 m20 hm20 hne
    · intro m hm i hi
      obtain ⟨m0, hm0, hmf⟩ := updateHL_mem_form hm
      have hcfg : m.config = m0.config := by
        rw [hmf]
        split <;> rfl
      have htr : m.treeRoot = m0.treeRoot := by
        rw [hmf]
        split <;> rfl
      have hsub : i ∈ m0.tree := by
        revert hi
        rw [hmf]
        split_ifs with hq
        · intro hi
          have hm0n : m0 = n := by
            have hx := lookupHLA_of_mem hc.hlNodup hm0
            rw [hq] at hx
            rw [hx] at hlk
            injection hlk with hlk
          rw [hm0n, hct]
          exact List.mem_cons_of_mem _ hi
        · intro hi
          exact hi
      obtain ⟨hchain0, hroot0⟩ := hc.hlTree m0 hm0 i hsub
      obtain ⟨ni, hni⟩ := chainOK_lookup hchain0
      refine ⟨by rw [hcfg]; exact hchainstab m0.config i hchain0, ?_⟩
      rw [htr, hrootstab i ni hni]
      exact hroot0
    · intro m hm
      obtain ⟨m0, hm0, hmf⟩ := updateHL_mem_form hm
      have hparq : m.parent = m0.parent := by
        rw [hmf]
        split <;> rfl
      have hcfg : m.config = m0.config := by
        rw [hmf]
        split <;> rfl
      have hid : m.id = m0.id := by
        rw [hmf]
        split <;> rfl
      constructor
      · intro hnone
        rw [hparq] at hnone
        rw [hcfg]
        exact (hc.hlParent m0 hm0).1 hnone
      · intro p hp
        rw [hparq] at hp
        obtain ⟨hplt, pn, hpn, cs, hcs, hgen⟩ := (hc.hlParent m0 hm0).2 p hp
        refine ⟨by rw [hid]; exact hplt,
          if pn.id = nid then { pn with tree := rest } else pn,
          by rw [hlkH p, hpn]; rfl, cs, ?_, ?_⟩
        · split <;> exact hcs
        · split <;> (rw [hcfg]; exact hgen)
    · intro m hm
      obtain ⟨m0, hm0, hmf⟩ := updateHL_mem_form hm
      have hid : m.id = m0.id := by
        rw [hmf]
        split <;> rfl
      rw [hid]
      exact hc.hlInExplored m0 hm0
    · intro i hi
      obtain ⟨n0, hn0⟩ := hc.openOK i hi
      exact ⟨_, by rw [hlkH i, hn0]; rfl⟩
    · intro hq
      cases hq
    · intro hq
      cases hq
    · intro _
      have hc0mem : c0 ∈ n.tree := by
        rw [hct]
        exact List.mem_cons_self _ _
      obtain ⟨hchain0, hroot0⟩ := hc.hlTree n hnmem c0 hc0mem
      obtain ⟨cN, hcN⟩ := chainOK_lookup hchain0
      refine ⟨nid, { n with tree := rest }, c0, if cN.id = c0
          then { cN with isSelected := true, isSearched := true } else cN,
        rfl, ?_, rfl, by rw [hlkU c0, hcN]; rfl, ?_, ?_⟩
      · rw [hlkH nid, hlk]
        simp only [Option.map]
        rw [if_pos hnid]
      · exact hchainstab n.config c0 hchain0
      · rw [hrootstab c0 cN hcN]
        exact hroot0
    · intro hq
      cases hq
    · intro hs
      exact hc.solvedOK hs
  · constructor
    · intro m hm
      obtain ⟨m0, hm0, hmf⟩ := updateHL_mem_form hm
      have hid : m.id = m0.id := by
        rw [hmf]
        split <;> rfl
      rw [hid]
      exact hctr.1 m0 hm0
    · intro m hm
      obtain ⟨m0, hm0, hmf⟩ := updateLL_mem_form hm
      have hid : m.id = m0.id := by
        rw [hmf]
        split <;> rfl
      rw [hid]
      exact hctr.2 m0 hm0

/-- Invariant preservation across the expanding branch of
`stepExpandTree()` (current node below depth `N`). -/
theorem inv_expand_branch {l : LaCAM} (hwf : l.graph.WF)
    (hfull : Inv l.graph l.agents l)
    (nid cid agentId currentVertex : Nat) (n : HLNode) (c : LLNode)
    (moves newIds : List Nat) (newNodes : List LLNode)
    (hmv : moves = currentVertex :: l.graph.getNeighbors currentVertex)
    (hni : newIds = (List.range moves.length).map fun k => l.llCtr + k)
    (hnn : newNodes = (List.zip newIds moves).map fun pr =>
      ({ id := pr.1, parent := some cid, who := some agentId,
         whereV := some pr.2, children := [], depth := c.depth + 1,
         isSearched := false, isSelected := false } : LLNode))
    (hlk : lookupHLA l.hlArena nid = some n)
    (hclk : lookupLL l.llArena cid = some c)
    (hchain : ChainOKId l.graph l.llArena l.agents.length n.config cid)
    (hrootc : rootOf l.llArena cid = n.treeRoot)
    (hlt : c.depth < l.agents.length)
    (hagent : agentId ∈ n.order)
    (hvert : n.config[agentId]? = some currentVertex) :
    Inv l.graph l.agents
      { l with
          llArena := (updateLL l.llArena cid fun m =>
            { m with children := m.children ++ newIds }) ++ newNodes,
          llCtr := l.llCtr + moves.length,
          hlArena := updateHL l.hlArena nid fun m =>
            { m with tree := m.tree ++ newIds },
          currentHL := some nid, currentLL := some cid,
          phase := Phase.generate } := by
  have hfullKeep := hfull
  obtain ⟨_, _, hc, hctr, hsids, hhist, hlen1, hlen200⟩ := hfull
  have hnmem := (lookupHLA_mem hlk).1
  have hnid := (lookupHLA_mem hlk).2
  have hcmem := (lookupLL_mem hclk).1
  have hcid := (lookupLL_mem hclk).2
  have hagN : agentId < l.agents.length := by
    have := (hc.hlOrder n hnmem).mem_iff.mp hagent
    exact List.mem_range.mp this
  have hvmem : currentVertex ∈ n.config := List.getElem?_mem hvert
  have hvvert : currentVertex ∈ l.graph.verts := hc.hlCfgMem n hnmem _ hvmem
  have hmoveV : ∀ v ∈ moves, v ∈ l.graph.verts := by
    intro v hv
    rw [hmv] at hv
    rcases List.mem_cons.mp hv with rfl | hv
    · exact hvvert
    · exact (hwf.adj_mem currentVertex v hv).2
  have hmoveOK : ∀ v ∈ moves, v = currentVertex ∨ v ∈ l.graph.adj currentVertex := by
    intro v hv
    rw [hmv] at hv
    rcases List.mem_cons.mp hv with rfl | hv
    · exact Or.inl rfl
    · exact Or.inr hv
  have hfC : ∀ m : LLNode,
      (({ m with children := m.children ++ newIds } : LLNode)).id = m.id :=
    fun m => rfl
  have hfT : ∀ m : HLNode,
      (({ m with tree := m.tree ++ newIds } : HLNode)).id = m.id :=
    fun m => rfl
  have hlkH := lookupHLA_update l.hlArena nid
    (fun m => { m with tree := m.tree ++ newIds }) hfT
  have hNlen : newIds.length = moves.length := by
    rw [hni, List.length_map, List.length_range]
  have hNfresh : ∀ x ∈ newIds, l.llCtr ≤ x := by
    intro x hx
    rw [hni] at hx
    obtain ⟨k, _, hk⟩ := List.mem_map.mp hx
    omega
  have hNbound : ∀ x ∈ newIds, x < l.llCtr + moves.length := by
    intro x hx
    rw [hni] at hx
    obtain ⟨k, hk1, hk2⟩ := List.mem_map.mp hx
    have := List.mem_range.mp hk1
    omega
  have hNnodup : newIds.Nodup := by
    rw [hni]
    refine List.Nodup.map ?_ (List.nodup_range _)
    intro a b hab
    dsimp only at hab
    omega
  have hNNids : newNodes.map (·.id) = newIds := by
    rw [hnn, List.map_map]
    have hcomp : ((fun x : LLNode => x.id) ∘ fun pr : Nat × Nat =>
        ({ id := pr.1, parent := some cid, who := some agentId,
           whereV := some pr.2, children := [], depth := c.depth + 1,
           isSearched := false, isSelected := false } : LLNode)) =
        Prod.fst := rfl
    rw [hcomp]
    exact List.map_fst_zip newIds moves (le_of_eq hNlen)
  have hOldNotNew : ∀ m ∈ l.llArena, m.id ∉ newIds := by
    intro m hm hx
    have h1 := hctr.2 m hm
    have h2 := hNfresh m.id hx
    omega
  have hcidlt : cid < l.llCtr := by
    have := hctr.2 c hcmem
    omega
  have hmemNN : ∀ m ∈ newNodes, m.id ∈ newIds ∧ m.parent = some cid ∧
      m.who = some agentId ∧ m.children = [] ∧ m.depth = c.depth + 1 ∧
      ∃ v ∈ moves, m.whereV = some v := by
    intro m hm
    rw [hnn] at hm
    obtain ⟨pr, hpr, hmpr⟩ := List.mem_map.mp hm
    have hz := List.mem_zip hpr
    subst hmpr
    exact ⟨hz.1, rfl, rfl, rfl, rfl, pr.2, hz.2, rfl⟩
  have hLlkOld : ∀ (i : Nat) (m : LLNode), lookupLL l.llArena i = some m →
      lookupLL ((updateLL l.llArena cid fun m =>
        { m with children := m.children ++ newIds }) ++ newNodes) i =
      some (if m.id = cid then { m with children := m.children ++ newIds }
        else m) := by
    intro i m hm
    refine lookupLL_append_of_some ?_ _
    rw [lookupLL_update l.llArena cid _ hfC i, hm]
    rfl
  have hLIds : ((updateLL l.llArena cid fun m =>
      { m with children := m.children ++ newIds }).map (·.id)) =
      l.llArena.map (·.id) := updateLL_ids _ _ _ hfC
  have hNNnodup : (newNodes.map (·.id)).Nodup := by
    rw [hNNids]
    exact hNnodup
  have hNNlookup : ∀ m ∈ newNodes,
      lookupLL ((updateLL l.llArena cid fun m =>
        { m with children := m.children ++ newIds }) ++ newNodes) m.id =
      some m := by
    intro m hm
    have hmid : m.id ∈ newIds := (hmemNN m hm).1
    rw [lookupLL_append_right ?_ newNodes]
    · exact lookupLL_of_mem hNNnodup hm
    · intro m0 hm0 hq
      obtain ⟨m1, hm1, hmf⟩ := updateLL_mem_form hm0
      have hq1 : m1.id = m.id := by
        rw [← hq, hmf]
        split <;> rfl
      exact hOldNotNew m1 hm1 (hq1 ▸ hmid)
  have hLnodup : (((updateLL l.llArena cid fun m =>
      { m with children := m.children ++ newIds }) ++ newNodes).map
        (·.id)).Nodup := by
    rw [List.map_append, hLIds, hNNids]
    refine List.Nodup.append hc.llCoh.nodup hNnodup ?_
    intro a ha hb
    obtain ⟨m, hm, hma⟩ := List.mem_map.mp ha
    exact hOldNotNew m hm (hma ▸ hb)
  have hChildSub : ∀ ch ∈ c.children, ch < l.llCtr := by
    intro ch hch
    obtain ⟨_, cn, hcn, _, _⟩ := (hc.llCoh.childOK c hcmem).2 ch hch
    have h1 := hctr.2 cn (lookupLL_mem hcn).1
    have h2 := (lookupLL_mem hcn).2
    omega
  have hNNofId : ∀ x ∈ newIds, ∃ mN ∈ newNodes, mN.id = x := by
    intro x hx
    have : x ∈ newNodes.map (·.id) := by
      rw [hNNids]
      exact hx
    obtain ⟨mN, h1, h2⟩ := List.mem_map.mp this
    exact ⟨mN, h1, h2⟩
  have hcoh' : LLCoh ((updateLL l.llArena cid fun m =>
      { m with children := m.children ++ newIds }) ++ newNodes) := by
    refine ⟨hLnodup, ?_, ?_⟩
    · intro m hm
      rcases List.mem_append.mp hm with hm | hm
      · obtain ⟨m0, hm0, hmf⟩ := updateLL_mem_form hm
        obtain ⟨hcnd0, hcall0⟩ := hc.llCoh.childOK m0 hm0
        by_cases hq : m0.id = cid
        · have hm0c : m0 = c := by
            have hx := lookupLL_of_mem hc.llCoh.nodup hm0
            rw [hq, hclk] at hx
            injection hx with hx2
            exact hx2.symm
          rw [hmf, if_pos hq]
          subst hm0c
          dsimp only
          constructor
          · refine List.Nodup.append hcnd0 hNnodup ?_
            intro a ha hb
            have h1 := hChildSub a ha
            have h2 := hNfresh a hb
            omega
          · intro ch hch
            rcases List.mem_append.mp hch with hch | hch
            · obtain ⟨hlt2, cn, hcn, hcnp, hcnd2⟩ := hcall0 ch hch
              have hcne : cn.id ≠ cid := by
                have h1 := (lookupLL_mem hcn).2
                have h2 := hChildSub ch hch
                omega
              refine ⟨hlt2, _, hLlkOld ch cn hcn, ?_, ?_⟩
              · rw [if_neg hcne, hcnp, hq]
              · rw [if_neg hcne, hcnd2]
            · obtain ⟨mN, hmN, hmNid⟩ := hNNofId ch hch
              obtain ⟨_, hpar, _, _, hdep, _⟩ := hmemNN mN hmN
              refine ⟨?_, mN, by rw [← hmNid]; exact hNNlookup mN hmN, ?_, ?_⟩
              · have := hNfresh ch hch
                rw [hq]
                omega
              · rw [hpar, hq]
              · rw [hdep]
        · rw [hmf, if_neg hq]
          refine ⟨hcnd0, fun ch hch => ?_⟩
          obtain ⟨hlt2, cn, hcn, hcnp, hcnd2⟩ := hcall0 ch hch
          refine ⟨hlt2, _, hLlkOld ch cn hcn, ?_, ?_⟩
          · split <;> simp only [hcnp]
          · split <;> simp only [hcnd2]
      · obtain ⟨_, _, _, hchn, _, _⟩ := hmemNN m hm
        rw [hchn]
        exact ⟨List.nodup_nil, fun ch hch => absurd hch (List.not_mem_nil ch)⟩
    · intro m hm p hp
      rcases List.mem_append.mp hm with hm | hm
      · obtain ⟨m0, hm0, hmf⟩ := updateLL_mem_form hm
        have hparq : m.parent = m0.parent := by
          rw [hmf]
          split <;> rfl
        have hmid : m.id = m0.id := by
          rw [hmf]
          split <;> rfl
        rw [hparq] at hp
        obtain ⟨hplt, pn, hpn, hpc⟩ := hc.llCoh.parentOK m0 hm0 p hp
        refine ⟨by rw [hmid]; exact hplt, _, hLlkOld p pn hpn, ?_⟩
        rw [hmid]
        split
        · exact List.mem_append_left _ hpc
        · exact hpc
      · obtain ⟨hmidN, hpar, _, _, _, _⟩ := hmemNN m hm
        rw [hpar] at hp
        injection hp with hp
        subst hp
        refine ⟨?_, { c with children := c.children ++ newIds }, ?_, ?_⟩
        · have := hNfresh m.id hmidN
          omega
        · have hx := hLlkOld cid c hclk
          rw [if_pos hcid] at hx
          exact hx
        · exact List.mem_append_right _ hmidN
  have hstab : ∀ (i : Nat) (m : LLNode), lookupLL l.llArena i = some m →
      ∃ m', lookupLL ((updateLL l.llArena cid fun m =>
        { m with children := m.children ++ newIds }) ++ newNodes) i =
        some m' ∧ SameChainFields m m' := by
    intro i m hm
    refine ⟨_, hLlkOld i m hm, ?_⟩
    split <;> exact ⟨rfl, rfl, rfl⟩
  have hchainstab : ∀ (cfg : List Nat) (i : Nat),
      ChainOKId l.graph l.llArena l.agents.length cfg i →
      ChainOKId l.graph ((updateLL l.llArena cid fun m =>
        { m with children := m.children ++ newIds }) ++ newNodes)
        l.agents.length cfg i :=
    fun cfg i hx => chainOKId_stable hstab hx
  have hrootstab : ∀ (i : Nat) (m : LLNode), lookupLL l.llArena i = some m →
      rootOf ((updateLL l.llArena cid fun m =>
        { m with children := m.children ++ newIds }) ++ newNodes) i =
      rootOf l.llArena i := by
    refine rootOf_stable hc.llCoh hcoh' ?_
    intro j m hm
    refine ⟨_, hLlkOld j m hm, ?_⟩
    split <;> rfl
  have hnewChain : ∀ m ∈ newNodes,
      ChainOKId l.graph ((updateLL l.llArena cid fun m =>
        { m with children := m.children ++ newIds }) ++ newNodes)
        l.agents.length n.config m.id := by
    intro m hm
    obtain ⟨hmidN, hpar, hwho, _, _, v, hvmv, hwv⟩ := hmemNN m hm
    refine ChainOKId.cons m.id m agentId v cid (hNNlookup m hm) hwho hwv
      hagN ⟨currentVertex, hvert, hmoveOK v hvmv⟩ hpar ?_ ?_
    · have := hNfresh m.id hmidN
      omega
    · exact hchainstab n.config cid hchain
  have hnewRoot : ∀ m ∈ newNodes,
      rootOf ((updateLL l.llArena cid fun m =>
        { m with children := m.children ++ newIds }) ++ newNodes) m.id =
      n.treeRoot := by
    intro m hm
    obtain ⟨hmidN, hpar, _, _, _, _⟩ := hmemNN m hm
    rw [rootOf_parent hcoh' (hNNlookup m hm) hpar, hrootstab cid c hclk]
    exact hrootc
  refine inv_rest_mono _ _ hfullKeep ?_ rfl rfl rfl le_rfl
    (Nat.le_add_right _ _) ?_
  · show CoreInvP l.graph l.agents
      (updateHL l.hlArena nid fun m => { m with tree := m.tree ++ newIds })
      ((updateLL l.llArena cid fun m =>
        { m with children := m.children ++ newIds }) ++ newNodes)
      l.openS l.explored (some nid) (some cid) l.generatedConfig
      Phase.generate l.status l.solution
    refine ⟨?_, hcoh', ?_, ?_, ?_, ?_, ?_, ?_, ?_, ?_, ?_, ?_, ?_, ?_, ?_,
      ?_, ?_, ?_⟩
    · rw [updateHL_ids l.hlArena nid _ hfT]
      exact hc.hlNodup
    · intro m hm
      rcases List.mem_append.mp hm with hm | hm
      · obtain ⟨m0, hm0, hmf⟩ := updateLL_mem_form hm
        have hd : m.depth = m0.depth := by
          rw [hmf]
          split <;> rfl
        rw [hd]
        exact hc.llDepth m0 hm0
      · have hd := (hmemNN m hm).2.2.2.2.1
        rw [hd]
        omega
    · intro m hm w hw
      rcases List.mem_append.mp hm with hm | hm
      · obtain ⟨m0, hm0, hmf⟩ := updateLL_mem_form hm
        have hwho : m.who = m0.who := by
          rw [hmf]
          split <;> rfl
        have hwv : m.whereV = m0.whereV := by
          rw [hmf]
          split <;> rfl
        rw [hwho] at hw
        obtain ⟨v, hv, hvm⟩ := hc.llWhere m0 hm0 w hw
        exact ⟨v, by rw [hwv]; exact hv, hvm⟩
      · obtain ⟨_, _, hwho, _, _, v, hvmv, hwv⟩ := hmemNN m hm
        exact ⟨v, hwv, hmoveV v hvmv⟩
    · intro m hm
      obtain ⟨m0, hm0, hmf⟩ := updateHL_mem_form hm
      have hcfg : m.config = m0.config := by
        rw [hmf]
        split <;> rfl
      rw [hcfg]
      exact hc.hlCfgLen m0 hm0
    · intro m hm
      obtain ⟨m0, hm0, hmf⟩ := updateHL_mem_form hm
      have hcfg : m.config = m0.config := by
        rw [hmf]
        split <;> rfl
      rw [hcfg]
      exact hc.hlCfgMem m0 hm0
    · intro m hm
      obtain ⟨m0, hm0, hmf⟩ := updateHL_mem_form hm
      have hordq : m.order = m0.order := by
        rw [hmf]
        split <;> rfl
      rw [hordq]
      exact hc.hlOrder m0 hm0
    · intro m hm
      obtain ⟨m0, hm0, hmf⟩ := updateHL_mem_form hm
      have htr : m.treeRoot = m0.treeRoot := by
        rw [hmf]
        split <;> rfl
      obtain ⟨r, nr, hr, hrlk, hrp⟩ := hc.hlRoot m0 hm0
      refine ⟨r, if nr.id = cid
          then { nr with children := nr.children ++ newIds } else nr,
        by rw [htr]; exact hr, hLlkOld r nr hrlk, ?_⟩
      split <;> exact hrp
    · intro m hm m2 hm2 hne
      obtain ⟨m0, hm0, hmf⟩ := updateHL_mem_form hm
      obtain ⟨m20, hm20, hmf2⟩ := updateHL_mem_form hm2
      have hid : m.id = m0.id := by
        rw [hmf]
        split <;> rfl
      have hid2 : m2.id = m20.id := by
        rw [hmf2]
        split <;> rfl
      have htr : m.treeRoot = m0.treeRoot := by
        rw [hmf]
        split <;> rfl
      have htr2 : m2.treeRoot = m20.treeRoot := by
        rw [hmf2]
        split <;> rfl
      rw [hid, hid2] at hne
      rw [htr, htr2]
      exact hc.hlRootUniq m0 hm0 m20 hm20 hne
    · intro m hm i hi
      obtain ⟨m0, hm0, hmf⟩ := updateHL_mem_form hm
      have hcfg : m.config = m0.config := by
        rw [hmf]
        split <;> rfl
      have htr : m.treeRoot = m0.treeRoot := by
        rw [hmf]
        split <;> rfl
      by_cases hq : m0.id = nid
      · have hm0n : m0 = n := by
          have hx := lookupHLA_of_mem hc.hlNodup hm0
          rw [hq] at hx
          rw [hx] at hlk
          injection hlk with hlk
        have hitree : i ∈ m0.tree ++ newIds := by
          revert hi
          rw [hmf, if_pos hq]
          intro hi
          exact hi
        rcases List.mem_append.mp hitree with hiold | hinew
        · obtain ⟨hchain0, hroot0⟩ := hc.hlTree m0 hm0 i hiold
          obtain ⟨ni, hni2⟩ := chainOK_lookup hchain0
          refine ⟨by rw [hcfg]; exact hchainstab m0.config i hchain0, ?_⟩
          rw [htr, hrootstab i ni hni2]
          exact hroot0
        · obtain ⟨mN, hmN, hmNid⟩ := hNNofId i hinew
          refine ⟨?_, ?_⟩
          · rw [hcfg, hm0n, ← hmNid]
            exact hnewChain mN hmN
          · rw [htr, hm0n, ← hmNid]
            exact hnewRoot mN hmN
      · have hitree : i ∈ m0.tree := by
          revert hi
          rw [hmf, if_neg hq]
          intro hi
          exact hi
        obtain ⟨hchain0, hroot0⟩ := hc.hlTree m0 hm0 i hitree
        obtain ⟨ni, hni2⟩ := chainOK_lookup hchain0
        refine ⟨by rw [hcfg]; exact hchainstab m0.config i hchain0, ?_⟩
        rw [htr, hrootstab i ni hni2]
        exact hroot0
    · intro m hm
      obtain ⟨m0, hm0, hmf⟩ := updateHL_mem_form hm
      have hparq : m.parent = m0.parent := by
        rw [hmf]
        split <;> rfl
      have hcfg : m.config = m0.config := by
        rw [hmf]
        split <;> rfl
      have hid : m.id = m0.id := by
        rw [hmf]
        split <;> rfl
      constructor
      · intro hnone
        rw [hparq] at hnone
        rw [hcfg]
        exact (hc.hlParent m0 hm0).1 hnone
      · intro p hp
        rw [hparq] at hp
        obtain ⟨hplt, pn, hpn, cs, hcs, hgen⟩ := (hc.hlParent m0 hm0).2 p hp
        refine ⟨by rw [hid]; exact hplt,
          if pn.id = nid then { pn with tree := pn.tree ++ newIds } else pn,
          by rw [hlkH p, hpn]; rfl, cs, ?_, ?_⟩
        · split <;> exact hcs
        · split <;> (rw [hcfg]; exact hgen)
    · intro m hm
      obtain ⟨m0, hm0, hmf⟩ := updateHL_mem_form hm
      have hid : m.id = m0.id := by
        rw [hmf]
        split <;> rfl
      rw [hid]
      exact hc.hlInExplored m0 hm0
    · intro i hi
      obtain ⟨n0, hn0⟩ := hc.openOK i hi
      exact ⟨_, by rw [hlkH i, hn0]; rfl⟩
    · intro hq
      cases hq
    · intro hq
      cases hq
    · intro _
      have hx := hLlkOld cid c hclk
      rw [if_pos hcid] at hx
      refine ⟨nid, { n with tree := n.tree ++ newIds }, cid,
        { c with children := c.children ++ newIds }, rfl, ?_, rfl, hx,
        ?_, ?_⟩
      · rw [hlkH nid, hlk]
        simp only [Option.map]
        rw [if_pos hnid]
      · exact hchainstab n.config cid hchain
      · rw [hrootstab cid c hclk]
        exact hrootc
    · intro hq
      cases hq
    · intro hs
      exact hc.solvedOK hs
  · constructor
    · intro m hm
      obtain ⟨m0, hm0, hmf⟩ := updateHL_mem_form hm
      have hid : m.id = m0.id := by
        rw [hmf]
        split <;> rfl
      rw [hid]
      exact hctr.1 m0 hm0
    · intro m hm
      rcases List.mem_append.mp hm with hm | hm
      · obtain ⟨m0, hm0, hmf⟩ := updateLL_mem_form hm
        have hid : m.id = m0.id := by
          rw [hmf]
          split <;> rfl
        rw [hid]
        have := hctr.2 m0 hm0
        show m0.id < l.llCtr + moves.length
        omega
      · exact hNbound m.id (hmemNN m hm).1

theorem inv_stepExpandTree (g : Graph) (agents : List Agent) (hwf : g.WF)
    {l : LaCAM} (h : Inv g agents l) (hph : l.phase = Phase.expand_tree) :
    Inv g agents (stepExpandTree l).1 := by
  have hfull := h
  obtain ⟨hg, ha, hc, hctr, hsids, hhist, hlen1, hlen200⟩ := h
  subst hg
  subst ha
  obtain ⟨nid, n, cid, c, hcur, hlk, hcurL, hclk, hchain, hrootc⟩ :=
    hc.phaseExpGen (Or.inl hph)
  unfold stepExpandTree
  rw [hcur, hcurL]
  dsimp only
  have hlk' : lookupHL l nid = some n := hlk
  rw [hlk', hclk]
  dsimp only
  by_cases hlt : c.depth < l.agents.length
  · rw [if_pos hlt]
    have hOlen : n.order.length = l.agents.length :=
      ((hc.hlOrder n (lookupHLA_mem hlk).1).length_eq).trans
        (List.length_range _)
    cases hA : n.order[c.depth]? with
    | none =>
      exfalso
      have := List.getElem?_eq_none_iff.mp hA
      omega
    | some agentId =>
      dsimp only
      have hagent : agentId ∈ n.order := List.getElem?_mem hA
      have hClen : n.config.length = l.agents.length :=
        hc.hlCfgLen n (lookupHLA_mem hlk).1
      have hagN : agentId < l.agents.length := by
        have := (hc.hlOrder n (lookupHLA_mem hlk).1).mem_iff.mp hagent
        exact List.mem_range.mp this
      cases hV : n.config[agentId]? with
      | none =>
        exfalso
        have := List.getElem?_eq_none_iff.mp hV
        omega
      | some currentVertex =>
        dsimp only
        exact inv_expand_branch hwf hfull nid cid agentId currentVertex n c
          _ _ _ rfl rfl rfl hlk hclk hchain hrootc hlt hagent hV
  · rw [if_neg hlt]
    refine inv_rest_mono _ _ hfull ?_ rfl rfl rfl le_rfl le_rfl hctr
    refine coreInvP_reconfig hc _ _ _ _ _ _ _ (fun i hi => hi)
      (by intro hq; cases hq) ?_ ?_ ?_ hc.solvedOK
    · intro hq
      cases hq
    · intro _
      exact ⟨nid, n, cid, c, rfl, hlk, rfl, hclk, hchain, hrootc⟩
    · intro hq
      cases hq

/-- The fresh root constraint node of `stepCheck()`. -/
def checkLL (l : LaCAM) : LLNode :=
  { id := l.llCtr, parent := none, who := none, whereV := none,
    children := [], depth := 0, isSearched := false, isSelected := false }

/-- The fresh high-level node of `stepCheck()`. -/
def checkHL (l : LaCAM) (nid : Nat) (q : List Nat) : HLNode :=
  { id := l.hlCtr, config := q, treeRoot := some l.llCtr,
    tree := [l.llCtr], order := getOrder l.graph l.agents q,
    parent := some nid }

/-- Invariant preservation across the node-creating branch of
`stepCheck()`. -/
theorem inv_check_branch {l : LaCAM} (hwf : l.graph.WF)
    (hfull : Inv l.graph l.agents l) (nid : Nat) (pn : HLNode) (q : List Nat)
    (hlk : lookupHLA l.hlArena nid = some pn)
    (hcs : ∃ cs, CsOK l.graph pn.config l.agents.length cs ∧
      generateConfig l.graph l.agents pn.config cs = some q) :
    Inv l.graph l.agents
      { l with
          llArena := l.llArena ++ [checkLL l],
          llCtr := l.llCtr + 1,
          hlArena := l.hlArena ++ [checkHL l nid q],
          hlCtr := l.hlCtr + 1,
          openS := l.openS ++ [(checkHL l nid q).id],
          explored := l.explored ++ [(q, (checkHL l nid q).id)],
          currentHL := some nid,
          generatedConfig := some q,
          nodesGenerated := l.nodesGenerated + 1,
          configurationsExplored := l.configurationsExplored + 1,
          phase := Phase.select } := by
  have hfullKeep := hfull
  obtain ⟨_, _, hc, hctr, hsids, hhist, hlen1, hlen200⟩ := hfull
  have hpnmem := (lookupHLA_mem hlk).1
  have hnidlt : nid < l.hlCtr := by
    have h1 := hctr.1 pn hpnmem
    have h2 := (lookupHLA_mem hlk).2
    omega
  obtain ⟨cs, hcsok, hgen⟩ := hcs
  obtain ⟨hqlen, hqmem⟩ := generateConfig_wf hwf (hc.hlCfgLen pn hpnmem)
    (hc.hlCfgMem pn hpnmem) hcsok hgen
  have hLfresh : ∀ m ∈ l.llArena, m.id ≠ l.llCtr := by
    intro m hm
    have := hctr.2 m hm
    omega
  have hHfresh : ∀ m ∈ l.hlArena, m.id ≠ l.hlCtr := by
    intro m hm
    have := hctr.1 m hm
    omega
  have hCLlk : lookupLL (l.llArena ++ [checkLL l]) l.llCtr =
      some (checkLL l) := by
    rw [lookupLL_append_right hLfresh [checkLL l]]
    unfold lookupLL
    rw [List.find?_cons_of_pos _ (by simp [checkLL])]
  have hCHlk : lookupHLA (l.hlArena ++ [checkHL l nid q]) l.hlCtr =
      some (checkHL l nid q) := by
    rw [lookupHLA_append_right hHfresh [checkHL l nid q]]
    unfold lookupHLA
    rw [List.find?_cons_of_pos _ (by simp [checkHL])]
  have hstab : ∀ (i : Nat) (m : LLNode), lookupLL l.llArena i = some m →
      ∃ m', lookupLL (l.llArena ++ [checkLL l]) i = some m' ∧
        SameChainFields m m' :=
    fun i m hm => ⟨m, lookupLL_append_of_some hm _, rfl, rfl, rfl⟩
  have hcoh' : LLCoh (l.llArena ++ [checkLL l]) := by
    refine ⟨?_, ?_, ?_⟩
    · rw [List.map_append]
      refine List.Nodup.append hc.llCoh.nodup (by simp) ?_
      intro a ha hb
      obtain ⟨m, hm, hma⟩ := List.mem_map.mp ha
      simp only [List.map_cons, List.map_nil, List.mem_singleton] at hb
      refine hLfresh m hm ?_
      rw [hma]
      exact hb
    · intro m hm
      rcases List.mem_append.mp hm with hm | hm
      · obtain ⟨hcnd, hcall⟩ := hc.llCoh.childOK m hm
        refine ⟨hcnd, fun ch hch => ?_⟩
        obtain ⟨hlt2, cn, hcn, hcnp, hcnd2⟩ := hcall ch hch
        exact ⟨hlt2, cn, lookupLL_append_of_some hcn _, hcnp, hcnd2⟩
      · rw [List.mem_singleton.mp hm]
        exact ⟨List.nodup_nil, fun ch hch => absurd hch (List.not_mem_nil ch)⟩
    · intro m hm p hp
      rcases List.mem_append.mp hm with hm | hm
      · obtain ⟨hlt2, pn2, hpn2, hpc2⟩ := hc.llCoh.parentOK m hm p hp
        exact ⟨hlt2, pn2, lookupLL_append_of_some hpn2 _, hpc2⟩
      · rw [List.mem_singleton.mp hm] at hp
        cases hp
  have hchainstab : ∀ (cfg : List Nat) (i : Nat),
      ChainOKId l.graph l.llArena l.agents.length cfg i →
      ChainOKId l.graph (l.llArena ++ [checkLL l]) l.agents.length cfg i :=
    fun cfg i hx => chainOKId_stable hstab hx
  have hrootstab : ∀ (i : Nat) (m : LLNode), lookupLL l.llArena i = some m →
      rootOf (l.llArena ++ [checkLL l]) i = rootOf l.llArena i := by
    refine rootOf_stable hc.llCoh hcoh' ?_
    intro j m hm
    exact ⟨m, lookupLL_append_of_some hm _, rfl⟩
  have hHstab : ∀ (i : Nat) (m : HLNode), lookupHLA l.hlArena i = some m →
      lookupHLA (l.hlArena ++ [checkHL l nid q]) i = some m :=
    fun i m hm => lookupHLA_append_of_some hm _
  refine inv_rest_mono _ _ hfullKeep ?_ rfl rfl rfl (Nat.le_succ _)
    (Nat.le_succ _) ?_
  · show CoreInvP l.graph l.agents (l.hlArena ++ [checkHL l nid q])
      (l.llArena ++ [checkLL l]) (l.openS ++ [(checkHL l nid q).id])
      (l.explored ++ [(q, (checkHL l nid q).id)]) (some nid) l.currentLL
      (some q) Phase.select l.status l.solution
    refine ⟨?_, hcoh', ?_, ?_, ?_, ?_, ?_, ?_, ?_, ?_, ?_, ?_, ?_, ?_, ?_,
      ?_, ?_, ?_⟩
    · rw [List.map_append]
      refine List.Nodup.append hc.hlNodup (by simp) ?_
      intro a ha hb
      obtain ⟨m, hm, hma⟩ := List.mem_map.mp ha
      simp only [List.map_cons, List.map_nil, List.mem_singleton] at hb
      refine hHfresh m hm ?_
      rw [hma]
      exact hb
    · intro m hm
      rcases List.mem_append.mp hm with hm | hm
      · exact hc.llDepth m hm
      · rw [List.mem_singleton.mp hm]
        exact Nat.zero_le _
    · intro m hm w hw
      rcases List.mem_append.mp hm with hm | hm
      · exact hc.llWhere m hm w hw
      · rw [List.mem_singleton.mp hm] at hw
        cases hw
    · intro m hm
      rcases List.mem_append.mp hm with hm | hm
      · exact hc.hlCfgLen m hm
      · rw [List.mem_singleton.mp hm]
        exact hqlen
    · intro m hm
      rcases List.mem_append.mp hm with hm | hm
      · exact hc.hlCfgMem m hm
      · rw [List.mem_singleton.mp hm]
        exact hqmem
    · intro m hm
      rcases List.mem_append.mp hm with hm | hm
      · exact hc.hlOrder m hm
      · rw [List.mem_singleton.mp hm]
        exact getOrder_perm _ _ _
    · intro m hm
      rcases List.mem_append.mp hm with hm | hm
      · obtain ⟨r, nr, hr, hrlk, hrp⟩ := hc.hlRoot m hm
        exact ⟨r, nr, hr, lookupLL_append_of_some hrlk _, hrp⟩
      · rw [List.mem_singleton.mp hm]
        exact ⟨l.llCtr, checkLL l, rfl, hCLlk, rfl⟩
    · intro m hm m2 hm2 hne
      have hRold : ∀ m3 ∈ l.hlArena, ∃ r3, m3.treeRoot = some r3 ∧
          r3 < l.llCtr := by
        intro m3 hm3
        obtain ⟨r3, nr3, hr3, hrlk3, _⟩ := hc.hlRoot m3 hm3
        refine ⟨r3, hr3, ?_⟩
        have h1 := hctr.2 nr3 (lookupLL_mem hrlk3).1
        have h2 := (lookupLL_mem hrlk3).2
        omega
      rcases List.mem_append.mp hm with hm | hm <;>
        rcases List.mem_append.mp hm2 with hm2 | hm2
      · exact hc.hlRootUniq m hm m2 hm2 hne
      · rw [List.mem_singleton.mp hm2]
        obtain ⟨r3, hr3, hlt3⟩ := hRold m hm
        rw [hr3]
        show some r3 ≠ some l.llCtr
        intro hcq
        injection hcq with hcq
        omega
      · rw [List.mem_singleton.mp hm]
        obtain ⟨r3, hr3, hlt3⟩ := hRold m2 hm2
        rw [hr3]
        show some l.llCtr ≠ some r3
        intro hcq
        injection hcq with hcq
        omega
      · rw [List.mem_singleton.mp hm, List.mem_singleton.mp hm2] at hne
        exact absurd rfl hne
    · intro m hm i hi
      rcases List.mem_append.mp hm with hm | hm
      · obtain ⟨hchain0, hroot0⟩ := hc.hlTree m hm i hi
        obtain ⟨ni, hni2⟩ := chainOK_lookup hchain0
        refine ⟨hchainstab m.config i hchain0, ?_⟩
        rw [hrootstab i ni hni2]
        exact hroot0
      · rw [List.mem_singleton.mp hm] at hi ⊢
        have hi' : i = l.llCtr := List.mem_singleton.mp hi
        subst hi'
        refine ⟨ChainOKId.root _ _ hCLlk rfl, ?_⟩
        rw [rootOf_root hCLlk rfl]
        rfl
    · intro m hm
      rcases List.mem_append.mp hm with hm | hm
      · refine ⟨fun hnone => (hc.hlParent m hm).1 hnone, ?_⟩
        intro p hp
        obtain ⟨hplt, pn2, hpn2, cs2, hcs2, hgen2⟩ :=
          (hc.hlParent m hm).2 p hp
        exact ⟨hplt, pn2, hHstab p pn2 hpn2, cs2, hcs2, hgen2⟩
      · rw [List.mem_singleton.mp hm]
        constructor
        · intro hnone
          cases hnone
        · intro p hp
          have hpe : p = nid := by
            have : (checkHL l nid q).parent = some nid := rfl
            rw [this] at hp
            injection hp with hp
            exact hp.symm
          subst hpe
          exact ⟨hnidlt, pn, hHstab p pn hlk, cs, hcsok, hgen⟩
    · intro m hm
      rw [List.map_append]
      rcases List.mem_append.mp hm with hm | hm
      · exact List.mem_append_left _ (hc.hlInExplored m hm)
      · rw [List.mem_singleton.mp hm]
        refine List.mem_append_right _ ?_
        simp
    · intro i hi
      rcases List.mem_append.mp hi with hi | hi
      · obtain ⟨n0, hn0⟩ := hc.openOK i hi
        exact ⟨n0, hHstab i n0 hn0⟩
      · rw [List.mem_singleton.mp hi]
        exact ⟨checkHL l nid q, hCHlk⟩
    · intro hq
      cases hq
    · intro hq
      cases hq
    · intro hq
      rcases hq with hq | hq <;> cases hq
    · intro hq
      cases hq
    · intro hs
      exact hc.solvedOK hs
  · constructor
    · intro m hm
      rcases List.mem_append.mp hm with hm | hm
      · have := hctr.1 m hm
        show m.id < l.hlCtr + 1
        omega
      · rw [List.mem_singleton.mp hm]
        show l.hlCtr < l.hlCtr + 1
        omega
    · intro m hm
      rcases List.mem_append.mp hm with hm | hm
      · have := hctr.2 m hm
        show m.id < l.llCtr + 1
        omega
      · rw [List.mem_singleton.mp hm]
        show l.llCtr < l.llCtr + 1
        omega

theorem inv_stepCheck (g : Graph) (agents : List Agent) (hwf : g.WF)
    {l : LaCAM} (h : Inv g agents l) (hph : l.phase = Phase.check) :
    Inv g agents (stepCheck l).1 := by
  have hfull := h
  obtain ⟨hg, ha, hc, hctr, hsids, hhist, hlen1, hlen200⟩ := h
  subst hg
  subst ha
  obtain ⟨nid, pn, q, hcur, hlk, hgc, hcs⟩ := hc.phaseCheck hph
  unfold stepCheck
  rw [hgc, hcur]
  dsimp only
  cases hexpl : l.explored.any (fun pr => pr.1 == q) with
  | true =>
    rw [if_pos rfl]
    refine inv_rest_mono _ _ hfull ?_ rfl rfl rfl le_rfl le_rfl hctr
    refine coreInvP_reconfig hc _ _ _ _ _ _ _ (fun i hi => hi)
      (by intro hq2; cases hq2) ?_ ?_ ?_ hc.solvedOK
    · intro hq2
      cases hq2
    · intro hq2
      rcases hq2 with hq2 | hq2 <;> cases hq2
    · intro hq2
      cases hq2
  | false =>
    rw [if_neg Bool.false_ne_true]
    exact inv_check_branch hwf hfull nid pn q hlk hcs

theorem inv_step (g : Graph) (agents : List Agent) (hwf : g.WF) {l : LaCAM}
    (h : Inv g agents l) : Inv g agents (step l).1 := by
  have hfull := h
  obtain ⟨hg, ha, hc, hctr, hsids, hhist, hlen1, hlen200⟩ := h
  unfold step
  by_cases hst : l.status ≠ Status.running
  · rw [if_pos hst]
    exact hfull
  · rw [if_neg hst]
    dsimp only
    have hl2 : Inv g agents
        { saveHistory l with stepNumber := l.stepNumber + 1 } :=
      inv_saveHistory g agents hfull
    split
    next heq => exact inv_stepSelect g agents hl2 heq
    next heq => exact inv_stepPopConstraint g agents hl2 heq
    next heq => exact inv_stepExpandTree g agents hwf hl2 heq
    next heq => exact inv_stepGenerate g agents hl2 heq
    next heq => exact inv_stepCheck g agents hwf hl2 heq
    next heq => exact absurd heq hc.phaseNotInit

theorem inv_stepBack (g : Graph) (agents : List Agent) {l : LaCAM}
    (h : Inv g agents l) : Inv g agents (stepBack l).1 := by
  have hfull := h
  obtain ⟨hg, ha, hc, hctr, hsids, hhist, hlen1, hlen200⟩ := h
  unfold stepBack
  by_cases hlen : l.history.length > 1
  · rw [if_pos hlen]
    dsimp only
    cases hlast : l.history.dropLast.getLast? with
    | none =>
      exfalso
      have h0 : l.history.dropLast = [] := List.getLast?_eq_none_iff.mp hlast
      have := congrArg List.length h0
      rw [List.length_dropLast] at this
      simp at this
      omega
    | some prev =>
      dsimp only
      have hprevmem : prev ∈ l.history :=
        (List.dropLast_sublist _).subset (List.mem_of_mem_getLast? hlast)
      refine ⟨hg, ha, ?_, ?_, ?_, ?_, ?_, ?_⟩
      · exact coreInv_restore_congr g agents l _ prev (hhist prev hprevmem)
      · constructor
        · intro m hm
          have hm' : m ∈ restoredHL prev := hm
          obtain ⟨d, hd, hmd⟩ := List.mem_map.mp hm'
          have hid : m.id = d.id := by
            rw [← hmd]
            rfl
          have := (hsids prev hprevmem d hd).1
          show m.id < l.hlCtr + prev.nodes.length
          omega
        · intro m hm
          have hm' : m ∈ restoredLL prev := hm
          obtain ⟨d, hd, hmd⟩ := List.mem_flatMap.mp hm'
          exact (hsids prev hprevmem d hd).2 m hmd
      · intro snap hsnap d hd
        have hsnap' : snap ∈ l.history :=
          (List.dropLast_sublist _).subset hsnap
        obtain ⟨h1, h2⟩ := hsids snap hsnap' d hd
        refine ⟨?_, h2⟩
        show d.id < l.hlCtr + prev.nodes.length
        omega
      · intro snap hsnap
        have hsnap' : snap ∈ l.history :=
          (List.dropLast_sublist _).subset hsnap
        exact coreInv_restore_congr g agents l _ snap (hhist snap hsnap')
      · show 1 ≤ l.history.dropLast.length
        rw [List.length_dropLast]
        omega
      · show l.history.dropLast.length ≤ 200
        rw [List.length_dropLast]
        omega
  · rw [if_neg hlen]
    exact hfull

/-- The reachable solver states: any `initialize()` on the given problem,
closed under `step()`, `stepBack()` and `reset()`. -/
inductive Reach (g : Graph) (agents : List Agent) : LaCAM → Prop
  | init (l0 : LaCAM) (hg : l0.graph = g) (ha : l0.agents = agents) :
      Reach g agents (initSolver l0)
  | step {l : LaCAM} (h : Reach g agents l) : Reach g agents (step l).1
  | back {l : LaCAM} (h : Reach g agents l) : Reach g agents (stepBack l).1
  | reset {l : LaCAM} (h : Reach g agents l) : Reach g agents (reset l)

/-- The master invariant theorem: `Inv` holds in every reachable state. -/
theorem reach_inv (g : Graph) (agents : List Agent) (hwf : g.WF)
    (hag : AgentsWF g agents) {l : LaCAM} (h : Reach g agents l) :
    Inv g agents l := by
  induction h with
  | init l0 hg ha => exact inv_initSolver g agents hwf hag hg ha
  | step h ih => exact inv_step g agents hwf ih
  | back h ih => exact inv_stepBack g agents ih
  | reset h ih => exact inv_initSolver g agents hwf hag ih.1 ih.2.1

/-! ## Frame lemmas: no solver operation touches `graph` or `agents` -/

theorem saveHistory_frame (l : LaCAM) :
    (saveHistory l).graph = l.graph ∧ (saveHistory l).agents = l.agents :=
  ⟨rfl, rfl⟩

theorem restoreFromSnapshot_frame (l : LaCAM) (snap : Snapshot) :
    (restoreFromSnapshot l snap).graph = l.graph ∧
    (restoreFromSnapshot l snap).agents = l.agents :=
  ⟨rfl, rfl⟩

theorem initSolver_frame (l : LaCAM) :
    (initSolver l).graph = l.graph ∧ (initSolver l).agents = l.agents :=
  ⟨rfl, rfl⟩

theorem stepSelect_frame (l : LaCAM) :
    (stepSelect l).1.graph = l.graph ∧ (stepSelect l).1.agents = l.agents := by
  unfold stepSelect
  repeat' split
  all_goals exact ⟨rfl, rfl⟩

theorem stepPopConstraint_frame (l : LaCAM) :
    (stepPopConstraint l).1.graph = l.graph ∧
    (stepPopConstraint l).1.agents = l.agents := by
  unfold stepPopConstraint
  repeat' split
  all_goals exact ⟨rfl, rfl⟩

theorem stepExpandTree_frame (l : LaCAM) :
    (stepExpandTree l).1.graph = l.graph ∧
    (stepExpandTree l).1.agents = l.agents := by
  unfold stepExpandTree
  repeat' split
  all_goals exact ⟨rfl, rfl⟩

theorem stepGenerate_frame (l : LaCAM) :
    (stepGenerate l).1.graph = l.graph ∧
    (stepGenerate l).1.agents = l.agents := by
  unfold stepGenerate
  repeat' split
  all_goals exact ⟨rfl, rfl⟩

theorem stepCheck_frame (l : LaCAM) :
    (stepCheck l).1.graph = l.graph ∧ (stepCheck l).1.agents = l.agents := by
  unfold stepCheck
  repeat' split
  all_goals exact ⟨rfl, rfl⟩

theorem step_frame (l : LaCAM) :
    (step l).1.graph = l.graph ∧ (step l).1.agents = l.agents := by
  unfold step
  split
  · exact ⟨rfl, rfl⟩
  · dsimp only
    split
    · exact ⟨(stepSelect_frame _).1.trans rfl, (stepSelect_frame _).2.trans rfl⟩
    · exact ⟨(stepPopConstraint_frame _).1.trans rfl,
        (stepPopConstraint_frame _).2.trans rfl⟩
    · exact ⟨(stepExpandTree_frame _).1.trans rfl,
        (stepExpandTree_frame _).2.trans rfl⟩
    · exact ⟨(stepGenerate_frame _).1.trans rfl, (stepGenerate_frame _).2.trans rfl⟩
    · exact ⟨(stepCheck_frame _).1.trans rfl, (stepCheck_frame _).2.trans rfl⟩
    · exact ⟨rfl, rfl⟩

theorem stepBack_frame (l : LaCAM) :
    (stepBack l).1.graph = l.graph ∧ (stepBack l).1.agents = l.agents := by
  unfold stepBack
  split
  · dsimp only
    split
    all_goals exact ⟨rfl, rfl⟩
  · exact ⟨rfl, rfl⟩

/-! ## Claim predicates -/

/-- Successor validity of `generateConfig(Q, K) = Q1`: right length, pairwise
distinct positions, constrained agents placed on their constraint verbatim,
unconstrained agents staying or crossing one edge, and no swap. -/
def SuccessorValid (g : Graph) (agents : List Agent) (cfg : List Nat)
    (cs : List (Nat × Nat)) (q : List Nat) : Prop :=
  q.length = agents.length ∧
  q.Nodup ∧
  (∀ i : Nat, i < agents.length → hasConstraint cs i = true →
    q[i]? = lookupConstraint cs i) ∧
  (∀ i : Nat, i < agents.length → hasConstraint cs i = false →
    ∃ cur np, cfg[i]? = some cur ∧ (np = cur ∨ np ∈ g.adj cur) ∧
      q[i]? = some np) ∧
  (∀ i j : Nat, i < j → j < agents.length →
    ¬(cfg[i]? = q[j]? ∧ cfg[j]? = q[i]?))

/-- The specification of `getDistance(from, to)` against hop counts:
`0` on equal arguments, the sentinel on a null argument, and on two distinct
vertices the sentinel exactly for unreachability and a finite value exactly
for the shortest walk length. -/
def DistanceSpec (g : Graph) (f t : Option Nat) : Prop :=
  (f = t → getDistance g f t = 0) ∧
  (f ≠ t → (f = none ∨ t = none) → getDistance g f t = ⊤) ∧
  (∀ u v : Nat, f = some u → t = some v → u ≠ v →
    ((getDistance g f t = ⊤ ↔ ∀ e, walkB g e u v = false) ∧
     ∀ d : Nat, getDistance g f t = (d : ℕ∞) ↔
       walkB g d u v = true ∧ ∀ e < d, walkB g e u v = false))

/-- A positive `hasConstraint` guarantees the lookup succeeds. -/
theorem hasConstraint_lookup {cs : List (Nat × Nat)} {i : Nat}
    (h : hasConstraint cs i = true) : ∃ v, lookupConstraint cs i = some v := by
  unfold hasConstraint at h
  obtain ⟨pr, hpr, hpi⟩ := List.any_eq_true.mp h
  have hne : cs.filter (·.1 == i) ≠ [] := by
    intro h0
    have hm : pr ∈ cs.filter (·.1 == i) := List.mem_filter.mpr ⟨hpr, hpi⟩
    rw [h0] at hm
    cases hm
  cases hl : (cs.filter (·.1 == i)).getLast? with
  | none => exact absurd (List.getLast?_eq_none_iff.mp hl) hne
  | some pr2 =>
    refine ⟨pr2.2, ?_⟩
    unfold lookupConstraint
    rw [hl]
    rfl

/-- Every hop of a stored solution is fully valid for *all* agents: the
constraint sets recorded along the search come from move sets, so even the
constrained agents stay or cross exactly one edge. -/
theorem solution_hop_valid (g : Graph) (agents : List Agent)
    (a b : List Nat)
    (h : ∃ cs, CsOK g a agents.length cs ∧
      generateConfig g agents a cs = some b) :
    b.length = agents.length ∧ b.Nodup ∧
    (∀ i : Nat, i < agents.length →
      ∃ cur np, a[i]? = some cur ∧ (np = cur ∨ np ∈ g.adj cur) ∧
        b[i]? = some np) ∧
    (∀ i j : Nat, i < j → j < agents.length →
      ¬(a[i]? = b[j]? ∧ a[j]? = b[i]?)) := by
  obtain ⟨cs, hcs, hgen⟩ := h
  obtain ⟨hl, hnd, hcon, huncon, hsw⟩ := generateConfig_spec g agents a cs b hgen
  refine ⟨hl, hnd, ?_, hsw⟩
  intro i hi
  cases hc : hasConstraint cs i with
  | false => exact huncon i hi hc
  | true =>
    obtain ⟨v, hv⟩ := hasConstraint_lookup hc
    have hqi : b[i]? = some v := by rw [hcon i hi hc, hv]
    obtain ⟨h1, qv, hqv, hmv⟩ := hcs (i, v) (lookupConstraint_mem hv)
    exact ⟨qv, v, hqv, hmv, hqi⟩

/-- The batch of children `stepExpandTree` allocates for agent `agentId`
standing on `currentVertex` under parent `cid` at depth `depth`. -/
def expandNodes (g : Graph) (llCtr cid agentId depth currentVertex : Nat) :
    List LLNode :=
  (List.zip ((List.range
      (currentVertex :: g.getNeighbors currentVertex).length).map
      fun k => llCtr + k)
    (currentVertex :: g.getNeighbors currentVertex)).map fun pr =>
    { id := pr.1, parent := some cid, who := some agentId,
      whereV := some pr.2, children := [], depth := depth + 1,
      isSearched := false, isSelected := false }

theorem expandNodes_ids (g : Graph)
    (llCtr cid agentId depth currentVertex : Nat) :
    (expandNodes g llCtr cid agentId depth currentVertex).map (·.id) =
    (List.range (currentVertex :: g.getNeighbors currentVertex).length).map
      fun k => llCtr + k := by
  unfold expandNodes
  rw [List.map_map]
  exact List.map_fst_zip _ _ (by simp)

theorem expandNodes_where (g : Graph)
    (llCtr cid agentId depth currentVertex : Nat) :
    (expandNodes g llCtr cid agentId depth currentVertex).map (·.whereV) =
    (currentVertex :: g.getNeighbors currentVertex).map some := by
  unfold expandNodes
  rw [List.map_map]
  have hco : ((·.whereV) ∘ fun pr : Nat × Nat =>
      ({ id := pr.1, parent := some cid, who := some agentId,
         whereV := some pr.2, children := [], depth := depth + 1,
         isSearched := false, isSelected := false } : LLNode)) =
      some ∘ Prod.snd := rfl
  rw [hco, ← List.map_map, List.map_snd_zip _ _ (by simp)]

theorem expandNodes_fields (g : Graph)
    (llCtr cid agentId depth currentVertex : Nat) :
    ∀ m ∈ expandNodes g llCtr cid agentId depth currentVertex,
      m.parent = some cid ∧ m.who = some agentId ∧
      m.depth = depth + 1 ∧ m.children = [] := by
  intro m hm
  obtain ⟨pr, hpr, hmr⟩ := List.mem_map.mp hm
  rw [← hmr]
  exact ⟨rfl, rfl, rfl, rfl⟩

/-- The two-vertex path graph `0 — 1` used by concrete instantiations. -/
def pathGraph : Graph :=
  ⟨[0, 1], fun v => if v = 0 then [1] else if v = 1 then [0] else []⟩

theorem pathGraph_wf : pathGraph.WF := by
  refine ⟨by decide, ?_, ?_, ?_, ?_, ?_⟩
  · intro v
    show List.Nodup (if v = 0 then [1] else if v = 1 then [0] else [])
    split_ifs <;> decide
  · intro v
    show v ∉ (if v = 0 then [1] else if v = 1 then [0] else [])
    split_ifs with h1 h2
    · subst h1; decide
    · subst h2; decide
    · simp
  · intro u v hv
    have hv' : v ∈ (if u = 0 then [1] else if u = 1 then [0] else []) := hv
    show u ∈ (if v = 0 then [1] else if v = 1 then [0] else [])
    split_ifs at hv' with h1 h2
    · subst h1
      simp at hv'
      subst hv'
      simp
    · subst h2
      simp at hv'
      subst hv'
      simp
    · exact absurd hv' (List.not_mem_nil v)
  · intro u v hv
    have hv' : v ∈ (if u = 0 then [1] else if u = 1 then [0] else []) := hv
    split_ifs at hv' with h1 h2
    · subst h1
      simp at hv'
      subst hv'
      exact ⟨by decide, by decide⟩
    · subst h2
      simp at hv'
      subst hv'
      exact ⟨by decide, by decide⟩
    · exact absurd hv' (List.not_mem_nil v)
  · intro v hv
    simp [pathGraph] at hv
    show (if v = 0 then [1] else if v = 1 then [0] else []) = []
    rw [if_neg hv.1, if_neg hv.2]

/-! ## Termination measure

`step()` terminates because the quadruple
(unexplored configurations, constraint-queue potential, phase rank,
OPEN length) decreases lexicographically on every non-terminal step. -/

/-- All length-`n` tuples over a vertex list: the finite universe of
configurations. -/
def tuples (verts : List Nat) : Nat → List (List Nat)
  | 0 => [[]]
  | n + 1 => verts.flatMap fun v => (tuples verts n).map (v :: ·)

theorem tuples_mem (verts : List Nat) :
    ∀ (n : Nat) (q : List Nat), q.length = n → (∀ v ∈ q, v ∈ verts) →
      q ∈ tuples verts n := by
  intro n
  induction n with
  | zero =>
    intro q hq _
    have : q = [] := List.eq_nil_of_length_eq_zero hq
    subst this
    simp [tuples]
  | succ n ih =>
    intro q hq hmem
    cases q with
    | nil => simp at hq
    | cons a t =>
      have ht : t.length = n := by simpa using hq
      have htm : t ∈ tuples verts n :=
        ih t ht fun v hv => hmem v (List.mem_cons_of_mem a hv)
      refine List.mem_flatMap.mpr ⟨a, hmem a (List.mem_cons_self a t), ?_⟩
      exact List.mem_map.mpr ⟨t, htm, rfl⟩

/-- A pointwise-weaker predicate that fails on a member where the stronger
one holds counts strictly fewer elements. -/
theorem countP_lt {α : Type} {L : List α} {p pw : α → Bool}
    (a0 : α) (ha0 : a0 ∈ L)
    (hmono : ∀ a ∈ L, pw a = true → p a = true)
    (hp : p a0 = true) (hpw : pw a0 = false) :
    L.countP pw < L.countP p := by
  revert hmono
  induction ha0 with
  | head rest =>
    intro hmono
    rw [List.countP_cons, List.countP_cons, hp, hpw, if_pos rfl,
      if_neg Bool.false_ne_true]
    have hle : rest.countP pw ≤ rest.countP p :=
      List.countP_mono_left fun x hx hh =>
        hmono x (List.mem_cons_of_mem _ hx) hh
    omega
  | tail b hmem ih =>
    intro hmono
    rw [List.countP_cons, List.countP_cons]
    have hrec := ih fun x hx hh => hmono x (List.mem_cons_of_mem b hx) hh
    have hhead : (if pw b = true then 1 else 0) ≤
        (if p b = true then 1 else 0) := by
      by_cases hb : pw b = true
      · rw [if_pos hb, if_pos (hmono b (List.mem_cons_self b _) hb)]
      · rw [if_neg hb]
        exact Nat.zero_le _
    omega

/-- Number of configurations not yet in EXPLORED. -/
def unexplored (l : LaCAM) : Nat :=
  (tuples l.graph.verts l.agents.length).countP
    fun q => !(l.explored.any fun pr => pr.1 == q)

/-- The depth of the id `i` in the arena (0 when absent). -/
def llDepthOf (arena : List LLNode) (i : Nat) : Nat :=
  match lookupLL arena i with
  | some m => m.depth
  | none => 0

/-- Weight of a queue entry: `K ^ (N - depth)`. -/
def entryW (K N : Nat) (arena : List LLNode) (i : Nat) : Nat :=
  K ^ (N - llDepthOf arena i)

/-- Potential of one high-level node's constraint queue. -/
def qpot (K N : Nat) (arena : List LLNode) (n : HLNode) : Nat :=
  (n.tree.map (entryW K N arena)).sum

/-- Between pop and expand the popped entry's weight is carried by the
phase itself. -/
def pendingPot (K N : Nat) (l : LaCAM) : Nat :=
  if l.phase = Phase.expand_tree then
    match l.currentLL with
    | some cid => entryW K N l.llArena cid
    | none => 0
  else 0

/-- Total queue potential of a state, with `K = |V| + 2`. -/
def queuePot (l : LaCAM) : Nat :=
  (l.hlArena.map
    (qpot (l.graph.verts.length + 2) l.agents.length l.llArena)).sum +
  pendingPot (l.graph.verts.length + 2) l.agents.length l

/-- Rank of a phase inside one select-…-check round. -/
def phaseRank : Phase → Nat
  | Phase.generate => 4
  | Phase.check => 3
  | Phase.select => 2
  | Phase.pop_constraint => 1
  | Phase.expand_tree => 0
  | Phase.init => 5

theorem pendingPot_not_expand {K N : Nat} {l : LaCAM}
    (h : l.phase ≠ Phase.expand_tree) : pendingPot K N l = 0 := by
  unfold pendingPot
  rw [if_neg h]

/-- Updating one keyed entry of a list changes a mapped sum by exactly the
change at that entry. -/
theorem map_sum_update {α : Type} (idf : α → Nat) (φ : α → Nat) (f : α → α)
    (i : Nat) :
    ∀ (L : List α), (L.map idf).Nodup →
      ∀ (n : α), L.find? (fun m => idf m == i) = some n →
      ((L.map fun m => if idf m = i then f m else m).map φ).sum + φ n =
      (L.map φ).sum + φ (f n) := by
  intro L
  induction L with
  | nil => intro _ n h; cases h
  | cons a rest ih =>
    intro hnd n h
    by_cases hai : idf a = i
    · rw [List.find?_cons_of_pos _ (by simp [hai])] at h
      injection h with h
      subst h
      simp only [List.map_cons, List.sum_cons]
      rw [if_pos hai]
      have hnotin : idf a ∉ rest.map idf := by
        have hx := hnd
        simp only [List.map_cons, List.nodup_cons] at hx
        exact hx.1
      have hrest : rest.map (fun m => if idf m = i then f m else m) =
          rest.map id := by
        apply List.map_congr_left
        intro m hm
        have hmi : ¬ idf m = i := by
          intro hmi
          exact hnotin ((hai.trans hmi.symm) ▸ List.mem_map_of_mem idf hm)
        rw [if_neg hmi]
        rfl
      rw [hrest, List.map_id]
      omega
    · rw [List.find?_cons_of_neg _ (by simp [hai])] at h
      simp only [List.map_cons, List.sum_cons]
      rw [if_neg hai]
      have hnd' : (rest.map idf).Nodup := by
        simp only [List.map_cons, List.nodup_cons] at hnd
        exact hnd.2
      have := ih hnd' n h
      omega

theorem qpot_congr {K N : Nat} {arena arena' : List LLNode} {n : HLNode}
    (h : ∀ i ∈ n.tree, llDepthOf arena' i = llDepthOf arena i) :
    qpot K N arena' n = qpot K N arena n := by
  unfold qpot
  exact congrArg List.sum (List.map_congr_left fun i hi => by
    unfold entryW
    rw [h i hi])

theorem llDepthOf_update {arena : List LLNode} {j : Nat} {f : LLNode → LLNode}
    (hf : ∀ m, (f m).id = m.id) (hd : ∀ m, (f m).depth = m.depth) (i : Nat) :
    llDepthOf (updateLL arena j f) i = llDepthOf arena i := by
  unfold llDepthOf
  rw [lookupLL_update arena j f hf i]
  cases lookupLL arena i with
  | none => rfl
  | some m =>
    simp only [Option.map]
    split_ifs with hx
    · exact hd m
    · rfl

theorem llDepthOf_append_of_some {arena : List LLNode} {i : Nat} {m : LLNode}
    (h : lookupLL arena i = some m) (new : List LLNode) :
    llDepthOf (arena ++ new) i = m.depth := by
  unfold llDepthOf
  rw [lookupLL_append_of_some h new]

theorem llDepthOf_update_append {arena : List LLNode} {i : Nat} {mi : LLNode}
    (h : lookupLL arena i = some mi) (f : LLNode → LLNode)
    (hf : ∀ m, (f m).id = m.id) (hd : ∀ m, (f m).depth = m.depth)
    (cid : Nat) (new : List LLNode) :
    llDepthOf (updateLL arena cid f ++ new) i = llDepthOf arena i := by
  have h2 : lookupLL (updateLL arena cid f) i =
      some (if mi.id = cid then f mi else mi) := by
    rw [lookupLL_update arena cid f hf i, h]
    rfl
  rw [llDepthOf_append_of_some h2 new]
  unfold llDepthOf
  rw [h]
  split_ifs with hx
  · exact hd mi
  · rfl

theorem llDepthOf_all {arena : List LLNode} {i dval : Nat}
    (hex : (arena.any fun m => m.id == i) = true)
    (hall : ∀ m ∈ arena, m.id = i → m.depth = dval) :
    llDepthOf arena i = dval := by
  unfold llDepthOf
  cases hfind : lookupLL arena i with
  | none =>
    obtain ⟨m, hm, hmi⟩ := List.any_eq_true.mp hex
    exact absurd hmi (List.find?_eq_none.mp hfind m hm)
  | some m =>
    obtain ⟨hmem, hid⟩ := lookupLL_mem hfind
    exact hall m hmem hid

theorem sum_map_const {α : Type} (L : List α) (c : Nat) :
    (L.map fun _ => c).sum = L.length * c := by
  induction L with
  | nil => simp
  | cons a t ih =>
    simp only [List.map_cons, List.sum_cons, List.length_cons, ih]
    ring

/-- Growing EXPLORED never increases the count of unexplored
configurations. -/
theorem unexplored_le {l l' : LaCAM} (hg : l'.graph = l.graph)
    (ha : l'.agents = l.agents)
    (hex : ∃ tail, l'.explored = l.explored ++ tail) :
    unexplored l' ≤ unexplored l := by
  unfold unexplored
  rw [hg, ha]
  obtain ⟨tail, htail⟩ := hex
  rw [htail]
  refine List.countP_mono_left fun q hq h => ?_
  simp only [List.any_append, Bool.not_eq_true', Bool.or_eq_false_iff] at h
  simp [h.1]

/-- Recording a fresh configuration strictly decreases the unexplored
count. -/
theorem unexplored_lt {l l' : LaCAM} (hg : l'.graph = l.graph)
    (ha : l'.agents = l.agents) (q : List Nat) (j : Nat)
    (hq : q ∈ tuples l.graph.verts l.agents.length)
    (hnew : (l.explored.any fun pr => pr.1 == q) = false)
    (hex : l'.explored = l.explored ++ [(q, j)]) :
    unexplored l' < unexplored l := by
  unfold unexplored
  rw [hg, ha, hex]
  refine countP_lt q hq ?_ ?_ ?_
  · intro a _ h
    simp only [List.any_append, Bool.not_eq_true', Bool.or_eq_false_iff] at h
    simp [h.1]
  · simp [hnew]
  · simp

/-- After popping the queue head `c` of node `nid`, the total arena
potential has shrunk by exactly the weight that the pending term of the
`expand_tree` phase now carries. -/
theorem queuePot_pop (l : LaCAM) (hnd : (l.hlArena.map (·.id)).Nodup)
    (nid : Nat) (n : HLNode) (c : Nat) (rest : List Nat)
    (hlk : lookupHLA l.hlArena nid = some n) (htr : n.tree = c :: rest) :
    queuePot { l with
      hlArena := updateHL l.hlArena nid fun m => { m with tree := rest },
      llArena := updateLL l.llArena c fun m =>
        { m with isSelected := true, isSearched := true },
      currentLL := some c,
      phase := Phase.expand_tree } =
    (l.hlArena.map
      (qpot (l.graph.verts.length + 2) l.agents.length l.llArena)).sum := by
  have hdep : ∀ i, llDepthOf (updateLL l.llArena c fun m =>
      { m with isSelected := true, isSearched := true }) i =
      llDepthOf l.llArena i :=
    llDepthOf_update (fun m => rfl) (fun m => rfl)
  have hW : ∀ i, entryW (l.graph.verts.length + 2) l.agents.length
      (updateLL l.llArena c fun m =>
        { m with isSelected := true, isSearched := true }) i =
      entryW (l.graph.verts.length + 2) l.agents.length l.llArena i := by
    intro i
    unfold entryW
    rw [hdep i]
  have hsum := map_sum_update (·.id)
    (qpot (l.graph.verts.length + 2) l.agents.length
      (updateLL l.llArena c fun m =>
        { m with isSelected := true, isSearched := true }))
    (fun m => { m with tree := rest }) nid l.hlArena hnd n hlk
  have hmapeq : l.hlArena.map
      (qpot (l.graph.verts.length + 2) l.agents.length
        (updateLL l.llArena c fun m =>
          { m with isSelected := true, isSearched := true })) =
      l.hlArena.map
        (qpot (l.graph.verts.length + 2) l.agents.length l.llArena) :=
    List.map_congr_left fun m _ => qpot_congr fun i _ => hdep i
  have hφn : qpot (l.graph.verts.length + 2) l.agents.length
      (updateLL l.llArena c fun m =>
        { m with isSelected := true, isSearched := true }) n =
      entryW (l.graph.verts.length + 2) l.agents.length l.llArena c +
      qpot (l.graph.verts.length + 2) l.agents.length
        (updateLL l.llArena c fun m =>
          { m with isSelected := true, isSearched := true })
        { n with tree := rest } := by
    unfold qpot
    rw [htr]
    simp only [List.map_cons, List.sum_cons]
    rw [hW c]
  show ((updateHL l.hlArena nid fun m => { m with tree := rest }).map
      (qpot (l.graph.verts.length + 2) l.agents.length
        (updateLL l.llArena c fun m =>
          { m with isSelected := true, isSearched := true }))).sum +
    pendingPot (l.graph.verts.length + 2) l.agents.length
      { l with
        hlArena := updateHL l.hlArena nid fun m => { m with tree := rest },
        llArena := updateLL l.llArena c fun m =>
          { m with isSelected := true, isSearched := true },
        currentLL := some c,
        phase := Phase.expand_tree } =
    (l.hlArena.map
      (qpot (l.graph.verts.length + 2) l.agents.length l.llArena)).sum
  have hpend : pendingPot (l.graph.verts.length + 2) l.agents.length
      { l with
        hlArena := updateHL l.hlArena nid fun m => { m with tree := rest },
        llArena := updateLL l.llArena c fun m =>
          { m with isSelected := true, isSearched := true },
        currentLL := some c,
        phase := Phase.expand_tree } =
      entryW (l.graph.verts.length + 2) l.agents.length l.llArena c := by
    unfold pendingPot
    rw [if_pos rfl]
    exact hW c
  rw [hpend]
  have hsum2 : ((updateHL l.hlArena nid fun m => { m with tree := rest }).map
      (qpot (l.graph.verts.length + 2) l.agents.length
        (updateLL l.llArena c fun m =>
          { m with isSelected := true, isSearched := true }))).sum +
      qpot (l.graph.verts.length + 2) l.agents.length
        (updateLL l.llArena c fun m =>
          { m with isSelected := true, isSearched := true }) n =
      (l.hlArena.map
        (qpot (l.graph.verts.length + 2) l.agents.length l.llArena)).sum +
      qpot (l.graph.verts.length + 2) l.agents.length
        (updateLL l.llArena c fun m =>
          { m with isSelected := true, isSearched := true })
        { n with tree := rest } := by
    rw [← hmapeq]
    exact hsum
  rw [hφn] at hsum2
  omega

/-- Expanding the current node of depth `d < N` replaces the pending weight
`K ^ (N - d)` by at most `(|V| + 1) · K ^ (N - d - 1)` worth of new queue
entries, so the total potential strictly drops. -/
theorem queuePot_expand (l : LaCAM) (hwf : l.graph.WF)
    (hnd : (l.hlArena.map (·.id)).Nodup)
    (hctr : ∀ m ∈ l.llArena, m.id < l.llCtr)
    (htrees : ∀ n ∈ l.hlArena, ∀ i ∈ n.tree, ∃ mi,
      lookupLL l.llArena i = some mi)
    (nid cid agentId currentVertex : Nat) (n : HLNode) (c : LLNode)
    (hlk : lookupHLA l.hlArena nid = some n)
    (hclk : lookupLL l.llArena cid = some c)
    (hcur : l.currentLL = some cid)
    (hphase : l.phase = Phase.expand_tree)
    (hd : c.depth < l.agents.length) :
    queuePot { l with
      llArena := (updateLL l.llArena cid fun m =>
        { m with children := m.children ++
          (List.range (currentVertex :: l.graph.getNeighbors
            currentVertex).length).map fun k => l.llCtr + k }) ++
        expandNodes l.graph l.llCtr cid agentId c.depth currentVertex,
      llCtr := l.llCtr +
        (currentVertex :: l.graph.getNeighbors currentVertex).length,
      hlArena := updateHL l.hlArena nid fun m =>
        { m with tree := m.tree ++
          (List.range (currentVertex :: l.graph.getNeighbors
            currentVertex).length).map fun k => l.llCtr + k },
      phase := Phase.generate } < queuePot l := by
  have h1 : ∀ (i : Nat) (mi : LLNode), lookupLL l.llArena i = some mi →
      llDepthOf ((updateLL l.llArena cid fun m =>
        { m with children := m.children ++
          (List.range (currentVertex :: l.graph.getNeighbors
            currentVertex).length).map fun k => l.llCtr + k }) ++
        expandNodes l.graph l.llCtr cid agentId c.depth currentVertex) i =
      llDepthOf l.llArena i := by
    intro i mi h
    exact llDepthOf_update_append h (fun m =>
      { m with children := m.children ++
        (List.range (currentVertex :: l.graph.getNeighbors
          currentVertex).length).map fun k => l.llCtr + k })
      (fun m => rfl) (fun m => rfl) cid _
  have h2 : ∀ k, k < (currentVertex :: l.graph.getNeighbors
      currentVertex).length →
      llDepthOf ((updateLL l.llArena cid fun m =>
        { m with children := m.children ++
          (List.range (currentVertex :: l.graph.getNeighbors
            currentVertex).length).map fun k => l.llCtr + k }) ++
        expandNodes l.graph l.llCtr cid agentId c.depth currentVertex)
        (l.llCtr + k) = c.depth + 1 := by
    intro k hk
    have hidmem : l.llCtr + k ∈
        (expandNodes l.graph l.llCtr cid agentId c.depth
          currentVertex).map (·.id) := by
      rw [expandNodes_ids]
      exact List.mem_map.mpr ⟨k, List.mem_range.mpr hk, rfl⟩
    obtain ⟨m, hm, hmid⟩ := List.mem_map.mp hidmem
    apply llDepthOf_all
    · refine List.any_eq_true.mpr ⟨m, List.mem_append_right _ hm, ?_⟩
      simp [hmid]
    · intro m' hm' hid'
      rcases List.mem_append.mp hm' with hml | hmr
      · exfalso
        obtain ⟨m0, hm0, hform⟩ := updateLL_mem_form hml
        have hidm : m'.id = m0.id := by
          rw [hform]
          split <;> rfl
        have := hctr m0 hm0
        omega
      · exact (expandNodes_fields l.graph l.llCtr cid agentId c.depth
          currentVertex m' hmr).2.2.1
  have h3 : (((List.range (currentVertex :: l.graph.getNeighbors
      currentVertex).length).map fun k => l.llCtr + k).map
      (entryW (l.graph.verts.length + 2) l.agents.length
        ((updateLL l.llArena cid fun m =>
          { m with children := m.children ++
            (List.range (currentVertex :: l.graph.getNeighbors
              currentVertex).length).map fun k => l.llCtr + k }) ++
          expandNodes l.graph l.llCtr cid agentId c.depth
            currentVertex))).sum =
      (currentVertex :: l.graph.getNeighbors currentVertex).length *
        (l.graph.verts.length + 2) ^
          (l.agents.length - (c.depth + 1)) := by
    rw [List.map_map]
    have hcongr : (List.range (currentVertex :: l.graph.getNeighbors
        currentVertex).length).map
        ((entryW (l.graph.verts.length + 2) l.agents.length
          ((updateLL l.llArena cid fun m =>
            { m with children := m.children ++
              (List.range (currentVertex :: l.graph.getNeighbors
                currentVertex).length).map fun k => l.llCtr + k }) ++
            expandNodes l.graph l.llCtr cid agentId c.depth
              currentVertex)) ∘ fun k => l.llCtr + k) =
        (List.range (currentVertex :: l.graph.getNeighbors
          currentVertex).length).map fun _ =>
          (l.graph.verts.length + 2) ^
            (l.agents.length - (c.depth + 1)) := by
      apply List.map_congr_left
      intro k hk
      show entryW _ _ _ (l.llCtr + k) = _
      unfold entryW
      rw [h2 k (List.mem_range.mp hk)]
    rw [hcongr, sum_map_const, List.length_range]
  have hφall : ∀ m ∈ l.hlArena,
      qpot (l.graph.verts.length + 2) l.agents.length
        ((updateLL l.llArena cid fun m =>
          { m with children := m.children ++
            (List.range (currentVertex :: l.graph.getNeighbors
              currentVertex).length).map fun k => l.llCtr + k }) ++
          expandNodes l.graph l.llCtr cid agentId c.depth currentVertex)
        m =
      qpot (l.graph.verts.length + 2) l.agents.length l.llArena m := by
    intro m hm
    apply qpot_congr
    intro i hi
    obtain ⟨mi, hmi⟩ := htrees m hm i hi
    exact h1 i mi hmi
  have hsum := map_sum_update (·.id)
    (qpot (l.graph.verts.length + 2) l.agents.length
      ((updateLL l.llArena cid fun m =>
        { m with children := m.children ++
          (List.range (currentVertex :: l.graph.getNeighbors
            currentVertex).length).map fun k => l.llCtr + k }) ++
        expandNodes l.graph l.llCtr cid agentId c.depth currentVertex))
    (fun m => { m with tree := m.tree ++
      (List.range (currentVertex :: l.graph.getNeighbors
        currentVertex).length).map fun k => l.llCtr + k })
    nid l.hlArena hnd n hlk
  have hftr : qpot (l.graph.verts.length + 2) l.agents.length
      ((updateLL l.llArena cid fun m =>
        { m with children := m.children ++
          (List.range (currentVertex :: l.graph.getNeighbors
            currentVertex).length).map fun k => l.llCtr + k }) ++
        expandNodes l.graph l.llCtr cid agentId c.depth currentVertex)
      { n with tree := n.tree ++
        (List.range (currentVertex :: l.graph.getNeighbors
          currentVertex).length).map fun k => l.llCtr + k } =
      qpot (l.graph.verts.length + 2) l.agents.length
        ((updateLL l.llArena cid fun m =>
          { m with children := m.children ++
            (List.range (currentVertex :: l.graph.getNeighbors
              currentVertex).length).map fun k => l.llCtr + k }) ++
          expandNodes l.graph l.llCtr cid agentId c.depth currentVertex)
        n +
      (currentVertex :: l.graph.getNeighbors currentVertex).length *
        (l.graph.verts.length + 2) ^
          (l.agents.length - (c.depth + 1)) := by
    unfold qpot
    rw [show ({ n with tree := n.tree ++
      (List.range (currentVertex :: l.graph.getNeighbors
        currentVertex).length).map fun k => l.llCtr + k } : HLNode).tree =
      n.tree ++ (List.range (currentVertex :: l.graph.getNeighbors
        currentVertex).length).map (fun k => l.llCtr + k) from rfl]
    rw [List.map_append, List.sum_append, h3]
  have hQl : queuePot l =
      (l.hlArena.map (qpot (l.graph.verts.length + 2) l.agents.length
        l.llArena)).sum +
      (l.graph.verts.length + 2) ^ (l.agents.length - c.depth) := by
    have hdl : llDepthOf l.llArena cid = c.depth := by
      unfold llDepthOf
      rw [hclk]
    unfold queuePot pendingPot
    rw [if_pos hphase, hcur]
    dsimp only
    unfold entryW
    rw [hdl]
  have hmv : (currentVertex :: l.graph.getNeighbors currentVertex).length ≤
      l.graph.verts.length + 1 := by
    have hsub : List.Subperm (l.graph.getNeighbors currentVertex)
        l.graph.verts :=
      List.subperm_of_subset (hwf.nodup_adj currentVertex)
        fun x hx => (hwf.adj_mem currentVertex x hx).2
    have := hsub.length_le
    simp only [List.length_cons]
    omega
  have hpow : 0 < (l.graph.verts.length + 2) ^
      (l.agents.length - (c.depth + 1)) := pow_pos (by omega) _
  have hexp : (l.graph.verts.length + 2) ^ (l.agents.length - c.depth) =
      (l.graph.verts.length + 2) ^ (l.agents.length - (c.depth + 1)) *
        (l.graph.verts.length + 2) := by
    rw [← pow_succ]
    congr 1
    omega
  have hlt2 : (currentVertex :: l.graph.getNeighbors currentVertex).length *
      (l.graph.verts.length + 2) ^ (l.agents.length - (c.depth + 1)) <
      (l.graph.verts.length + 2) ^ (l.agents.length - c.depth) := by
    rw [hexp]
    calc (currentVertex :: l.graph.getNeighbors currentVertex).length *
        (l.graph.verts.length + 2) ^ (l.agents.length - (c.depth + 1)) <
        (l.graph.verts.length + 2) *
          (l.graph.verts.length + 2) ^ (l.agents.length - (c.depth + 1)) :=
          (Nat.mul_lt_mul_right hpow).mpr (by omega)
      _ = (l.graph.verts.length + 2) ^ (l.agents.length - (c.depth + 1)) *
          (l.graph.verts.length + 2) := Nat.mul_comm _ _
  have hQr : queuePot { l with
      llArena := (updateLL l.llArena cid fun m =>
        { m with children := m.children ++
          (List.range (currentVertex :: l.graph.getNeighbors
            currentVertex).length).map fun k => l.llCtr + k }) ++
        expandNodes l.graph l.llCtr cid agentId c.depth currentVertex,
      llCtr := l.llCtr +
        (currentVertex :: l.graph.getNeighbors currentVertex).length,
      hlArena := updateHL l.hlArena nid fun m =>
        { m with tree := m.tree ++
          (List.range (currentVertex :: l.graph.getNeighbors
            currentVertex).length).map fun k => l.llCtr + k },
      phase := Phase.generate } =
      ((updateHL l.hlArena nid fun m =>
        { m with tree := m.tree ++
          (List.range (currentVertex :: l.graph.getNeighbors
            currentVertex).length).map fun k => l.llCtr + k }).map
        (qpot (l.graph.verts.length + 2) l.agents.length
          ((updateLL l.llArena cid fun m =>
            { m with children := m.children ++
              (List.range (currentVertex :: l.graph.getNeighbors
                currentVertex).length).map fun k => l.llCtr + k }) ++
            expandNodes l.graph l.llCtr cid agentId c.depth
              currentVertex))).sum := by
    have hgen : Phase.generate ≠ Phase.expand_tree := by decide
    show ((updateHL l.hlArena nid fun m =>
        { m with tree := m.tree ++
          (List.range (currentVertex :: l.graph.getNeighbors
            currentVertex).length).map fun k => l.llCtr + k }).map
        (qpot (l.graph.verts.length + 2) l.agents.length
          ((updateLL l.llArena cid fun m =>
            { m with children := m.children ++
              (List.range (currentVertex :: l.graph.getNeighbors
                currentVertex).length).map fun k => l.llCtr + k }) ++
            expandNodes l.graph l.llCtr cid agentId c.depth
              currentVertex))).sum +
      pendingPot (l.graph.verts.length + 2) l.agents.length
        { l with
        llArena := (updateLL l.llArena cid fun m =>
          { m with children := m.children ++
            (List.range (currentVertex :: l.graph.getNeighbors
              currentVertex).length).map fun k => l.llCtr + k }) ++
          expandNodes l.graph l.llCtr cid agentId c.depth currentVertex,
        llCtr := l.llCtr +
          (currentVertex :: l.graph.getNeighbors currentVertex).length,
        hlArena := updateHL l.hlArena nid fun m =>
          { m with tree := m.tree ++
            (List.range (currentVertex :: l.graph.getNeighbors
              currentVertex).length).map fun k => l.llCtr + k },
        phase := Phase.generate } =
      ((updateHL l.hlArena nid fun m =>
        { m with tree := m.tree ++
          (List.range (currentVertex :: l.graph.getNeighbors
            currentVertex).length).map fun k => l.llCtr + k }).map
        (qpot (l.graph.verts.length + 2) l.agents.length
          ((updateLL l.llArena cid fun m =>
            { m with children := m.children ++
              (List.range (currentVertex :: l.graph.getNeighbors
                currentVertex).length).map fun k => l.llCtr + k }) ++
            expandNodes l.graph l.llCtr cid agentId c.depth
              currentVertex))).sum
    rw [pendingPot_not_expand (fun hx => hgen hx)]
    omega
  have hmap2 : l.hlArena.map
      (qpot (l.graph.verts.length + 2) l.agents.length
        ((updateLL l.llArena cid fun m =>
          { m with children := m.children ++
            (List.range (currentVertex :: l.graph.getNeighbors
              currentVertex).length).map fun k => l.llCtr + k }) ++
          expandNodes l.graph l.llCtr cid agentId c.depth currentVertex)) =
      l.hlArena.map
        (qpot (l.graph.verts.length + 2) l.agents.length l.llArena) :=
    List.map_congr_left hφall
  have hsum2 : ((updateHL l.hlArena nid fun m =>
      { m with tree := m.tree ++
        (List.range (currentVertex :: l.graph.getNeighbors
          currentVertex).length).map fun k => l.llCtr + k }).map
      (qpot (l.graph.verts.length + 2) l.agents.length
        ((updateLL l.llArena cid fun m =>
          { m with children := m.children ++
            (List.range (currentVertex :: l.graph.getNeighbors
              currentVertex).length).map fun k => l.llCtr + k }) ++
          expandNodes l.graph l.llCtr cid agentId c.depth
            currentVertex))).sum +
      qpot (l.graph.verts.length + 2) l.agents.length
        ((updateLL l.llArena cid fun m =>
          { m with children := m.children ++
            (List.range (currentVertex :: l.graph.getNeighbors
              currentVertex).length).map fun k => l.llCtr + k }) ++
          expandNodes l.graph l.llCtr cid agentId c.depth currentVertex)
        n =
      (l.hlArena.map
        (qpot (l.graph.verts.length + 2) l.agents.length
          ((updateLL l.llArena cid fun m =>
            { m with children := m.children ++
              (List.range (currentVertex :: l.graph.getNeighbors
                currentVertex).length).map fun k => l.llCtr + k }) ++
            expandNodes l.graph l.llCtr cid agentId c.depth
              currentVertex))).sum +
      qpot (l.graph.verts.length + 2) l.agents.length
        ((updateLL l.llArena cid fun m =>
          { m with children := m.children ++
            (List.range (currentVertex :: l.graph.getNeighbors
              currentVertex).length).map fun k => l.llCtr + k }) ++
          expandNodes l.graph l.llCtr cid agentId c.depth currentVertex)
        { n with tree := n.tree ++
          (List.range (currentVertex :: l.graph.getNeighbors
            currentVertex).length).map fun k => l.llCtr + k } := hsum
  rw [hftr] at hsum2
  rw [hφall n (lookupHLA_mem hlk).1] at hsum2
  rw [hmap2] at hsum2
  have hfin : ((updateHL l.hlArena nid fun m =>
      { m with tree := m.tree ++
        (List.range (currentVertex :: l.graph.getNeighbors
          currentVertex).length).map fun k => l.llCtr + k }).map
      (qpot (l.graph.verts.length + 2) l.agents.length
        ((updateLL l.llArena cid fun m =>
          { m with children := m.children ++
            (List.range (currentVertex :: l.graph.getNeighbors
              currentVertex).length).map fun k => l.llCtr + k }) ++
          expandNodes l.graph l.llCtr cid agentId c.depth
            currentVertex))).sum =
      (l.hlArena.map
        (qpot (l.graph.verts.length + 2) l.agents.length l.llArena)).sum +
      (currentVertex :: l.graph.getNeighbors currentVertex).length *
        (l.graph.verts.length + 2) ^
          (l.agents.length - (c.depth + 1)) := by
    clear hsum hftr hφall hmap2 h1 h2 h3 hQl hQr hlt2 hexp hpow hmv
    omega
  rw [hQr, hQl, hfin]
  exact Nat.add_lt_add_left hlt2 _

/-- `stepSelect` from the `select` phase either terminates the search or
keeps all higher measure components while decreasing the phase rank or the
OPEN length. -/
theorem progress_select (g : Graph) (agents : List Agent) {l : LaCAM}
    (hinv : Inv g agents l) (hph : l.phase = Phase.select) :
    (stepSelect l).1.status ≠ Status.running ∨
    (unexplored (stepSelect l).1 = unexplored l ∧
     queuePot (stepSelect l).1 = queuePot l ∧
     (phaseRank (stepSelect l).1.phase < phaseRank l.phase ∨
      (phaseRank (stepSelect l).1.phase ≤ phaseRank l.phase ∧
       (stepSelect l).1.openS.length < l.openS.length))) := by
  obtain ⟨hg, ha, hc, -, -, -, -, -⟩ := hinv
  unfold stepSelect
  cases hgl : l.openS.getLast? with
  | none => exact Or.inl fun hx => Status.noConfusion hx
  | some nid =>
    dsimp only
    obtain ⟨n, hn⟩ := hc.openOK nid (List.mem_of_mem_getLast? hgl)
    rw [show lookupHL l nid = some n from (lookupHLA_eq l nid) ▸ hn]
    dsimp only
    by_cases hgoal : n.config = goalConfig l.agents
    · rw [if_pos hgoal]
      exact Or.inl fun hx => Status.noConfusion hx
    · rw [if_neg hgoal]
      by_cases htree : n.tree = []
      · rw [if_pos htree]
        refine Or.inr ⟨rfl, rfl, Or.inr ⟨le_refl _, ?_⟩⟩
        have hne : l.openS ≠ [] := by
          intro h0
          rw [h0] at hgl
          simp at hgl
        have := List.length_pos.mpr hne
        show l.openS.dropLast.length < l.openS.length
        rw [List.length_dropLast]
        omega
      · rw [if_neg htree]
        refine Or.inr ⟨rfl, ?_, Or.inl ?_⟩
        · have hlp : l.phase ≠ Phase.expand_tree := by
            rw [hph]
            decide
          have hpn : Phase.pop_constraint ≠ Phase.expand_tree := by decide
          unfold queuePot
          rw [pendingPot_not_expand (fun hx => hpn hx),
            pendingPot_not_expand hlp]
        · rw [hph]
          exact Nat.lt_of_sub_eq_succ rfl

/-- `stepPopConstraint` from the `pop_constraint` phase keeps the
unexplored count and queue potential and strictly decreases the phase
rank. -/
theorem progress_pop (g : Graph) (agents : List Agent) {l : LaCAM}
    (hinv : Inv g agents l) (hph : l.phase = Phase.pop_constraint) :
    unexplored (stepPopConstraint l).1 = unexplored l ∧
    queuePot (stepPopConstraint l).1 = queuePot l ∧
    phaseRank (stepPopConstraint l).1.phase < phaseRank l.phase := by
  obtain ⟨hg, ha, hc, -, -, -, -, -⟩ := hinv
  obtain ⟨nid, n, hcur, hlk, htree⟩ := hc.phasePop hph
  unfold stepPopConstraint
  rw [hcur]
  dsimp only
  rw [show lookupHL l nid = some n from (lookupHLA_eq l nid) ▸ hlk]
  dsimp only
  cases htr : n.tree with
  | nil => exact absurd htr htree
  | cons c rest =>
    dsimp only
    refine ⟨rfl, ?_, ?_⟩
    · have hlp : l.phase ≠ Phase.expand_tree := by
        rw [hph]
        decide
      have hQl : queuePot l =
          (l.hlArena.map
            (qpot (l.graph.verts.length + 2) l.agents.length
              l.llArena)).sum := by
        unfold queuePot
        rw [pendingPot_not_expand hlp]
        omega
      exact (queuePot_pop l hc.hlNodup nid n c rest hlk htr).trans hQl.symm
    · rw [hph]
      exact Nat.lt_of_sub_eq_succ rfl

/-- `stepExpandTree` from the `expand_tree` phase strictly decreases the
queue potential. -/
theorem progress_expand (g : Graph) (agents : List Agent) (hwf : g.WF)
    {l : LaCAM} (hinv : Inv g agents l) (hph : l.phase = Phase.expand_tree) :
    unexplored (stepExpandTree l).1 = unexplored l ∧
    queuePot (stepExpandTree l).1 < queuePot l := by
  obtain ⟨hg, ha, hc, hctr, -, -, -, -⟩ := hinv
  subst hg
  subst ha
  obtain ⟨nid, n, cid, c, hcur, hlk, hcurL, hclk, hchain, hrootc⟩ :=
    hc.phaseExpGen (Or.inl hph)
  unfold stepExpandTree
  rw [hcur, hcurL]
  dsimp only
  have hlk' : lookupHL l nid = some n := hlk
  rw [hlk', hclk]
  dsimp only
  by_cases hlt : c.depth < l.agents.length
  · rw [if_pos hlt]
    have hOlen : n.order.length = l.agents.length :=
      ((hc.hlOrder n (lookupHLA_mem hlk).1).length_eq).trans
        (List.length_range _)
    cases hA : n.order[c.depth]? with
    | none =>
      exfalso
      have := List.getElem?_eq_none_iff.mp hA
      omega
    | some agentId =>
      dsimp only
      have hClen : n.config.length = l.agents.length :=
        hc.hlCfgLen n (lookupHLA_mem hlk).1
      have hagN : agentId < l.agents.length := by
        have hagent : agentId ∈ n.order := List.getElem?_mem hA
        have := (hc.hlOrder n (lookupHLA_mem hlk).1).mem_iff.mp hagent
        exact List.mem_range.mp this
      cases hV : n.config[agentId]? with
      | none =>
        exfalso
        have := List.getElem?_eq_none_iff.mp hV
        omega
      | some currentVertex =>
        dsimp only
        refine ⟨rfl, ?_⟩
        exact queuePot_expand l hwf hc.hlNodup hctr.2
          (fun m hm i hi => chainOK_lookup (hc.hlTree m hm i hi).1)
          nid cid agentId currentVertex n c hlk hclk hcurL hph hlt
  · rw [if_neg hlt]
    refine ⟨rfl, ?_⟩
    have hdl : llDepthOf l.llArena cid = c.depth := by
      unfold llDepthOf
      rw [hclk]
    have hQl : queuePot l =
        (l.hlArena.map (qpot (l.graph.verts.length + 2) l.agents.length
          l.llArena)).sum +
        (l.graph.verts.length + 2) ^ (l.agents.length - c.depth) := by
      unfold queuePot pendingPot
      rw [if_pos hph, hcurL]
      dsimp only
      unfold entryW
      rw [hdl]
    have hgen : Phase.generate ≠ Phase.expand_tree := by decide
    have hQr : queuePot
        { l with
          currentHL := some nid
          currentLL := some cid
          phase := Phase.generate } =
        (l.hlArena.map (qpot (l.graph.verts.length + 2) l.agents.length
          l.llArena)).sum := by
      show (l.hlArena.map (qpot (l.graph.verts.length + 2) l.agents.length
          l.llArena)).sum +
        pendingPot (l.graph.verts.length + 2) l.agents.length
          { l with
            currentHL := some nid
            currentLL := some cid
            phase := Phase.generate } = _
      rw [pendingPot_not_expand (fun hx => hgen hx)]
      omega
    rw [hQr, hQl]
    have hpow : 0 < (l.graph.verts.length + 2) ^
        (l.agents.length - c.depth) := pow_pos (by omega) _
    omega

/-- `stepGenerate` keeps the higher measure components and strictly
decreases the phase rank. -/
theorem progress_generate (g : Graph) (agents : List Agent) {l : LaCAM}
    (hinv : Inv g agents l) (hph : l.phase = Phase.generate) :
    unexplored (stepGenerate l).1 = unexplored l ∧
    queuePot (stepGenerate l).1 = queuePot l ∧
    phaseRank (stepGenerate l).1.phase < phaseRank l.phase := by
  obtain ⟨hg, ha, hc, -, -, -, -, -⟩ := hinv
  obtain ⟨nid, n, cid, c, hcur, hlk, hcurL, hclk, -, -⟩ :=
    hc.phaseExpGen (Or.inr hph)
  unfold stepGenerate
  rw [hcur, hcurL]
  dsimp only
  have hlk' : lookupHL l nid = some n := hlk
  rw [hlk']
  dsimp only
  have hlp : l.phase ≠ Phase.expand_tree := by
    rw [hph]
    decide
  cases hgc : generateConfig l.graph l.agents n.config
      (getConstraints l.llArena cid) with
  | none =>
    dsimp only
    refine ⟨rfl, ?_, ?_⟩
    · have hsel : Phase.select ≠ Phase.expand_tree := by decide
      unfold queuePot
      rw [pendingPot_not_expand (fun hx => hsel hx),
        pendingPot_not_expand hlp]
    · rw [hph]
      exact Nat.lt_of_sub_eq_succ rfl
  | some q =>
    dsimp only
    refine ⟨rfl, ?_, ?_⟩
    · have hchk : Phase.check ≠ Phase.expand_tree := by decide
      unfold queuePot
      rw [pendingPot_not_expand (fun hx => hchk hx),
        pendingPot_not_expand hlp]
    · rw [hph]
      exact Nat.lt_of_sub_eq_succ rfl

/-- `stepCheck` either strictly decreases the unexplored count (new
configuration) or keeps the higher components and drops the phase rank
(duplicate configuration). -/
theorem progress_check (g : Graph) (agents : List Agent) (hwf : g.WF)
    {l : LaCAM} (hinv : Inv g agents l) (hph : l.phase = Phase.check) :
    unexplored (stepCheck l).1 < unexplored l ∨
    (unexplored (stepCheck l).1 = unexplored l ∧
     queuePot (stepCheck l).1 = queuePot l ∧
     phaseRank (stepCheck l).1.phase < phaseRank l.phase) := by
  obtain ⟨hg, ha, hc, -, -, -, -, -⟩ := hinv
  subst hg
  subst ha
  obtain ⟨nid, pn, q, hcur, hlk, hgq, cs, hcs, hgen⟩ := hc.phaseCheck hph
  unfold stepCheck
  rw [hgq, hcur]
  dsimp only
  cases hdup : l.explored.any fun pr => pr.1 == q with
  | true =>
    rw [if_pos rfl]
    refine Or.inr ⟨rfl, ?_, ?_⟩
    · have hsel : Phase.select ≠ Phase.expand_tree := by decide
      have hchk : l.phase ≠ Phase.expand_tree := by
        rw [hph]
        decide
      unfold queuePot
      rw [pendingPot_not_expand (fun hx => hsel hx),
        pendingPot_not_expand hchk]
    · rw [hph]
      exact Nat.lt_of_sub_eq_succ rfl
  | false =>
    rw [if_neg Bool.false_ne_true]
    dsimp only
    refine Or.inl (unexplored_lt rfl rfl q l.hlCtr ?_ hdup rfl)
    have hpmem : pn ∈ l.hlArena := (lookupHLA_mem hlk).1
    have hlen : q.length = l.agents.length :=
      (generateConfig_spec _ _ _ _ _ hgen).1
    apply tuples_mem
    · exact hlen
    · intro v hv
      obtain ⟨i, hqi⟩ := List.mem_iff_getElem?.mp hv
      obtain ⟨hib, -⟩ := List.getElem?_eq_some_iff.mp hqi
      have hiN : i < l.agents.length := hlen ▸ hib
      obtain ⟨cur, np, hcurq, hmv, hnp⟩ :=
        (solution_hop_valid l.graph l.agents pn.config q
          ⟨cs, hcs, hgen⟩).2.2.1 i hiN
      have hveq : v = np := by
        rw [hqi] at hnp
        exact Option.some.inj hnp
      have hcv : cur ∈ l.graph.verts :=
        hc.hlCfgMem pn hpmem cur (List.getElem?_mem hcurq)
      subst hveq
      rcases hmv with h | h
      · rw [h]
        exact hcv
      · exact (hwf.adj_mem cur v h).2


/-- One non-terminal `step()` either terminates the search or decreases the
lexicographic measure (unexplored, queue potential, phase rank, OPEN
length). -/
theorem step_progress (g : Graph) (agents : List Agent) (hwf : g.WF)
    {l : LaCAM} (hinv : Inv g agents l) (hrun : l.status = Status.running) :
    (step l).1.status ≠ Status.running ∨
    unexplored (step l).1 < unexplored l ∨
    (unexplored (step l).1 ≤ unexplored l ∧
      queuePot (step l).1 < queuePot l) ∨
    (unexplored (step l).1 ≤ unexplored l ∧ queuePot (step l).1 ≤ queuePot l ∧
      phaseRank (step l).1.phase < phaseRank l.phase) ∨
    (unexplored (step l).1 ≤ unexplored l ∧ queuePot (step l).1 ≤ queuePot l ∧
      phaseRank (step l).1.phase ≤ phaseRank l.phase ∧
      (step l).1.openS.length < l.openS.length) := by
  have hl2 : Inv g agents
      { saveHistory l with stepNumber := l.stepNumber + 1 } :=
    inv_saveHistory g agents hinv
  unfold step
  rw [if_neg (not_not_intro hrun)]
  dsimp only
  split
  next heq =>
    rcases progress_select g agents hl2 heq with h | ⟨h1, h2, h3⟩
    · exact Or.inl h
    · rcases h3 with h3 | ⟨h3, h4⟩
      · exact Or.inr (Or.inr (Or.inr (Or.inl
          ⟨le_of_eq h1, le_of_eq h2, h3⟩)))
      · exact Or.inr (Or.inr (Or.inr (Or.inr
          ⟨le_of_eq h1, le_of_eq h2, h3, h4⟩)))
  next heq =>
    obtain ⟨h1, h2, h3⟩ := progress_pop g agents hl2 heq
    exact Or.inr (Or.inr (Or.inr (Or.inl ⟨le_of_eq h1, le_of_eq h2, h3⟩)))
  next heq =>
    obtain ⟨h1, h2⟩ := progress_expand g agents hwf hl2 heq
    exact Or.inr (Or.inr (Or.inl ⟨le_of_eq h1, h2⟩))
  next heq =>
    obtain ⟨h1, h2, h3⟩ := progress_generate g agents hl2 heq
    exact Or.inr (Or.inr (Or.inr (Or.inl ⟨le_of_eq h1, le_of_eq h2, h3⟩)))
  next heq =>
    rcases progress_check g agents hwf hl2 heq with h | ⟨h1, h2, h3⟩
    · exact Or.inr (Or.inl h)
    · exact Or.inr (Or.inr (Or.inr (Or.inl
        ⟨le_of_eq h1, le_of_eq h2, h3⟩)))
  next heq =>
    obtain ⟨-, -, hcc, -, -, -, -, -⟩ := hl2
    exact absurd heq hcc.phaseNotInit

/-- Iterate `step()`, keeping only the state. -/
def stepN (l : LaCAM) : Nat → LaCAM
  | 0 => l
  | k + 1 => stepN (step l).1 k

/-- A terminated solver refuses to step (app.js 299–301). -/
theorem step_done {l : LaCAM}
    (h : l.status = Status.solved ∨ l.status = Status.no_solution) :
    step l = (l, false) := by
  have hne : l.status ≠ Status.running := by
    rcases h with h | h <;> (rw [h]; decide)
  unfold step
  rw [if_pos hne]

theorem stepN_done {l : LaCAM}
    (h : l.status = Status.solved ∨ l.status = Status.no_solution) :
    ∀ j, stepN l j = l := by
  intro j
  induction j with
  | zero => rfl
  | succ j ih =>
    show stepN (step l).1 j = l
    rw [step_done h]
    exact ih

theorem stepN_add (l : LaCAM) (a b : Nat) :
    stepN l (a + b) = stepN (stepN l a) b := by
  induction a generalizing l with
  | zero =>
    show stepN l (0 + b) = stepN l b
    rw [Nat.zero_add]
  | succ a ih =>
    have hr : a + 1 + b = (a + b) + 1 := by omega
    rw [hr]
    show stepN (step l).1 (a + b) = stepN (stepN (step l).1 a) b
    exact ih (step l).1

/-- Lexicographic descent: from any invariant state, iterated stepping
reaches a terminal status. -/
theorem terminate_aux (g : Graph) (agents : List Agent) (hwf : g.WF) :
    ∀ (a1 : Nat) (l : LaCAM), Inv g agents l → unexplored l ≤ a1 →
      ∃ k, (stepN l k).status = Status.solved ∨
        (stepN l k).status = Status.no_solution := by
  intro a1
  induction a1 using Nat.strong_induction_on with
  | _ a1 H1 =>
    have T : ∀ (a2 : Nat) (l : LaCAM), Inv g agents l →
        unexplored l ≤ a1 → queuePot l ≤ a2 →
        ∃ k, (stepN l k).status = Status.solved ∨
          (stepN l k).status = Status.no_solution := by
      intro a2
      induction a2 using Nat.strong_induction_on with
      | _ a2 H2 =>
        have U : ∀ (a4 : Nat) (l : LaCAM), Inv g agents l →
            unexplored l ≤ a1 → queuePot l ≤ a2 →
            phaseRank l.phase ≤ a4 →
            ∃ k, (stepN l k).status = Status.solved ∨
              (stepN l k).status = Status.no_solution := by
          intro a4
          induction a4 using Nat.strong_induction_on with
          | _ a4 H3 =>
            have V : ∀ (a3 : Nat) (l : LaCAM), Inv g agents l →
                unexplored l ≤ a1 → queuePot l ≤ a2 →
                phaseRank l.phase ≤ a4 → l.openS.length ≤ a3 →
                ∃ k, (stepN l k).status = Status.solved ∨
                  (stepN l k).status = Status.no_solution := by
              intro a3
              induction a3 using Nat.strong_induction_on with
              | _ a3 H4 =>
                intro l hinv h1 h2 h4 h3
                by_cases hrun : l.status = Status.running
                · have hinv' : Inv g agents (step l).1 :=
                    inv_step g agents hwf hinv
                  rcases step_progress g agents hwf hinv hrun with
                    hterm | hm1 | ⟨hm1, hm2⟩ | ⟨hm1, hm2, hm4⟩ |
                    ⟨hm1, hm2, hm4, hm3⟩
                  · refine ⟨1, ?_⟩
                    cases hst : (step l).1.status with
                    | running => exact absurd hst hterm
                    | solved => exact Or.inl hst
                    | no_solution => exact Or.inr hst
                  · obtain ⟨k, hk⟩ := H1 (unexplored (step l).1)
                      (lt_of_lt_of_le hm1 h1) (step l).1 hinv' le_rfl
                    exact ⟨k + 1, hk⟩
                  · obtain ⟨k, hk⟩ := H2 (queuePot (step l).1)
                      (lt_of_lt_of_le hm2 h2) (step l).1 hinv'
                      (le_trans hm1 h1) le_rfl
                    exact ⟨k + 1, hk⟩
                  · obtain ⟨k, hk⟩ := H3 (phaseRank (step l).1.phase)
                      (lt_of_lt_of_le hm4 h4) (step l).1 hinv'
                      (le_trans hm1 h1) (le_trans hm2 h2) le_rfl
                    exact ⟨k + 1, hk⟩
                  · obtain ⟨k, hk⟩ := H4 ((step l).1.openS.length)
                      (lt_of_lt_of_le hm3 h3) (step l).1 hinv'
                      (le_trans hm1 h1) (le_trans hm2 h2)
                      (le_trans hm4 h4) le_rfl
                    exact ⟨k + 1, hk⟩
                · refine ⟨0, ?_⟩
                  cases hst : l.status with
                  | running => exact absurd hst hrun
                  | solved => exact Or.inl hst
                  | no_solution => exact Or.inr hst
            exact fun l hinv h1 h2 h4 =>
              V l.openS.length l hinv h1 h2 h4 le_rfl
        exact fun l hinv h1 h2 => U (phaseRank l.phase) l hinv h1 h2 le_rfl
    exact fun l hinv h1 => T (queuePot l) l hinv h1 le_rfl

/-- Every invariant state terminates under iterated `step()`. -/
theorem lacam_terminates (g : Graph) (agents : List Agent) (hwf : g.WF)
    {l : LaCAM} (hinv : Inv g agents l) :
    ∃ k, (stepN l k).status = Status.solved ∨
      (stepN l k).status = Status.no_solution :=
  terminate_aux g agents hwf (unexplored l) l hinv le_rfl


/-! ## Heap-accurate model of snapshot/restore (for C4)

The value-level model above copies node structures on restore.  The
JavaScript `restoreFromSnapshot` (app.js 639–702) instead *shares* the
snapshot's cloned constraint-tree objects and its `tree` array with the
live state (`node.treeRoot = data.treeRoot; node.tree = data.tree`), so
later in-place mutations (`tree.shift()`, `children.push`, flag writes)
corrupt the stored history.  This namespace models the object heap
explicitly: low-level nodes, high-level nodes and `tree` arrays live at
addresses, and every mutation of the source is an in-place store. -/

namespace HeapModel

structure LLObjH where
  id : Nat
  parent : Option Nat
  who : Option Nat
  whereV : Option Nat
  children : List Nat
  depth : Nat
  isSearched : Bool
  isSelected : Bool
deriving DecidableEq, Repr

structure HLObjH where
  id : Nat
  config : List Nat
  treeRoot : Option Nat
  treeArr : Nat
  order : List Nat
  parent : Option Nat
deriving DecidableEq, Repr

/-- One entry of `snapshot.nodes`: `treeRoot`/`treeArr` are heap
*addresses* of the cloned tree, exactly like the object references the
JavaScript snapshot holds. -/
structure SnapDataH where
  id : Nat
  config : List Nat
  treeRoot : Option Nat
  treeArr : Nat
  order : List Nat
  parentId : Option Nat
deriving DecidableEq, Repr

structure SnapshotH where
  nodes : List SnapDataH
  openIds : List Nat
  exploredMap : List (List Nat × Nat)
  currentHLId : Option Nat
  currentLLId : Option Nat
  stepNumber : Nat
  phase : Phase
  status : Status
  nodesGenerated : Nat
  configurationsExplored : Nat
  generatedConfig : Option (List Nat)
  solution : Option (List (List Nat))
deriving DecidableEq, Repr

structure SolverH where
  graph : Graph
  agents : List Agent
  llHeap : List (Nat × LLObjH)
  llNext : Nat
  arrHeap : List (Nat × List Nat)
  arrNext : Nat
  hlHeap : List (Nat × HLObjH)
  hlNext : Nat
  openS : List Nat
  explored : List (List Nat × Nat)
  currentHL : Option Nat
  currentLL : Option Nat
  generatedConfig : Option (List Nat)
  stepNumber : Nat
  phase : Phase
  status : Status
  solution : Option (List (List Nat))
  nodesGenerated : Nat
  configurationsExplored : Nat
  history : List SnapshotH

def getLL (s : SolverH) (a : Nat) : Option LLObjH :=
  (s.llHeap.find? fun pr => pr.1 == a).map (·.2)

def getHL (s : SolverH) (a : Nat) : Option HLObjH :=
  (s.hlHeap.find? fun pr => pr.1 == a).map (·.2)

def getArr (s : SolverH) (a : Nat) : List Nat :=
  ((s.arrHeap.find? fun pr => pr.1 == a).map (·.2)).getD []

def setLL (s : SolverH) (a : Nat) (f : LLObjH → LLObjH) : SolverH :=
  { s with llHeap := s.llHeap.map fun pr =>
      if pr.1 = a then (pr.1, f pr.2) else pr }

def setHL (s : SolverH) (a : Nat) (f : HLObjH → HLObjH) : SolverH :=
  { s with hlHeap := s.hlHeap.map fun pr =>
      if pr.1 = a then (pr.1, f pr.2) else pr }

def setArr (s : SolverH) (a : Nat) (contents : List Nat) : SolverH :=
  { s with arrHeap := s.arrHeap.map fun pr =>
      if pr.1 = a then (pr.1, contents) else pr }

/-- `new LowLevelNode(parent, who, where)`: allocates a fresh object and
advances the (shared) id counter. -/
def allocLL (s : SolverH) (parent who whereV : Option Nat) (depth : Nat) :
    SolverH × Nat :=
  ({ s with
      llHeap := s.llHeap ++ [(s.llNext,
        { id := s.llNext, parent := parent, who := who, whereV := whereV,
          children := [], depth := depth, isSearched := false,
          isSelected := false })],
      llNext := s.llNext + 1 }, s.llNext)

def allocArr (s : SolverH) (contents : List Nat) : SolverH × Nat :=
  ({ s with
      arrHeap := s.arrHeap ++ [(s.arrNext, contents)],
      arrNext := s.arrNext + 1 }, s.arrNext)

/-- `new HighLevelNode(config, parent)`: allocates the node and its fresh
(empty) `tree` array. -/
def allocHL (s : SolverH) (config : List Nat) (parent : Option Nat) :
    SolverH × Nat :=
  let pr := allocArr s []
  ({ pr.1 with
      hlHeap := pr.1.hlHeap ++ [(pr.1.hlNext,
        { id := pr.1.hlNext, config := config, treeRoot := none,
          treeArr := pr.2, order := [], parent := parent })],
      hlNext := pr.1.hlNext + 1 }, pr.1.hlNext)

/-- `LowLevelNode.getConstraints()`: walk the parent chain. -/
def getConstraintsH (s : SolverH) : Nat → Option Nat → List (Nat × Nat)
  | 0, _ => []
  | _, none => []
  | fuel + 1, some a =>
    match getLL s a with
    | none => []
    | some c =>
      match c.who, c.whereV with
      | some w, some v => (w, v) :: getConstraintsH s fuel c.parent
      | _, _ => []

/-- `backtrack(node)` over heap references. -/
def backtrackH (s : SolverH) : Nat → Option Nat → List (List Nat)
  | 0, _ => []
  | _, none => []
  | fuel + 1, some a =>
    match getHL s a with
    | none => []
    | some n => backtrackH s fuel n.parent ++ [n.config]

/-- `cloneLowLevelTree(node, parentClone)` inside `cloneAllNodes`. -/
def cloneLLTree (s : SolverH) :
    Nat → Option Nat → Nat → SolverH × Option Nat
  | 0, _, _ => (s, none)
  | fuel + 1, parentClone, origA =>
    match getLL s origA with
    | none => (s, none)
    | some orig =>
      let depth0 := match parentClone with
        | some p => match getLL s p with
          | some pc => pc.depth + 1
          | none => 0
        | none => 0
      let pr := allocLL s parentClone orig.who orig.whereV depth0
      let s2 := setLL pr.1 pr.2 fun m =>
        { m with
          id := orig.id,
          depth := orig.depth,
          isSearched := orig.isSearched,
          isSelected := orig.isSelected }
      let res := orig.children.foldl
        (fun (acc : SolverH × List Nat) ch =>
          match cloneLLTree acc.1 fuel (some pr.2) ch with
          | (s', some ca) => (s', acc.2 ++ [ca])
          | (s', none) => (s', acc.2)) (s2, [])
      (setLL res.1 pr.2 fun m => { m with children := res.2 }, some pr.2)

/-- The BFS in `cloneAllNodes` that rebuilds the queue of the cloned
tree. -/
def bfsCloneTree (s : SolverH) (origTreeIds : List Nat) :
    Nat → List Nat → List Nat
  | 0, _ => []
  | _, [] => []
  | fuel + 1, a :: queue =>
    match getLL s a with
    | none => bfsCloneTree s origTreeIds fuel queue
    | some n =>
      let rest := bfsCloneTree s origTreeIds fuel (queue ++ n.children)
      if origTreeIds.any (· == n.id) then a :: rest else rest

/-- `allNodes` of `cloneAllNodes`: Open then Explored, dedup on id. -/
def allNodesH (s : SolverH) : List Nat :=
  ((s.openS ++ s.explored.map (·.2)).foldl
    (fun (acc : List Nat × List Nat) a =>
      match getHL s a with
      | none => acc
      | some n =>
        if acc.2.any (· == n.id) then acc
        else (acc.1 ++ [a], acc.2 ++ [n.id])) ([], [])).1

/-- `cloneAllNodes()`: deep-clone every node's constraint tree into fresh
heap cells and record the snapshot data. -/
def cloneAllNodesH (s : SolverH) : SolverH × List SnapDataH :=
  (allNodesH s).foldl
    (fun (acc : SolverH × List SnapDataH) a =>
      match getHL acc.1 a with
      | none => acc
      | some node =>
        let pr := match node.treeRoot with
          | some r => cloneLLTree acc.1 (acc.1.llHeap.length + 1) none r
          | none => (acc.1, none)
        let origTreeIds := (getArr acc.1 node.treeArr).filterMap
          fun ta => (getLL acc.1 ta).map (·.id)
        let clonedTree := match pr.2 with
          | some rc => bfsCloneTree pr.1 origTreeIds
              (pr.1.llHeap.length + 1) [rc]
          | none => []
        let pa := allocArr pr.1 clonedTree
        (pa.1, acc.2 ++ [{
          id := node.id,
          config := node.config,
          treeRoot := pr.2,
          treeArr := pa.2,
          order := node.order,
          parentId := node.parent.bind
            fun p => (getHL acc.1 p).map (·.id) }]))
    (s, [])

/-- `saveHistory()` (app.js 560–587). -/
def saveHistoryH (s : SolverH) : SolverH :=
  let pr := cloneAllNodesH s
  let snap : SnapshotH :=
    { nodes := pr.2,
      openIds := s.openS.filterMap fun a => (getHL s a).map (·.id),
      exploredMap := s.explored.filterMap
        fun e => (getHL s e.2).map fun n => (e.1, n.id),
      currentHLId := s.currentHL.bind fun a => (getHL s a).map (·.id),
      currentLLId := s.currentLL.bind fun a => (getLL s a).map (·.id),
      stepNumber := s.stepNumber, phase := s.phase, status := s.status,
      nodesGenerated := s.nodesGenerated,
      configurationsExplored := s.configurationsExplored,
      generatedConfig := s.generatedConfig, solution := s.solution }
  let h := pr.1.history ++ [snap]
  { pr.1 with history := if h.length > 200 then h.tail else h }

/-- `findLLNode` of `restoreFromSnapshot`: search by id, return the
address. -/
def findLLAddr (s : SolverH) : Nat → Nat → Nat → Option Nat
  | 0, _, _ => none
  | fuel + 1, a, tgt =>
    match getLL s a with
    | none => none
    | some n =>
      if n.id = tgt then some a
      else n.children.foldl
        (fun acc ch => match acc with
          | some x => some x
          | none => findLLAddr s fuel ch tgt) none

/-- `restoreFromSnapshot(snapshot)` (app.js 639–702): fresh high-level
node objects, but `treeRoot`/`tree` are taken over from the snapshot —
the aliasing at the heart of C4. -/
def restoreFromSnapshotH (s : SolverH) (snap : SnapshotH) : SolverH :=
  let p1 := snap.nodes.foldl
    (fun (acc : SolverH × List (Nat × Nat)) data =>
      let pr := allocHL acc.1 data.config none
      let s2 := setHL pr.1 pr.2 fun n =>
        { n with
          id := data.id,
          treeRoot := data.treeRoot,
          treeArr := data.treeArr,
          order := data.order }
      (s2, acc.2 ++ [(data.id, pr.2)])) (s, [])
  let findAddr := fun (i : Nat) =>
    (p1.2.find? fun pr => pr.1 == i).map (·.2)
  let s2 := snap.nodes.foldl
    (fun sacc data =>
      match findAddr data.id with
      | none => sacc
      | some na =>
        match data.parentId with
        | none => sacc
        | some pid => setHL sacc na fun n =>
            { n with parent := findAddr pid }) p1.1
  let curHL := snap.currentHLId.bind findAddr
  let curLL := match snap.currentLLId with
    | none => none
    | some tgt =>
      match curHL.bind fun a => getHL s2 a with
      | some n =>
        match n.treeRoot with
        | some r => findLLAddr s2 (s2.llHeap.length + 1) r tgt
        | none => none
      | none => none
  { s2 with
    openS := snap.openIds.filterMap findAddr,
    explored := snap.exploredMap.filterMap
      fun e => (findAddr e.2).map fun a => (e.1, a),
    currentHL := curHL,
    currentLL := curLL,
    stepNumber := snap.stepNumber, phase := snap.phase,
    status := snap.status, nodesGenerated := snap.nodesGenerated,
    configurationsExplored := snap.configurationsExplored,
    generatedConfig := snap.generatedConfig, solution := snap.solution }

/-- `initialize()` (app.js 208–248): reset counters and state, allocate
the root constraint node and initial high-level node, save the first
snapshot. -/
def initializeH (s : SolverH) : SolverH :=
  let base : SolverH :=
    { s with
      llHeap := [], llNext := 0, arrHeap := [], arrNext := 0,
      hlHeap := [], hlNext := 0, openS := [], explored := [],
      currentHL := none, currentLL := none, generatedConfig := none,
      stepNumber := 0, phase := Phase.init, status := Status.running,
      solution := none, nodesGenerated := 1, configurationsExplored := 1,
      history := [] }
  let startCfg := startConfig s.agents
  let p1 := allocLL base none none none 0
  let p2 := allocHL p1.1 startCfg none
  let p3 := allocArr p2.1 [p1.2]
  let s4 := setHL p3.1 p2.2 fun n =>
    { n with
      treeRoot := some p1.2,
      treeArr := p3.2,
      order := getInitOrder s.graph s.agents }
  saveHistoryH { s4 with
    openS := [p2.2],
    explored := [(startCfg, p2.2)],
    currentHL := some p2.2,
    phase := Phase.select }

/-- `stepBack()` (app.js 550–558). -/
def stepBackH (s : SolverH) : SolverH × Bool :=
  if s.history.length > 1 then
    let h' := s.history.dropLast
    match h'.getLast? with
    | some prev => (restoreFromSnapshotH { s with history := h' } prev, true)
    | none => ({ s with history := h' }, true)
  else (s, false)

/-- `stepSelect()` (app.js 320–350). -/
def stepSelectH (s : SolverH) : SolverH × Bool :=
  match s.openS.getLast? with
  | none => ({ s with status := Status.no_solution }, false)
  | some na =>
    let s1 := { s with currentHL := some na }
    match getHL s na with
    | none => (s1, false)
    | some n =>
      if n.config = goalConfig s.agents then
        ({ s1 with
            solution := some (backtrackH s1 (s1.hlHeap.length + 1)
              (some na)),
            status := Status.solved }, false)
      else if (getArr s n.treeArr).length = 0 then
        ({ s1 with openS := s1.openS.dropLast }, true)
      else
        ({ s1 with phase := Phase.pop_constraint }, true)

/-- `stepPopConstraint()` (app.js 352–363): `N.tree.shift()` and the flag
writes are in-place stores. -/
def stepPopConstraintH (s : SolverH) : SolverH × Bool :=
  match s.currentHL with
  | none => (s, false)
  | some na =>
    match getHL s na with
    | none => (s, false)
    | some n =>
      match getArr s n.treeArr with
      | [] => (s, false)
      | c :: rest =>
        let s1 := setArr s n.treeArr rest
        let s2 := setLL s1 c fun m =>
          { m with isSelected := true, isSearched := true }
        ({ s2 with currentLL := some c, phase := Phase.expand_tree }, true)

/-- `stepExpandTree()` (app.js 365–392): `C.children.push` and
`N.tree.push` mutate the shared objects. -/
def stepExpandTreeH (s : SolverH) : SolverH × Bool :=
  match s.currentHL, s.currentLL with
  | some na, some ca =>
    match getHL s na, getLL s ca with
    | some n, some c =>
      if c.depth < s.agents.length then
        match n.order[c.depth]? with
        | none => (s, false)
        | some agentId =>
          match n.config[agentId]? with
          | none => (s, false)
          | some currentVertex =>
            let moves := currentVertex ::
              s.graph.getNeighbors currentVertex
            let s' := moves.foldl (fun sacc v =>
              let pr := allocLL sacc (some ca) (some agentId) (some v)
                (c.depth + 1)
              let s2 := setLL pr.1 ca fun m =>
                { m with children := m.children ++ [pr.2] }
              setArr s2 n.treeArr (getArr s2 n.treeArr ++ [pr.2])) s
            ({ s' with phase := Phase.generate }, true)
      else ({ s with phase := Phase.generate }, true)
    | _, _ => (s, false)
  | _, _ => (s, false)

/-- `stepGenerate()` (app.js 394–415), reusing the pure generator. -/
def stepGenerateH (s : SolverH) : SolverH × Bool :=
  match s.currentHL, s.currentLL with
  | some na, some ca =>
    match getHL s na with
    | some n =>
      match generateConfig s.graph s.agents n.config
          (getConstraintsH s (s.llHeap.length + 1) (some ca)) with
      | none => ({ s with
          generatedConfig := none,
          phase := Phase.select }, true)
      | some q => ({ s with
          generatedConfig := some q,
          phase := Phase.check }, true)
    | none => (s, false)
  | _, _ => (s, false)

/-- `stepCheck()` (app.js 417–445). -/
def stepCheckH (s : SolverH) : SolverH × Bool :=
  match s.generatedConfig, s.currentHL with
  | some q, some na =>
    if s.explored.any (fun pr => pr.1 == q) then
      ({ s with phase := Phase.select }, true)
    else
      let p1 := allocLL s none none none 0
      let p2 := allocHL p1.1 q (some na)
      let p3 := allocArr p2.1 [p1.2]
      let s4 := setHL p3.1 p2.2 fun n =>
        { n with
          treeRoot := some p1.2,
          treeArr := p3.2,
          order := getOrder s.graph s.agents q }
      ({ s4 with
          openS := s4.openS ++ [p2.2],
          explored := s4.explored ++ [(q, p2.2)],
          nodesGenerated := s.nodesGenerated + 1,
          configurationsExplored := s.configurationsExplored + 1,
          phase := Phase.select }, true)
  | _, _ => (s, false)

/-- `step()` (app.js 298–318). -/
def stepH (s : SolverH) : SolverH × Bool :=
  if s.status ≠ Status.running then (s, false)
  else
    let s2 := { saveHistoryH s with stepNumber := s.stepNumber + 1 }
    match s2.phase with
    | Phase.select => stepSelectH s2
    | Phase.pop_constraint => stepPopConstraintH s2
    | Phase.expand_tree => stepExpandTreeH s2
    | Phase.generate => stepGenerateH s2
    | Phase.check => stepCheckH s2
    | Phase.init => (s2, false)

/-- A fresh solver object (`new LaCAM(graph, agents)`). -/
def mkSolverH (g : Graph) (agents : List Agent) : SolverH :=
  { graph := g, agents := agents, llHeap := [], llNext := 0,
    arrHeap := [], arrNext := 0, hlHeap := [], hlNext := 0, openS := [],
    explored := [], currentHL := none, currentLL := none,
    generatedConfig := none, stepNumber := 0, phase := Phase.init,
    status := Status.running, solution := none, nodesGenerated := 0,
    configurationsExplored := 0, history := [] }

/-- UI actions against the solver. -/
inductive ActionH
  | start
  | advance
  | back

def runH : SolverH → List ActionH → SolverH
  | s, [] => s
  | s, a :: rest =>
    runH (match a with
      | ActionH.start => initializeH s
      | ActionH.advance => (stepH s).1
      | ActionH.back => (stepBackH s).1) rest

end HeapModel

/-- Replay a UI action list against the value-level model. -/
def runActions : LaCAM → List HeapModel.ActionH → LaCAM
  | l, [] => l
  | l, a :: rest =>
    runActions (match a with
      | HeapModel.ActionH.start => initSolver l
      | HeapModel.ActionH.advance => (step l).1
      | HeapModel.ActionH.back => (stepBack l).1) rest

/-- initialize; step; step; stepBack; step; step; stepBack; stepBack;
step; step — the sequence that corrupts the shared history. -/
def bugActions : List HeapModel.ActionH :=
  [HeapModel.ActionH.start, HeapModel.ActionH.advance,
   HeapModel.ActionH.advance, HeapModel.ActionH.back,
   HeapModel.ActionH.advance, HeapModel.ActionH.advance,
   HeapModel.ActionH.back, HeapModel.ActionH.back,
   HeapModel.ActionH.advance, HeapModel.ActionH.advance]

/-- initialize followed by six plain steps. -/
def straightActions : List HeapModel.ActionH :=
  [HeapModel.ActionH.start, HeapModel.ActionH.advance,
   HeapModel.ActionH.advance, HeapModel.ActionH.advance,
   HeapModel.ActionH.advance, HeapModel.ActionH.advance,
   HeapModel.ActionH.advance]

/-! ## The claims -/

/-- C1 (amended): every configuration `q` returned by
`generateConfig(cfg, cs)` has pairwise-distinct positions, keeps every
unconstrained agent on its vertex or moves it across one edge, realises
every constraint of `cs` verbatim, and exhibits no swap.  (Clause (b) of the
original claim is restricted to unconstrained agents: a constrained agent is
placed on `cs[i]` without an adjacency check, see
`claim_C1_counterexample`.) -/
theorem claim_C1_successor_validity (g : Graph) (agents : List Agent)
    (cfg : List Nat) (cs : List (Nat × Nat)) (q : List Nat)
    (h : generateConfig g agents cfg cs = some q) :
    SuccessorValid g agents cfg cs q :=
  generateConfig_spec g agents cfg cs q h

/-- C1 counterexample to the original clause (b): on the edgeless two-vertex
graph, with one agent on vertex `0` and the constraint map `{0 ↦ 1}`, the
generator returns `[1]` although vertex `1` is neither the agent's current
vertex nor one of its neighbors. -/
theorem claim_C1_counterexample :
    generateConfig ⟨[0, 1], fun _ => []⟩ [⟨0, 1⟩] [0] [(0, 1)] = some [1] ∧
    ¬((1 : Nat) = 0 ∨ 1 ∈ (Graph.mk [0, 1] fun _ => []).adj 0) := by
  refine ⟨by decide, by simp⟩

/-- Witness instantiating `claim_C1_successor_validity` on the one-vertex
graph with one agent staying put. -/
theorem claim_C1_witness :
    generateConfig ⟨[0], fun _ => []⟩ [⟨0, 0⟩] [0] [] = some [0] ∧
    SuccessorValid ⟨[0], fun _ => []⟩ [⟨0, 0⟩] [0] [] [0] :=
  ⟨by decide, claim_C1_successor_validity _ _ _ _ _ (by decide)⟩

/-- C5: `getDistance` returns `0` when `from` equals `to` (including two
nulls), the sentinel `Infinity` when exactly one argument is null or when
the target is unreachable, and otherwise the exact hop distance: the least
`d` such that the graph has a walk of length `d` between the endpoints. -/
theorem claim_C5_distance (g : Graph) (hwf : g.WF) (f t : Option Nat) :
    DistanceSpec g f t := by
  refine ⟨getDistance_refl g f t, fun hne h => getDistance_null g f t hne h, ?_⟩
  rintro u v rfl rfl huv
  exact ⟨getDistance_eq_top_iff g hwf u v huv,
    fun d => getDistance_eq_coe_iff g hwf u v huv d⟩

/-- Witness instantiating `claim_C5_distance` on the edgeless two-vertex
graph. -/
theorem claim_C5_witness :
    DistanceSpec ⟨[0, 1], fun _ => []⟩ (some 0) (some 1) := by
  refine claim_C5_distance _ ?_ _ _
  refine ⟨by decide, fun v => List.nodup_nil, fun v => by simp,
    fun u v h => by simp at h, fun u v h => by simp at h, fun v h => rfl⟩

/-- C7: both priority orders are permutations of `0..N-1`; `getInitOrder`
is sorted by strictly descending start-to-goal distance with ties broken by
ascending agent id, and `getOrder(Q)` puts agents off their goal before
agents on their goal and sorts each part by strictly descending
distance-to-goal, ties again by ascending agent id. -/
theorem claim_C7_priority_orders (g : Graph) (agents : List Agent)
    (cfg : List Nat) :
    (getInitOrder g agents).Perm (List.range agents.length) ∧
    (getOrder g agents cfg).Perm (List.range agents.length) ∧
    (getInitOrder g agents).Pairwise (fun a b =>
      initDist g agents b < initDist g agents a ∨
      (initDist g agents a = initDist g agents b ∧ a < b)) ∧
    (getOrder g agents cfg).Pairwise (fun a b =>
      (atGoalB agents cfg a = false ∧ atGoalB agents cfg b = true) ∨
      (atGoalB agents cfg a = atGoalB agents cfg b ∧
        (curDist g agents cfg b < curDist g agents cfg a ∨
          (curDist g agents cfg a = curDist g agents cfg b ∧ a < b)))) :=
  ⟨getInitOrder_perm g agents, getOrder_perm g agents cfg,
   getInitOrder_sorted g agents, getOrder_sorted g agents cfg⟩

/-- C10: none of the four driver operations changes the graph or the agent
list; they only rewrite the solver's search state. -/
theorem claim_C10_frame (l : LaCAM) :
    (initSolver l).graph = l.graph ∧ (initSolver l).agents = l.agents ∧
    (step l).1.graph = l.graph ∧ (step l).1.agents = l.agents ∧
    (stepBack l).1.graph = l.graph ∧ (stepBack l).1.agents = l.agents ∧
    (reset l).graph = l.graph ∧ (reset l).agents = l.agents :=
  ⟨(initSolver_frame l).1, (initSolver_frame l).2,
   (step_frame l).1, (step_frame l).2,
   (stepBack_frame l).1, (stepBack_frame l).2,
   (initSolver_frame l).1, (initSolver_frame l).2⟩


/-- The `select` phase on a node holding the goal configuration: record the
backtracked path, declare `solved`, return `false`. -/
theorem stepSelect_solved (l : LaCAM) (nid : Nat) (n : HLNode)
    (ho : l.openS.getLast? = some nid) (hn : lookupHL l nid = some n)
    (hc : n.config = goalConfig l.agents) :
    stepSelect l =
      ({ l with
           currentHL := some nid,
           solution := some (backtrack { l with currentHL := some nid } nid),
           status := Status.solved }, false) := by
  unfold stepSelect
  rw [ho]
  dsimp only
  rw [hn]
  dsimp only
  rw [if_pos hc]

/-- C8: when every agent starts on its goal, the very first `step()` after
`initialize()` stays in the `select` phase, reports `solved`, returns
`false`, and stores the one-configuration solution `[start]`. -/
theorem claim_C8_already_solved (l0 : LaCAM)
    (h : ∀ a ∈ l0.agents, a.start = a.goal) :
    (step (initSolver l0)).2 = false ∧
    (step (initSolver l0)).1.status = Status.solved ∧
    (step (initSolver l0)).1.phase = Phase.select ∧
    (step (initSolver l0)).1.solution = some [startConfig l0.agents] := by
  have hgoal : goalConfig l0.agents = startConfig l0.agents :=
    List.map_congr_left fun a ha => (h a ha).symm
  have key := stepSelect_solved
    { saveHistory (initSolver l0) with
        stepNumber := (initSolver l0).stepNumber + 1 }
    0
    { id := 0, config := startConfig l0.agents, treeRoot := some 0,
      tree := [0], order := getInitOrder l0.graph l0.agents, parent := none }
    rfl rfl hgoal.symm
  exact ⟨congrArg Prod.snd key, congrArg (fun p => p.1.status) key,
    congrArg (fun p => p.1.phase) key, congrArg (fun p => p.1.solution) key⟩

/-- Witness instantiating `claim_C8_already_solved` on the one-vertex
instance whose single agent starts at its goal. -/
theorem claim_C8_witness :
    (∀ a ∈ [(⟨0, 0⟩ : Agent)], a.start = a.goal) ∧
    ((step (initSolver (mkLaCAM ⟨[0], fun _ => []⟩ [⟨0, 0⟩]))).2 = false ∧
     (step (initSolver (mkLaCAM ⟨[0], fun _ => []⟩ [⟨0, 0⟩]))).1.status =
       Status.solved ∧
     (step (initSolver (mkLaCAM ⟨[0], fun _ => []⟩ [⟨0, 0⟩]))).1.phase =
       Phase.select ∧
     (step (initSolver (mkLaCAM ⟨[0], fun _ => []⟩ [⟨0, 0⟩]))).1.solution =
       some [startConfig [⟨0, 0⟩]]) :=
  ⟨by decide, claim_C8_already_solved _ (by decide)⟩


/-- C2: in every reachable solver state with status `solved`, the stored
solution starts at the start configuration, ends at the goal configuration,
each hop is a generator output from its predecessor under a recorded
constraint set, and consequently each hop has pairwise-distinct positions,
moves every agent by stay-or-one-edge, and exhibits no swap. -/
theorem claim_C2_solution_soundness (g : Graph) (agents : List Agent)
    (hwf : g.WF) (hag : AgentsWF g agents) {l : LaCAM}
    (hreach : Reach g agents l) (hsolved : l.status = Status.solved) :
    ∃ sol, l.solution = some sol ∧
      sol.head? = some (startConfig agents) ∧
      sol.getLast? = some (goalConfig agents) ∧
      (sol.Chain' fun a b => ∃ cs, CsOK g a agents.length cs ∧
        generateConfig g agents a cs = some b) ∧
      (sol.Chain' fun a b =>
        b.length = agents.length ∧ b.Nodup ∧
        (∀ i : Nat, i < agents.length →
          ∃ cur np, a[i]? = some cur ∧ (np = cur ∨ np ∈ g.adj cur) ∧
            b[i]? = some np) ∧
        (∀ i j : Nat, i < j → j < agents.length →
          ¬(a[i]? = b[j]? ∧ a[j]? = b[i]?))) := by
  have hinv := reach_inv g agents hwf hag hreach
  obtain ⟨hg, ha, hc, hrest⟩ := hinv
  obtain ⟨sol, hsol, hsk⟩ := hc.solvedOK hsolved
  refine ⟨sol, hsol, hsk.1, hsk.2.1, hsk.2.2, ?_⟩
  exact List.Chain'.imp (fun a b h => solution_hop_valid g agents a b h) hsk.2.2

/-- Witness for C2: on the one-vertex graph with a single already-solved
agent, the first `step()` reaches `solved` and the claim describes the
stored one-hop solution. -/
theorem claim_C2_witness :
    ∃ sol, (step (initSolver (mkLaCAM ⟨[0], fun _ => []⟩
        [⟨0, 0⟩]))).1.solution = some sol ∧
      sol.head? = some (startConfig [⟨0, 0⟩]) ∧
      sol.getLast? = some (goalConfig [⟨0, 0⟩]) ∧
      (sol.Chain' fun a b => ∃ cs,
        CsOK ⟨[0], fun _ => []⟩ a (List.length [(⟨0, 0⟩ : Agent)]) cs ∧
        generateConfig ⟨[0], fun _ => []⟩ [⟨0, 0⟩] a cs = some b) ∧
      (sol.Chain' fun a b =>
        b.length = List.length [(⟨0, 0⟩ : Agent)] ∧ b.Nodup ∧
        (∀ i : Nat, i < List.length [(⟨0, 0⟩ : Agent)] →
          ∃ cur np, a[i]? = some cur ∧
            (np = cur ∨ np ∈ (Graph.mk [0] fun _ => []).adj cur) ∧
            b[i]? = some np) ∧
        (∀ i j : Nat, i < j → j < List.length [(⟨0, 0⟩ : Agent)] →
          ¬(a[i]? = b[j]? ∧ a[j]? = b[i]?))) :=
  claim_C2_solution_soundness ⟨[0], fun _ => []⟩ [⟨0, 0⟩]
    ⟨by decide, fun _ => List.nodup_nil, fun v h => (List.not_mem_nil v) h,
      fun u v h => absurd h (List.not_mem_nil v),
      fun u v h => absurd h (List.not_mem_nil v), fun _ _ => rfl⟩
    (by intro a h; refine ⟨?_, ?_⟩ <;> · fin_cases h; decide)
    (Reach.step (Reach.init (mkLaCAM ⟨[0], fun _ => []⟩ [⟨0, 0⟩]) rfl rfl))
    (by decide)


/-- C9: `stepBack()` succeeds exactly when more than one snapshot is stored
(in particular not right after `initialize()`, which leaves a one-entry
history); on success it restores the immediately preceding snapshot, on
failure it leaves the state unchanged; the history never exceeds 200
entries in any reachable state, and `saveHistory` evicts the oldest entry
first once the bound is hit. -/
theorem claim_C9_stepback_history (l : LaCAM) :
    ((stepBack l).2 = true ↔ l.history.length > 1) ∧
    (l.history.length ≤ 1 → (stepBack l).1 = l) ∧
    (l.history.length > 1 → ∃ prev, l.history.dropLast.getLast? = some prev ∧
      (stepBack l).1 =
        restoreFromSnapshot { l with history := l.history.dropLast } prev) ∧
    (initSolver l).history.length = 1 ∧
    (∀ g agents, g.WF → AgentsWF g agents → Reach g agents l →
      1 ≤ l.history.length ∧ l.history.length ≤ 200) ∧
    (l.history.length < 200 →
      (saveHistory l).history = l.history ++ [mkSnapshot l]) ∧
    (l.history.length = 200 →
      (saveHistory l).history = l.history.tail ++ [mkSnapshot l]) := by
  have hsv : (saveHistory l).history =
      if (l.history ++ [mkSnapshot l]).length > 200 then
        (l.history ++ [mkSnapshot l]).tail
      else l.history ++ [mkSnapshot l] := rfl
  refine ⟨?_, ?_, ?_, rfl, ?_, ?_, ?_⟩
  · unfold stepBack
    by_cases hlen : l.history.length > 1
    · rw [if_pos hlen]
      dsimp only
      cases hg : l.history.dropLast.getLast? <;> simp [hlen]
    · rw [if_neg hlen]
      simp [hlen]
  · intro h1
    unfold stepBack
    rw [if_neg (by omega)]
  · intro hlen
    unfold stepBack
    rw [if_pos hlen]
    dsimp only
    cases hg : l.history.dropLast.getLast? with
    | none =>
      exfalso
      have h0 : l.history.dropLast = [] := List.getLast?_eq_none_iff.mp hg
      have := congrArg List.length h0
      rw [List.length_dropLast] at this
      simp at this
      omega
    | some prev => exact ⟨prev, rfl, rfl⟩
  · intro g agents hwf hag hreach
    obtain ⟨-, -, -, -, -, -, h1, h2⟩ := reach_inv g agents hwf hag hreach
    exact ⟨h1, h2⟩
  · intro hlt
    rw [hsv, if_neg (by simp; omega)]
  · intro h200
    rw [hsv, if_pos (by simp [h200])]
    cases hh : l.history with
    | nil => rw [hh] at h200; simp at h200
    | cons a t => rfl


/-- Witness for C9: right after `initialize()` on the one-vertex instance
the history has a single entry (within the 1..200 bound) and `stepBack()`
leaves the state unchanged. -/
theorem claim_C9_witness :
    (stepBack (initSolver (mkLaCAM ⟨[0], fun _ => []⟩ [⟨0, 0⟩]))).1 =
      initSolver (mkLaCAM ⟨[0], fun _ => []⟩ [⟨0, 0⟩]) ∧
    1 ≤ (initSolver (mkLaCAM ⟨[0], fun _ => []⟩ [⟨0, 0⟩])).history.length ∧
    (initSolver (mkLaCAM ⟨[0], fun _ => []⟩ [⟨0, 0⟩])).history.length ≤ 200 :=
  ⟨(claim_C9_stepback_history
      (initSolver (mkLaCAM ⟨[0], fun _ => []⟩ [⟨0, 0⟩]))).2.1 (by decide),
   (claim_C9_stepback_history
      (initSolver (mkLaCAM ⟨[0], fun _ => []⟩ [⟨0, 0⟩]))).2.2.2.2.1
      ⟨[0], fun _ => []⟩ [⟨0, 0⟩]
      ⟨by decide, fun _ => List.nodup_nil, fun v h => (List.not_mem_nil v) h,
        fun u v h => absurd h (List.not_mem_nil v),
        fun u v h => absurd h (List.not_mem_nil v), fun _ _ => rfl⟩
      (by intro a h; refine ⟨?_, ?_⟩ <;> · fin_cases h; decide)
      (Reach.init (mkLaCAM ⟨[0], fun _ => []⟩ [⟨0, 0⟩]) rfl rfl)⟩



/-- C6: in every reachable state, every constraint-tree node has depth at
most N (the agent count), every child sits one level below its parent, and
`stepExpandTree` on a node of depth `< N` appends exactly one child per
move of agent `order[depth]` at depth `depth + 1` (to the parent's child
list and the node's queue), while on a node of depth `N` it leaves both
arenas unchanged. -/
theorem claim_C6_depth_bound (g : Graph) (agents : List Agent)
    (hwf : g.WF) (hag : AgentsWF g agents) {l : LaCAM}
    (hreach : Reach g agents l) :
    (∀ m ∈ l.llArena, m.depth ≤ agents.length) ∧
    (∀ n ∈ l.llArena, ∀ c ∈ n.children, ∃ cn,
      lookupLL l.llArena c = some cn ∧ cn.parent = some n.id ∧
      cn.depth = n.depth + 1) ∧
    (∀ nid cid n c, l.currentHL = some nid → l.currentLL = some cid →
      lookupHL l nid = some n → lookupLL l.llArena cid = some c →
      (¬ c.depth < agents.length →
        (stepExpandTree l).1.llArena = l.llArena ∧
        (stepExpandTree l).1.hlArena = l.hlArena) ∧
      (c.depth < agents.length →
        ∃ agentId currentVertex newNodes,
          n.order[c.depth]? = some agentId ∧
          n.config[agentId]? = some currentVertex ∧
          (stepExpandTree l).1.llArena =
            (updateLL l.llArena cid fun m =>
              { m with children := m.children ++ newNodes.map (·.id) }) ++
              newNodes ∧
          ((stepExpandTree l).1.hlArena =
            updateHL l.hlArena nid fun m =>
              { m with tree := m.tree ++ newNodes.map (·.id) }) ∧
          newNodes.map (·.whereV) =
            (currentVertex :: g.getNeighbors currentVertex).map some ∧
          ∀ m ∈ newNodes, m.parent = some cid ∧ m.who = some agentId ∧
            m.depth = c.depth + 1 ∧ m.children = [])) := by
  have hinv := reach_inv g agents hwf hag hreach
  obtain ⟨hg, ha, hc, -, -, -, -, -⟩ := hinv
  subst hg
  subst ha
  refine ⟨hc.llDepth, ?_, ?_⟩
  · intro n hn c hcch
    obtain ⟨hnd, hch⟩ := hc.llCoh.childOK n hn
    obtain ⟨hlt, cn, hlk, hp, hd⟩ := hch c hcch
    exact ⟨cn, hlk, hp, hd⟩
  · intro nid cid n c hh hl hlkn hlkc
    constructor
    · intro hge
      unfold stepExpandTree
      rw [hh, hl]
      dsimp only
      rw [hlkn, hlkc]
      dsimp only
      rw [if_neg hge]
      exact ⟨rfl, rfl⟩
    · intro hlt
      unfold stepExpandTree
      rw [hh, hl]
      dsimp only
      rw [hlkn, hlkc]
      dsimp only
      rw [if_pos hlt]
      have hOlen : n.order.length = l.agents.length :=
        ((hc.hlOrder n (lookupHL_mem hlkn).1).length_eq).trans
          (List.length_range _)
      cases hA : n.order[c.depth]? with
      | none =>
        exfalso
        have := List.getElem?_eq_none_iff.mp hA
        omega
      | some agentId =>
        dsimp only
        have hClen : n.config.length = l.agents.length :=
          hc.hlCfgLen n (lookupHL_mem hlkn).1
        have hagN : agentId < l.agents.length := by
          have hagent : agentId ∈ n.order := List.getElem?_mem hA
          have := (hc.hlOrder n (lookupHL_mem hlkn).1).mem_iff.mp hagent
          exact List.mem_range.mp this
        cases hV : n.config[agentId]? with
        | none =>
          exfalso
          have := List.getElem?_eq_none_iff.mp hV
          omega
        | some currentVertex =>
          dsimp only
          refine ⟨agentId, currentVertex,
            expandNodes l.graph l.llCtr cid agentId c.depth currentVertex,
            rfl, hV, ?_, ?_,
            expandNodes_where l.graph l.llCtr cid agentId c.depth
              currentVertex,
            expandNodes_fields l.graph l.llCtr cid agentId c.depth
              currentVertex⟩
          · rw [expandNodes_ids]
            rfl
          · rw [expandNodes_ids]


/-- Witness for C6: on the path graph with one agent `0 → 1`, after two
steps (select, pop) the single constraint-tree node respects the depth
bound. -/
theorem claim_C6_witness :
    ({ id := 0, parent := none, who := none, whereV := none, children := [],
       depth := 0, isSearched := true, isSelected := true } : LLNode).depth ≤
      List.length [(⟨0, 1⟩ : Agent)] :=
  (claim_C6_depth_bound pathGraph [⟨0, 1⟩] pathGraph_wf
    (by intro a h; refine ⟨?_, ?_⟩ <;> · fin_cases h; decide)
    (Reach.step (Reach.step
      (Reach.init (mkLaCAM pathGraph [⟨0, 1⟩]) rfl rfl)))).1
    _ (by decide)


/-- C3: on any well-formed instance, `initialize()` followed by repeated
`step()` reaches a terminal status (`solved` or `no_solution`) within a
bounded number of calls, after which `step()` refuses to run and leaves
the state unchanged. -/
theorem claim_C3_termination (g : Graph) (agents : List Agent)
    (hwf : g.WF) (hag : AgentsWF g agents) (l0 : LaCAM)
    (hg : l0.graph = g) (ha : l0.agents = agents) :
    ∃ B : Nat, ∀ k, B ≤ k →
      ((stepN (initSolver l0) k).status = Status.solved ∨
       (stepN (initSolver l0) k).status = Status.no_solution) ∧
      step (stepN (initSolver l0) k) = (stepN (initSolver l0) k, false) := by
  obtain ⟨B, hB⟩ := lacam_terminates g agents hwf
    (inv_initSolver g agents hwf hag hg ha)
  refine ⟨B, ?_⟩
  intro k hk
  obtain ⟨j, hj⟩ := Nat.exists_eq_add_of_le hk
  subst hj
  rw [stepN_add, stepN_done hB j]
  exact ⟨hB, step_done hB⟩

/-- Witness for C3: the one-vertex already-solved instance terminates. -/
theorem claim_C3_witness :
    ∃ B : Nat, ∀ k, B ≤ k →
      ((stepN (initSolver (mkLaCAM ⟨[0], fun _ => []⟩ [⟨0, 0⟩])) k).status =
          Status.solved ∨
       (stepN (initSolver (mkLaCAM ⟨[0], fun _ => []⟩ [⟨0, 0⟩])) k).status =
          Status.no_solution) ∧
      step (stepN (initSolver (mkLaCAM ⟨[0], fun _ => []⟩ [⟨0, 0⟩])) k) =
        (stepN (initSolver (mkLaCAM ⟨[0], fun _ => []⟩ [⟨0, 0⟩])) k,
          false) :=
  claim_C3_termination ⟨[0], fun _ => []⟩ [⟨0, 0⟩]
    ⟨by decide, fun _ => List.nodup_nil, fun v h => (List.not_mem_nil v) h,
      fun u v h => absurd h (List.not_mem_nil v),
      fun u v h => absurd h (List.not_mem_nil v), fun _ _ => rfl⟩
    (by intro a h; refine ⟨?_, ?_⟩ <;> · fin_cases h; decide)
    (mkLaCAM ⟨[0], fun _ => []⟩ [⟨0, 0⟩]) rfl rfl


/-- C4 (refuted — code bug): on the path graph `0 — 1` with the single
agent `0 → 1`, a straight run solves the instance in six steps, but the
sequence initialize; step; step; stepBack; step; step; stepBack; stepBack;
step; step drives the heap-accurate model into `no_solution`:
`restoreFromSnapshot` shares the snapshot's cloned constraint tree and
`tree` array with the live state, and the later in-place `tree.shift()` /
`children.push` / flag writes corrupt the remaining history.  Under
value-semantics (faithful round-trip) the same action sequence leaves the
solver mid-search, and four further steps solve the instance. -/
theorem claim_C4_snapshot_roundtrip :
    (HeapModel.runH (HeapModel.mkSolverH pathGraph [⟨0, 1⟩])
        straightActions).status = Status.solved ∧
    (HeapModel.runH (HeapModel.mkSolverH pathGraph [⟨0, 1⟩])
        bugActions).status = Status.no_solution ∧
    (runActions (mkLaCAM pathGraph [⟨0, 1⟩]) bugActions).status =
      Status.running ∧
    (runActions (mkLaCAM pathGraph [⟨0, 1⟩])
        (bugActions ++ [HeapModel.ActionH.advance, HeapModel.ActionH.advance,
          HeapModel.ActionH.advance, HeapModel.ActionH.advance])).status =
      Status.solved :=
  ⟨rfl, rfl, rfl, rfl⟩

end LaCAMJS
